import Mathlib

/-!
# LibreDWG bit-level codec (`src/bits.c`)

A shallow embedding of the bit-addressable reader/writer of LibreDWG together
with theorems about its compact encodings.

Conventions of the embedding.

* `Bit_Chain` carries the fields of the C structure.  The memory behind the
  pointer `chain` is a total map from index to stored value; only the indices
  below `size` belong to the allocated block.  An `unsigned char` read from it
  is taken modulo 256, as is every value stored into an `unsigned char`.
* `size` and `byte` are natural numbers.  The comparison
  `dat->byte >= dat->size - 1` is modelled with truncated subtraction, which
  agrees with C whenever `size >= 1`; every theorem below assumes a non-empty
  buffer.
* A `double` is represented by its 64-bit IEEE-754 pattern on a little-endian
  host: byte `i` of the object is `pattern / 256^i % 256`.
* Functions that return a value and move the cursor return a pair
  `(value, new state)`.
* The checksum functions take the bytes of the range `[adr, adr + n)` as a
  list; `chain_bytes` extracts that list from the memory map.
* A `while` loop without a static bound takes a bound on its iterations and
  returns `none` when the bound is exhausted; the theorems show that the
  bound they name is enough.
* A C string is the list of its bytes; the array returned by `bit_read_TV`
  ends with the terminator 0.
* For the readers and the sentinel search, a function named `..._reads` lists
  the indices of `dat->chain` that the C function accesses, in order.
-/

namespace LibreDWG

set_option autoImplicit false

/-! ## Data model -/

/-- Modelled from the spec: the enumeration `Dwg_Version_Type` is declared in
`dwg.h`, which is not part of the sources at hand; versions are ordered tags
and only the comparisons with `R_2000` and `R_2004` matter. -/
abbrev Dwg_Version_Type := Nat

/-- Modelled from the spec: the version tag from which the newer encodings of
thickness and extrusion apply (position in `enum DWG_VERSION_TYPE`). -/
def R_2000 : Dwg_Version_Type := 3

/-- Modelled from the spec: the version tag from which colours carry a
true-colour value and the 32-bit checksum is used. -/
def R_2004 : Dwg_Version_Type := 4

/-- Modelled from the spec: `Bit_Chain` is declared in `bits.h`, which is not
part of the sources at hand; the fields are the ones `bits.c` accesses
(`chain`, `size`, `byte`, `bit`, `version`). -/
structure Bit_Chain where
  chain : Nat → Nat
  size : Nat
  byte : Nat
  bit : Nat
  version : Dwg_Version_Type

/-- Modelled from the spec: `Dwg_Handle` is declared in `dwg.h`; the fields
are the ones `bits.c` accesses (`code`, `size`, `value`). -/
structure Dwg_Handle where
  code : Nat
  size : Nat
  value : Nat
deriving DecidableEq, Repr

/-- Conversion to `unsigned char`. -/
def UCHAR (x : Nat) : Nat := x % 256

/-- Conversion of a signed result to `unsigned char`. -/
def UCHAR_of_int (x : Int) : Nat := (x % 256).toNat

/-- Conversion of a signed result to `long unsigned int`.  A negative value
wraps (64-bit `long`); no wrap is modelled at the upper end, a byte index
being bounded by the address space. -/
def ULONG_of_int (x : Int) : Nat := if x < 0 then (x % 2 ^ 64).toNat else x.toNat

/-- Byte `i` of the object representation of an integer or double
(little-endian host). -/
def get_byte (x : Nat) (i : Nat) : Nat := x / 256 ^ i % 256

/-- Store `b` into byte `i` of the object representation (little-endian
host). -/
def set_byte (x : Nat) (i : Nat) (b : Nat) : Nat :=
  x - get_byte x i * 256 ^ i + UCHAR b * 256 ^ i

/-- The block size of `bit_chain_alloc`. -/
def CHAIN_BLOCK : Nat := 40960

/-! ## Cursor and growth -/

/-- Allocates memory space for the chain: `calloc` for an empty buffer (zeroed
block, cursor reset), `realloc` otherwise (the old bytes are kept; the fresh
bytes are whatever the memory map holds there). -/
def bit_chain_alloc (dat : Bit_Chain) : Bit_Chain :=
  if dat.size = 0 then
    { dat with chain := fun _ => 0, size := CHAIN_BLOCK, byte := 0, bit := 0 }
  else
    { dat with size := dat.size + CHAIN_BLOCK }

/-- Advance bits (forward or backward).  `endpos % 8` and `endpos / 8` are the
C operators, truncating toward zero. -/
def bit_advance_position (dat : Bit_Chain) (advance : Int) : Bit_Chain :=
  let endpos : Int := (dat.bit : Int) + advance
  if dat.byte ≥ dat.size - 1 ∧ endpos > 7 then
    { dat with bit := 7 }
  else
    { dat with
      bit := UCHAR_of_int (endpos.tmod 8)
      byte := ULONG_of_int ((dat.byte : Int) + endpos.tdiv 8) }

/-! ## Primitive accessors -/

/-- The assignment `dat->chain[i] = v`, with the conversion of `v` to
`unsigned char`. -/
def chain_store (dat : Bit_Chain) (i v : Nat) : Bit_Chain :=
  { dat with chain := Function.update dat.chain i (UCHAR v) }

/-- Read 1 bit. -/
def bit_read_B (dat : Bit_Chain) : Nat × Bit_Chain :=
  let byte := UCHAR (dat.chain dat.byte)
  let result := UCHAR ((byte &&& (0x80 >>> dat.bit)) >>> (7 - dat.bit))
  (result, bit_advance_position dat 1)

/-- Write 1 bit.  `byte & ~m` on an `unsigned char` is `byte & (0xff ^ m)`. -/
def bit_write_B (dat : Bit_Chain) (value : Nat) : Bit_Chain :=
  let dat := if dat.byte ≥ dat.size - 1 then bit_chain_alloc dat else dat
  let byte := UCHAR (dat.chain dat.byte)
  let dat :=
    if UCHAR value ≠ 0 then
      chain_store dat dat.byte (byte ||| (0x80 >>> dat.bit))
    else
      chain_store dat dat.byte (byte &&& (0xff ^^^ (0x80 >>> dat.bit)))
  bit_advance_position dat 1

/-- Read 2 bits. -/
def bit_read_BB (dat : Bit_Chain) : Nat × Bit_Chain :=
  let byte := UCHAR (dat.chain dat.byte)
  let result :=
    if dat.bit < 7 then
      UCHAR ((byte &&& (0xc0 >>> dat.bit)) >>> (6 - dat.bit))
    else
      let result := UCHAR ((byte &&& 0x01) <<< 1)
      if dat.byte < dat.size - 1 then
        let byte := UCHAR (dat.chain (dat.byte + 1))
        UCHAR (result ||| ((byte &&& 0x80) >>> 7))
      else result
  (result, bit_advance_position dat 2)

/-- Write 2 bits. -/
def bit_write_BB (dat : Bit_Chain) (value : Nat) : Bit_Chain :=
  let value := UCHAR value
  let dat := if dat.byte ≥ dat.size - 1 then bit_chain_alloc dat else dat
  let byte := UCHAR (dat.chain dat.byte)
  let dat :=
    if dat.bit < 7 then
      let mask := UCHAR (0xc0 >>> dat.bit)
      chain_store dat dat.byte ((byte &&& (0xff ^^^ mask)) ||| (value <<< (6 - dat.bit)))
    else
      let dat := chain_store dat dat.byte ((byte &&& 0xfe) ||| (value >>> 1))
      if dat.byte < dat.size - 1 then
        let byte := UCHAR (dat.chain (dat.byte + 1))
        chain_store dat (dat.byte + 1) ((byte &&& 0x7f) ||| ((value &&& 0x01) <<< 7))
      else dat
  bit_advance_position dat 2

/-- Read 1 byte (raw char). -/
def bit_read_RC (dat : Bit_Chain) : Nat × Bit_Chain :=
  let byte := UCHAR (dat.chain dat.byte)
  let result :=
    if dat.bit = 0 then byte
    else
      let result := UCHAR (byte <<< dat.bit)
      if dat.byte < dat.size - 1 then
        let byte := UCHAR (dat.chain (dat.byte + 1))
        UCHAR (result ||| (byte >>> (8 - dat.bit)))
      else result
  (result, bit_advance_position dat 8)

/-- Write 1 byte (raw char). -/
def bit_write_RC (dat : Bit_Chain) (value : Nat) : Bit_Chain :=
  let value := UCHAR value
  let dat := if dat.byte ≥ dat.size - 1 then bit_chain_alloc dat else dat
  let dat :=
    if dat.bit = 0 then
      chain_store dat dat.byte value
    else
      let byte := UCHAR (dat.chain dat.byte)
      let remainder := UCHAR (byte &&& (0xff <<< (8 - dat.bit)))
      let dat := chain_store dat dat.byte (remainder ||| (value >>> dat.bit))
      if dat.byte < dat.size - 1 then
        let byte := UCHAR (dat.chain (dat.byte + 1))
        let remainder := UCHAR (byte &&& (0xff >>> dat.bit))
        chain_store dat (dat.byte + 1) (remainder ||| (value <<< (8 - dat.bit)))
      else dat
  bit_advance_position dat 8

/-- Read 1 word (raw short), least significant byte first. -/
def bit_read_RS (dat : Bit_Chain) : Nat × Bit_Chain :=
  let (byte1, dat) := bit_read_RC dat
  let (byte2, dat) := bit_read_RC dat
  ((byte2 <<< 8) ||| byte1, dat)

/-- Write 1 word (raw short), least significant byte first. -/
def bit_write_RS (dat : Bit_Chain) (value : Nat) : Bit_Chain :=
  let dat := bit_write_RC dat (value &&& 0xFF)
  bit_write_RC dat (value >>> 8)

/-- Read 1 raw long (2 words), least significant word first. -/
def bit_read_RL (dat : Bit_Chain) : Nat × Bit_Chain :=
  let (word1, dat) := bit_read_RS dat
  let (word2, dat) := bit_read_RS dat
  ((word2 <<< 16) ||| word1, dat)

/-- Write 1 raw long (2 words), least significant word first. -/
def bit_write_RL (dat : Bit_Chain) (value : Nat) : Bit_Chain :=
  let dat := bit_write_RS dat (value &&& 0xFFFF)
  bit_write_RS dat (value >>> 16)

/-- Read 1 raw double (8 bytes): the bytes are stored in increasing address
order into the object (`byte[i] = bit_read_RC(dat)` for `i = 0..7`). -/
def bit_read_RD (dat : Bit_Chain) : Nat × Bit_Chain :=
  (List.range 8).foldl
    (fun (acc : Nat × Bit_Chain) i =>
      let (b, dat) := bit_read_RC acc.2
      (set_byte acc.1 i b, dat))
    (0, dat)

/-- Write 1 raw double (8 bytes): `bit_write_RC(dat, val[i])` for `i = 0..7`. -/
def bit_write_RD (dat : Bit_Chain) (value : Nat) : Bit_Chain :=
  (List.range 8).foldl (fun dat i => bit_write_RC dat (get_byte value i)) dat

/-! ## IEEE-754 comparison on bit patterns -/

/-- The pattern of `0.0`. -/
def DBL_ZERO : Nat := 0

/-- The pattern of `1.0`. -/
def DBL_ONE : Nat := 0x3FF0000000000000

/-- The pattern stored by `bit_read_BD` on the invalid code (all bits set). -/
def DBL_ALL_ONES : Nat := 0xFFFFFFFFFFFFFFFF

/-- A pattern is a NaN when its exponent field is all ones and its fraction is
not zero. -/
def double_isNaN (x : Nat) : Bool :=
  x / 2 ^ 52 % 2 ^ 11 = 0x7FF ∧ x % 2 ^ 52 ≠ 0

/-- The C comparison `a == b` of two doubles given by their patterns: false
when either is a NaN, true for equal patterns and for the two zeros. -/
def double_eq (a b : Nat) : Bool :=
  !double_isNaN a && !double_isNaN b && (a % 2 ^ 64 = b % 2 ^ 64 ∨ (a % 2 ^ 63 = 0 ∧ b % 2 ^ 63 = 0))

/-! ## Compact numeric codecs -/

/-- Read 1 bitshort (compacted data). -/
def bit_read_BS (dat : Bit_Chain) : Nat × Bit_Chain :=
  let (two_bit_code, dat) := bit_read_BB dat
  if two_bit_code = 0 then bit_read_RS dat
  else if two_bit_code = 1 then
    let (result, dat) := bit_read_RC dat
    (UCHAR result, dat)
  else if two_bit_code = 2 then (0, dat)
  else (256, dat)

/-- Write 1 bitshort (compacted data). -/
def bit_write_BS (dat : Bit_Chain) (value : Nat) : Bit_Chain :=
  if value > 256 then
    let dat := bit_write_BB dat 0
    bit_write_RS dat value
  else if value = 0 then bit_write_BB dat 2
  else if value = 256 then bit_write_BB dat 3
  else
    let dat := bit_write_BB dat 1
    bit_write_RC dat value

/-- Read 1 bitlong (compacted data).  Code 3 logs an error and yields 256. -/
def bit_read_BL (dat : Bit_Chain) : Nat × Bit_Chain :=
  let (two_bit_code, dat) := bit_read_BB dat
  if two_bit_code = 0 then bit_read_RL dat
  else if two_bit_code = 1 then
    let (result, dat) := bit_read_RC dat
    (result &&& 0xFF, dat)
  else if two_bit_code = 2 then (0, dat)
  else (256, dat)

/-- Write 1 bitlong (compacted data). -/
def bit_write_BL (dat : Bit_Chain) (value : Nat) : Bit_Chain :=
  if value > 255 then
    let dat := bit_write_BB dat 0
    bit_write_RL dat value
  else if value = 0 then bit_write_BB dat 2
  else
    let dat := bit_write_BB dat 1
    bit_write_RC dat value

/-- Read 1 bitdouble (compacted data).  Code 3 logs an error and yields the
all-ones pattern, a NaN. -/
def bit_read_BD (dat : Bit_Chain) : Nat × Bit_Chain :=
  let (two_bit_code, dat) := bit_read_BB dat
  if two_bit_code = 0 then bit_read_RD dat
  else if two_bit_code = 1 then (DBL_ONE, dat)
  else if two_bit_code = 2 then (DBL_ZERO, dat)
  else (DBL_ALL_ONES, dat)

/-- Write 1 bitdouble (compacted data). -/
def bit_write_BD (dat : Bit_Chain) (value : Nat) : Bit_Chain :=
  if double_eq value DBL_ZERO then bit_write_BB dat 2
  else if double_eq value DBL_ONE then bit_write_BB dat 1
  else
    let dat := bit_write_BB dat 0
    bit_write_RD dat value

/-- The loop of `bit_read_MC`: the first argument is `i + 1`, the number of
iterations left; running out of iterations is the error exit, which logs and
returns 0.  The Boolean tells whether the error was logged. -/
def bit_read_MC_loop : Nat → Nat → Nat → Bit_Chain → Int × Bool × Bit_Chain
  | 0, _, _, dat => (0, true, dat)
  | n + 1, j, result, dat =>
    let (byte, dat) := bit_read_RC dat
    if byte &&& 0x80 = 0 then
      let negative := decide (byte &&& 0x40 ≠ 0)
      let byte := if byte &&& 0x40 ≠ 0 then byte &&& 0xbf else byte
      let result := result ||| (byte <<< j)
      (if negative then -(result : Int) else (result : Int), false, dat)
    else
      let byte := byte &&& 0x7f
      bit_read_MC_loop n (j + 7) (result ||| (byte <<< j)) dat

/-- Read 1 modular char (max 4 bytes). -/
def bit_read_MC (dat : Bit_Chain) : Int × Bool × Bit_Chain :=
  bit_read_MC_loop 4 0 0 dat

/-- First loop of `bit_write_MC` (`for (i = 3, j = 0; i > -1; i--, j += 7)`);
the first argument is `i + 1`. -/
def bit_write_MC_fill (value : Nat) : Nat → Nat → Nat → (Int → Nat) → (Int → Nat)
  | 0, _, _, byte => byte
  | n + 1, j, mask, byte =>
    let byte := Function.update byte (n : Int) (UCHAR (UCHAR ((value &&& mask) >>> j) ||| 0x80))
    bit_write_MC_fill value n (j + 7) (mask <<< 7) byte

/-- Second loop of `bit_write_MC` (`for (i = 0; i < 3; i++) if (byte[i] & 0x7f)
break;`); the first argument is `3 - i`, the result is the final `i`. -/
def bit_write_MC_scan (byte : Int → Nat) : Nat → Nat
  | 0 => 3
  | k + 1 => if byte ((3 - (k + 1) : Nat) : Int) &&& 0x7f ≠ 0 then 3 - (k + 1)
      else bit_write_MC_scan byte k

/-- The index `i` from which `bit_write_MC` emits: the scan result, lowered
by one when the leading group has bit `0x40` set. -/
def bit_write_MC_index (byte : Int → Nat) : Int :=
  let i : Int := (bit_write_MC_scan byte 3 : Nat)
  if byte i &&& 0x40 ≠ 0 then i - 1 else i

/-- Last loop of `bit_write_MC` (`for (j = 3; j >= i; j--)`); the first
argument bounds the iterations (at most 5, since `i >= -1`). -/
def bit_write_MC_emit (byte : Int → Nat) (i : Int) : Nat → Int → Bit_Chain → Bit_Chain
  | 0, _, dat => dat
  | n + 1, j, dat =>
    if j ≥ i then bit_write_MC_emit byte i n (j - 1) (bit_write_RC dat (byte j)) else dat

/-- Write 1 modular char (max 4 bytes).  The local array `byte[4]` is a map
from index to value; an index outside `0..3` denotes memory next to the
array, whose content is taken as 0. -/
def bit_write_MC (dat : Bit_Chain) (val : Int) : Bit_Chain :=
  let negative := decide (val < 0)
  let value : Nat := if val < 0 then (-val).toNat else val.toNat
  let byte := bit_write_MC_fill value 4 0 0x7f (fun _ => 0)
  let i := bit_write_MC_index byte
  let byte := Function.update byte i (byte i &&& 0x7f)
  let byte := if negative then Function.update byte i (byte i ||| 0x40) else byte
  bit_write_MC_emit byte i 5 3 dat

/-- The loop of `bit_read_MS`: the first argument is `i + 1`; running out of
iterations is the error exit, which logs and returns 0. -/
def bit_read_MS_loop : Nat → Nat → Nat → Bit_Chain → Nat × Bit_Chain
  | 0, _, _, dat => (0, dat)
  | n + 1, j, result, dat =>
    let (word, dat) := bit_read_RS dat
    if word &&& 0x8000 = 0 then
      (result ||| (word <<< j), dat)
    else
      let word := word &&& 0x7fff
      bit_read_MS_loop n (j + 15) (result ||| (word <<< j)) dat

/-- Read 1 modular short (max 2 words). -/
def bit_read_MS (dat : Bit_Chain) : Nat × Bit_Chain :=
  bit_read_MS_loop 2 0 0 dat

/-- First loop of `bit_write_MS` (`for (i = 1, j = 0; i >= 0; i--, j += 15)`);
the first argument is `i + 1`. -/
def bit_write_MS_fill (value : Nat) : Nat → Nat → Nat → (Int → Nat) → (Int → Nat)
  | 0, _, _, word => word
  | n + 1, j, mask, word =>
    let word := Function.update word (n : Int) ((((value &&& mask) >>> j) % 2 ^ 32) ||| 0x8000)
    bit_write_MS_fill value n (j + 15) (mask <<< 15) word

/-- Last loop of `bit_write_MS` (`for (j = 1; j >= i; j--)`). -/
def bit_write_MS_emit (word : Int → Nat) (i : Int) : Nat → Int → Bit_Chain → Bit_Chain
  | 0, _, dat => dat
  | n + 1, j, dat =>
    if j ≥ i then bit_write_MS_emit word i n (j - 1) (bit_write_RS dat (word j)) else dat

/-- Write 1 modular short (max 2 words).  After the fill loop the source sets
`i = 1` unconditionally, clears the flag of `word[1]` and emits `word[1]`
down to `word[i]`. -/
def bit_write_MS (dat : Bit_Chain) (value : Nat) : Bit_Chain :=
  let word := bit_write_MS_fill value 2 0 0x7fff (fun _ => 0)
  let i : Int := 1
  let word := Function.update word i (word i &&& 0x7fff)
  bit_write_MS_emit word i 2 1 dat

/-- Read bit-double with default. -/
def bit_read_DD (dat : Bit_Chain) (default_value : Nat) : Nat × Bit_Chain :=
  let (two_bit_code, dat) := bit_read_BB dat
  if two_bit_code = 0 then (default_value, dat)
  else if two_bit_code = 3 then bit_read_RD dat
  else if two_bit_code = 2 then
    let (b, dat) := bit_read_RC dat
    let default_value := set_byte default_value 4 b
    let (b, dat) := bit_read_RC dat
    let default_value := set_byte default_value 5 b
    let (b, dat) := bit_read_RC dat
    let default_value := set_byte default_value 0 b
    let (b, dat) := bit_read_RC dat
    let default_value := set_byte default_value 1 b
    let (b, dat) := bit_read_RC dat
    let default_value := set_byte default_value 2 b
    let (b, dat) := bit_read_RC dat
    let default_value := set_byte default_value 3 b
    (default_value, dat)
  else
    let (b, dat) := bit_read_RC dat
    let default_value := set_byte default_value 0 b
    let (b, dat) := bit_read_RC dat
    let default_value := set_byte default_value 1 b
    let (b, dat) := bit_read_RC dat
    let default_value := set_byte default_value 2 b
    let (b, dat) := bit_read_RC dat
    let default_value := set_byte default_value 3 b
    (default_value, dat)

/-- Write bit-double with default.  `uint_value[0]` is the low and
`uint_value[1]` the high 32-bit half of the pattern (little-endian host). -/
def bit_write_DD (dat : Bit_Chain) (value default_value : Nat) : Bit_Chain :=
  if double_eq value default_value then bit_write_BB dat 0
  else
    if value % 2 ^ 32 = default_value % 2 ^ 32 then
      if value / 2 ^ 32 % 2 ^ 32 ≠ default_value / 2 ^ 32 % 2 ^ 32 then
        let dat := bit_write_BB dat 2
        let dat := bit_write_RC dat (get_byte value 4)
        let dat := bit_write_RC dat (get_byte value 5)
        let dat := bit_write_RC dat (get_byte value 0)
        let dat := bit_write_RC dat (get_byte value 1)
        let dat := bit_write_RC dat (get_byte value 2)
        bit_write_RC dat (get_byte value 3)
      else
        let dat := bit_write_BB dat 1
        let dat := bit_write_RC dat (get_byte value 0)
        let dat := bit_write_RC dat (get_byte value 1)
        let dat := bit_write_RC dat (get_byte value 2)
        bit_write_RC dat (get_byte value 3)
    else
      let dat := bit_write_BB dat 0
      bit_write_RD dat value

/-- Read bit-thickness. -/
def bit_read_BT (dat : Bit_Chain) : Nat × Bit_Chain :=
  let (mode, dat) := if dat.version ≥ R_2000 then bit_read_B dat else (0, dat)
  if mode ≠ 0 then (DBL_ZERO, dat) else bit_read_BD dat

/-- Write bit-thickness. -/
def bit_write_BT (dat : Bit_Chain) (value : Nat) : Bit_Chain :=
  if dat.version ≥ R_2000 ∧ double_eq value DBL_ZERO then bit_write_B dat 1
  else
    let dat := bit_write_B dat 0
    bit_write_BD dat value

/-! ## Handle references -/

/-- The loop of `bit_read_H` (`for (i = handle->size - 1; i >= 0; i--)
val[i] = bit_read_RC(dat)`); the first argument is `i + 1`. -/
def bit_read_H_loop : Nat → Nat → Bit_Chain → Nat × Bit_Chain
  | 0, value, dat => (value, dat)
  | n + 1, value, dat =>
    let (b, dat) := bit_read_RC dat
    bit_read_H_loop n (set_byte value n b) dat

/-- Read handle-references: the return code, the handle, the new state. -/
def bit_read_H (dat : Bit_Chain) : Int × Dwg_Handle × Bit_Chain :=
  let (code, dat) := bit_read_RC dat
  let size := code &&& 0x0f
  let code := (code &&& 0xf0) >>> 4
  if size > 4 then
    (-1, { code := code, size := 0, value := 0 }, dat)
  else
    let (value, dat) := bit_read_H_loop size 0 dat
    (0, { code := code, size := size, value := value }, dat)

/-- The scan of `bit_write_H` (`for (i = 3; i >= 0; i--) if (val[i]) break;`);
the argument and the result are `i + 1`. -/
def bit_write_H_scan (value : Nat) : Nat → Nat
  | 0 => 0
  | n + 1 => if get_byte value n ≠ 0 then n + 1 else bit_write_H_scan value n

/-- The emitting loop of `bit_write_H` (`for (; i >= 0; i--)
bit_write_RC(dat, val[i])`); the first argument is `i + 1`. -/
def bit_write_H_emit (value : Nat) : Nat → Bit_Chain → Bit_Chain
  | 0, dat => dat
  | n + 1, dat => bit_write_H_emit value n (bit_write_RC dat (get_byte value n))

/-- Write handle-references. -/
def bit_write_H (dat : Bit_Chain) (handle : Dwg_Handle) : Bit_Chain :=
  if handle.value = 0 then bit_write_RC dat (handle.code <<< 4)
  else
    let n := bit_write_H_scan handle.value 4
    let code_counter := UCHAR (handle.code <<< 4)
    let code_counter := UCHAR (code_counter ||| n)
    let dat := bit_write_RC dat code_counter
    bit_write_H_emit handle.value n dat

/-! ## Nibble, text and colour -/

/-- Read 1 nibble: a full byte is read, then the cursor is moved back by 4
bits; the result is the high nibble of the byte read. -/
def bit_read_4BITS (dat : Bit_Chain) : Nat × Bit_Chain :=
  let (result, dat) := bit_read_RC dat
  let dat := bit_advance_position dat (-4)
  ((result &&& 0xf0) >>> 4, dat)

/-- Modelled from the spec: `isprint` of `<ctype.h>` in the C locale, true for
the bytes `0x20..0x7E`. -/
def isprint (c : Nat) : Bool := decide (0x20 ≤ c ∧ c ≤ 0x7E)

/-- The loop of `bit_read_TV`: the first argument is `length - i`, the result
holds `chain[i], chain[i + 1], ...` in order.  A zero byte becomes the
asterisk (0x2A), any other non-printable byte becomes the tilde (0x7E). -/
def bit_read_TV_loop : Nat → Bit_Chain → List Nat × Bit_Chain
  | 0, dat => ([], dat)
  | n + 1, dat =>
    let (c, dat) := bit_read_RC dat
    let c := if c = 0 then 0x2A else if ¬ isprint c then 0x7E else c
    let (rest, dat) := bit_read_TV_loop n dat
    (c :: rest, dat)

/-- Read simple text: the allocated array of `length + 1` bytes (the last one
is the terminator) and the new state. -/
def bit_read_TV (dat : Bit_Chain) : List Nat × Bit_Chain :=
  let (length, dat) := bit_read_BS dat
  let (chain, dat) := bit_read_TV_loop length dat
  (chain ++ [0], dat)

/-- Modelled from the spec: `strlen` of `<string.h>`.  The argument lists the
bytes stored from the pointer on; a terminator follows the last one. -/
def strlen (chain : List Nat) : Nat := (chain.takeWhile (fun c => UCHAR c ≠ 0)).length

/-- Conversion to `int` (32 bits, signed). -/
def INT_of_nat (x : Nat) : Int :=
  if x % 2 ^ 32 < 2 ^ 31 then ((x % 2 ^ 32 : Nat) : Int) else ((x % 2 ^ 32 : Nat) : Int) - 2 ^ 32

/-- Conversion of an `int` to `unsigned int`. -/
def UINT_of_int (x : Int) : Nat := (x % 2 ^ 32).toNat

/-- The loop of `bit_write_TV` (`for (i = 0; i < length; i++)
bit_write_RC(dat, chain[i])`): the first argument is `length - i`. -/
def bit_write_TV_loop (chain : List Nat) : Nat → Nat → Bit_Chain → Bit_Chain
  | 0, _, dat => dat
  | n + 1, i, dat => bit_write_TV_loop chain n (i + 1) (bit_write_RC dat (chain.getD i 0))

/-- Write simple text. -/
def bit_write_TV (dat : Bit_Chain) (chain : List Nat) : Bit_Chain :=
  let length : Int := INT_of_nat (strlen chain)
  let dat := bit_write_BS dat (UINT_of_int length)
  bit_write_TV_loop chain length.toNat 0 dat

/-- Modelled from the spec: `Dwg_Color` is declared in `dwg.h`; the fields are
the ones `bits.c` accesses (`index`, `rgb`, `byte`, `name`, `book_name`).  A
`char *` field is represented by the bytes of the string it points to. -/
structure Dwg_Color where
  index : Nat
  rgb : Nat
  byte : Nat
  name : List Nat
  book_name : List Nat
deriving DecidableEq, Repr

/-- Read color: the updated colour and the new state. -/
def bit_read_CMC (dat : Bit_Chain) (color : Dwg_Color) : Dwg_Color × Bit_Chain :=
  let (index, dat) := bit_read_BS dat
  let color := { color with index := index }
  if dat.version ≥ R_2004 then
    let (rgb, dat) := bit_read_BL dat
    let color := { color with rgb := rgb }
    let (byte, dat) := bit_read_RC dat
    let color := { color with byte := byte }
    let (color, dat) :=
      if color.byte &&& 1 ≠ 0 then
        let (name, dat) := bit_read_TV dat
        ({ color with name := name }, dat)
      else (color, dat)
    if color.byte &&& 2 ≠ 0 then
      let (book_name, dat) := bit_read_TV dat
      ({ color with book_name := book_name }, dat)
    else (color, dat)
  else (color, dat)

/-- Write color. -/
def bit_write_CMC (dat : Bit_Chain) (color : Dwg_Color) : Bit_Chain :=
  let dat := bit_write_BS dat color.index
  if dat.version ≥ R_2004 then
    let dat := bit_write_BL dat color.rgb
    let dat := bit_write_RC dat color.byte
    let dat := if color.byte &&& 1 ≠ 0 then bit_write_TV dat color.name else dat
    if color.byte &&& 2 ≠ 0 then bit_write_TV dat color.book_name else dat
  else dat

/-! ## Checksums -/

/-- The 256-entry table `ckrtable` of `bit_ckr8`, as written in the source. -/
def ckrtable : List Nat :=
  [0x0000, 0xC0C1, 0xC181, 0x0140, 0xC301, 0x03C0, 0x0280, 0xC241,
   0xC601, 0x06C0, 0x0780, 0xC741, 0x0500, 0xC5C1, 0xC481, 0x0440,
   0xCC01, 0x0CC0, 0x0D80, 0xCD41, 0x0F00, 0xCFC1, 0xCE81, 0x0E40,
   0x0A00, 0xCAC1, 0xCB81, 0x0B40, 0xC901, 0x09C0, 0x0880, 0xC841,
   0xD801, 0x18C0, 0x1980, 0xD941, 0x1B00, 0xDBC1, 0xDA81, 0x1A40,
   0x1E00, 0xDEC1, 0xDF81, 0x1F40, 0xDD01, 0x1DC0, 0x1C80, 0xDC41,
   0x1400, 0xD4C1, 0xD581, 0x1540, 0xD701, 0x17C0, 0x1680, 0xD641,
   0xD201, 0x12C0, 0x1380, 0xD341, 0x1100, 0xD1C1, 0xD081, 0x1040,
   0xF001, 0x30C0, 0x3180, 0xF141, 0x3300, 0xF3C1, 0xF281, 0x3240,
   0x3600, 0xF6C1, 0xF781, 0x3740, 0xF501, 0x35C0, 0x3480, 0xF441,
   0x3C00, 0xFCC1, 0xFD81, 0x3D40, 0xFF01, 0x3FC0, 0x3E80, 0xFE41,
   0xFA01, 0x3AC0, 0x3B80, 0xFB41, 0x3900, 0xF9C1, 0xF881, 0x3840,
   0x2800, 0xE8C1, 0xE981, 0x2940, 0xEB01, 0x2BC0, 0x2A80, 0xEA41,
   0xEE01, 0x2EC0, 0x2F80, 0xEF41, 0x2D00, 0xEDC1, 0xEC81, 0x2C40,
   0xE401, 0x24C0, 0x2580, 0xE541, 0x2700, 0xE7C1, 0xE681, 0x2640,
   0x2200, 0xE2C1, 0xE381, 0x2340, 0xE101, 0x21C0, 0x2080, 0xE041,
   0xA001, 0x60C0, 0x6180, 0xA141, 0x6300, 0xA3C1, 0xA281, 0x6240,
   0x6600, 0xA6C1, 0xA781, 0x6740, 0xA501, 0x65C0, 0x6480, 0xA441,
   0x6C00, 0xACC1, 0xAD81, 0x6D40, 0xAF01, 0x6FC0, 0x6E80, 0xAE41,
   0xAA01, 0x6AC0, 0x6B80, 0xAB41, 0x6900, 0xA9C1, 0xA881, 0x6840,
   0x7800, 0xB8C1, 0xB981, 0x7940, 0xBB01, 0x7BC0, 0x7A80, 0xBA41,
   0xBE01, 0x7EC0, 0x7F80, 0xBF41, 0x7D00, 0xBDC1, 0xBC81, 0x7C40,
   0xB401, 0x74C0, 0x7580, 0xB541, 0x7700, 0xB7C1, 0xB681, 0x7640,
   0x7200, 0xB2C1, 0xB381, 0x7340, 0xB101, 0x71C0, 0x7080, 0xB041,
   0x5000, 0x90C1, 0x9181, 0x5140, 0x9301, 0x53C0, 0x5280, 0x9241,
   0x9601, 0x56C0, 0x5780, 0x9741, 0x5500, 0x95C1, 0x9481, 0x5440,
   0x9C01, 0x5CC0, 0x5D80, 0x9D41, 0x5F00, 0x9FC1, 0x9E81, 0x5E40,
   0x5A00, 0x9AC1, 0x9B81, 0x5B40, 0x9901, 0x59C0, 0x5880, 0x9841,
   0x8801, 0x48C0, 0x4980, 0x8941, 0x4B00, 0x8BC1, 0x8A81, 0x4A40,
   0x4E00, 0x8EC1, 0x8F81, 0x4F40, 0x8D01, 0x4DC0, 0x4C80, 0x8C41,
   0x4400, 0x84C1, 0x8581, 0x4540, 0x8701, 0x47C0, 0x4680, 0x8641,
   0x8201, 0x42C0, 0x4380, 0x8341, 0x4100, 0x81C1, 0x8081, 0x4040]

/-- The 256-entry table `ckr32table` of `bit_ckr32`, as written in the source. -/
def ckr32table : List Nat :=
  [0x00000000, 0x77073096, 0xee0e612c, 0x990951ba, 0x076dc419, 0x706af48f, 0xe963a535, 0x9e6495a3,
   0x0edb8832, 0x79dcb8a4, 0xe0d5e91e, 0x97d2d988, 0x09b64c2b, 0x7eb17cbd, 0xe7b82d07, 0x90bf1d91,
   0x1db71064, 0x6ab020f2, 0xf3b97148, 0x84be41de, 0x1adad47d, 0x6ddde4eb, 0xf4d4b551, 0x83d385c7,
   0x136c9856, 0x646ba8c0, 0xfd62f97a, 0x8a65c9ec, 0x14015c4f, 0x63066cd9, 0xfa0f3d63, 0x8d080df5,
   0x3b6e20c8, 0x4c69105e, 0xd56041e4, 0xa2677172, 0x3c03e4d1, 0x4b04d447, 0xd20d85fd, 0xa50ab56b,
   0x35b5a8fa, 0x42b2986c, 0xdbbbc9d6, 0xacbcf940, 0x32d86ce3, 0x45df5c75, 0xdcd60dcf, 0xabd13d59,
   0x26d930ac, 0x51de003a, 0xc8d75180, 0xbfd06116, 0x21b4f4b5, 0x56b3c423, 0xcfba9599, 0xb8bda50f,
   0x2802b89e, 0x5f058808, 0xc60cd9b2, 0xb10be924, 0x2f6f7c87, 0x58684c11, 0xc1611dab, 0xb6662d3d,
   0x76dc4190, 0x01db7106, 0x98d220bc, 0xefd5102a, 0x71b18589, 0x06b6b51f, 0x9fbfe4a5, 0xe8b8d433,
   0x7807c9a2, 0x0f00f934, 0x9609a88e, 0xe10e9818, 0x7f6a0dbb, 0x086d3d2d, 0x91646c97, 0xe6635c01,
   0x6b6b51f4, 0x1c6c6162, 0x856530d8, 0xf262004e, 0x6c0695ed, 0x1b01a57b, 0x8208f4c1, 0xf50fc457,
   0x65b0d9c6, 0x12b7e950, 0x8bbeb8ea, 0xfcb9887c, 0x62dd1ddf, 0x15da2d49, 0x8cd37cf3, 0xfbd44c65,
   0x4db26158, 0x3ab551ce, 0xa3bc0074, 0xd4bb30e2, 0x4adfa541, 0x3dd895d7, 0xa4d1c46d, 0xd3d6f4fb,
   0x4369e96a, 0x346ed9fc, 0xad678846, 0xda60b8d0, 0x44042d73, 0x33031de5, 0xaa0a4c5f, 0xdd0d7cc9,
   0x5005713c, 0x270241aa, 0xbe0b1010, 0xc90c2086, 0x5768b525, 0x206f85b3, 0xb966d409, 0xce61e49f,
   0x5edef90e, 0x29d9c998, 0xb0d09822, 0xc7d7a8b4, 0x59b33d17, 0x2eb40d81, 0xb7bd5c3b, 0xc0ba6cad,
   0xedb88320, 0x9abfb3b6, 0x03b6e20c, 0x74b1d29a, 0xead54739, 0x9dd277af, 0x04db2615, 0x73dc1683,
   0xe3630b12, 0x94643b84, 0x0d6d6a3e, 0x7a6a5aa8, 0xe40ecf0b, 0x9309ff9d, 0x0a00ae27, 0x7d079eb1,
   0xf00f9344, 0x8708a3d2, 0x1e01f268, 0x6906c2fe, 0xf762575d, 0x806567cb, 0x196c3671, 0x6e6b06e7,
   0xfed41b76, 0x89d32be0, 0x10da7a5a, 0x67dd4acc, 0xf9b9df6f, 0x8ebeeff9, 0x17b7be43, 0x60b08ed5,
   0xd6d6a3e8, 0xa1d1937e, 0x38d8c2c4, 0x4fdff252, 0xd1bb67f1, 0xa6bc5767, 0x3fb506dd, 0x48b2364b,
   0xd80d2bda, 0xaf0a1b4c, 0x36034af6, 0x41047a60, 0xdf60efc3, 0xa867df55, 0x316e8eef, 0x4669be79,
   0xcb61b38c, 0xbc66831a, 0x256fd2a0, 0x5268e236, 0xcc0c7795, 0xbb0b4703, 0x220216b9, 0x5505262f,
   0xc5ba3bbe, 0xb2bd0b28, 0x2bb45a92, 0x5cb36a04, 0xc2d7ffa7, 0xb5d0cf31, 0x2cd99e8b, 0x5bdeae1d,
   0x9b64c2b0, 0xec63f226, 0x756aa39c, 0x026d930a, 0x9c0906a9, 0xeb0e363f, 0x72076785, 0x05005713,
   0x95bf4a82, 0xe2b87a14, 0x7bb12bae, 0x0cb61b38, 0x92d28e9b, 0xe5d5be0d, 0x7cdcefb7, 0x0bdbdf21,
   0x86d3d2d4, 0xf1d4e242, 0x68ddb3f8, 0x1fda836e, 0x81be16cd, 0xf6b9265b, 0x6fb077e1, 0x18b74777,
   0x88085ae6, 0xff0f6a70, 0x66063bca, 0x11010b5c, 0x8f659eff, 0xf862ae69, 0x616bffd3, 0x166ccf45,
   0xa00ae278, 0xd70dd2ee, 0x4e048354, 0x3903b3c2, 0xa7672661, 0xd06016f7, 0x4969474d, 0x3e6e77db,
   0xaed16a4a, 0xd9d65adc, 0x40df0b66, 0x37d83bf0, 0xa9bcae53, 0xdebb9ec5, 0x47b2cf7f, 0x30b5ffe9,
   0xbdbdf21c, 0xcabac28a, 0x53b39330, 0x24b4a3a6, 0xbad03605, 0xcdd70693, 0x54de5729, 0x23d967bf,
   0xb3667a2e, 0xc4614ab8, 0x5d681b02, 0x2a6f2b94, 0xb40bbe37, 0xc30c8ea1, 0x5a05df1b, 0x2d02ef8d]

/-- The operator `~` on an `unsigned int` (32 bits). -/
def UINT_NOT (x : Nat) : Nat := 0xFFFFFFFF ^^^ (x % 2 ^ 32)

/-- The `n` bytes at `&chain[start]`, in address order. -/
def chain_bytes (chain : Nat → Nat) (start n : Nat) : List Nat :=
  (List.range n).map (fun i => chain (start + i))

/-- 8-bit CRC (`bit_ckr8`).  The pair `(adr, n)` is the list of the `n` bytes
at `adr`; `dx` is an `unsigned int`. -/
def bit_ckr8 (dx : Nat) (adr : List Nat) : Nat :=
  adr.foldl
    (fun dx byte =>
      let al := UCHAR (UCHAR byte ^^^ UCHAR (dx &&& 0xFF))
      let dx := (dx >>> 8) &&& 0xFF
      dx ^^^ ckrtable.getD (al &&& 0xFF) 0)
    (dx % 2 ^ 32)

/-- 32-bit CRC (`bit_ckr32`).  The pair `(adr, n)` is the list of the `n`
bytes at `adr`; `seed` and `invertedckr` are `unsigned int`. -/
def bit_ckr32 (seed : Nat) (adr : List Nat) : Nat :=
  let invertedckr := UINT_NOT seed
  let invertedckr := adr.foldl
    (fun invertedckr byte =>
      (invertedckr >>> 8) ^^^ ckr32table.getD ((invertedckr ^^^ UCHAR byte) &&& 0xff) 0)
    invertedckr
  UINT_NOT invertedckr

/-- The length `dat->byte - start_address` (a `long unsigned int`, wrapping
when `start_address` is beyond the cursor) as received by the parameter
`long n` of `bit_ckr8`: a value with the top bit set is negative and the loop
`for (; n > 0; n--)` does not run. -/
def CRC_len_long (byte start_address : Nat) : Nat :=
  let n := ULONG_of_int ((byte : Int) - (start_address : Int))
  if n ≥ 2 ^ 63 then 0 else n

/-- The length `dat->byte - start_address` as received by the parameter
`unsigned int n` of `bit_ckr32`. -/
def CRC_len_uint (byte start_address : Nat) : Nat :=
  ULONG_of_int ((byte : Int) - (start_address : Int)) % 2 ^ 32

/-- The digest both `bit_check_CRC` and `bit_write_CRC` compute, stored in an
`unsigned int`: `bit_ckr32` from R_2004 on, `bit_ckr8` before. -/
def CRC_calculated (dat : Bit_Chain) (start_address seed : Nat) : Nat :=
  if dat.version ≥ R_2004 then
    bit_ckr32 seed (chain_bytes dat.chain start_address (CRC_len_uint dat.byte start_address))
      % 2 ^ 32
  else
    bit_ckr8 seed (chain_bytes dat.chain start_address (CRC_len_long dat.byte start_address))
      % 2 ^ 32

/-- Read and check CRC-number: the result of `calculated == read` (1 or 0)
and the new state. -/
def bit_check_CRC (dat : Bit_Chain) (start_address seed : Nat) : Nat × Bit_Chain :=
  let dat := if dat.bit > 0 then { dat with byte := dat.byte + 1 } else dat
  let dat := { dat with bit := 0 }
  let calculated := CRC_calculated dat start_address seed
  let (res0, dat) := bit_read_RC dat
  let (res1, dat) := bit_read_RC dat
  let read := ((res0 <<< 8) ||| res1) % 2 ^ 32
  (if calculated = read then 1 else 0, dat)

/-- The loop `while (dat->bit > 0) bit_write_B(dat, 0);` of `bit_write_CRC`.
The first argument bounds the number of iterations; `none` means that the
bound was reached with the condition still true. -/
def bit_write_CRC_pad : Nat → Bit_Chain → Option Bit_Chain
  | 0, dat => if dat.bit > 0 then none else some dat
  | fuel + 1, dat =>
    if dat.bit > 0 then bit_write_CRC_pad fuel (bit_write_B dat 0) else some dat

/-- Create and write CRC-number: the digest returned and the new state
(`none` when the padding loop does not finish within `fuel` iterations). -/
def bit_write_CRC (fuel : Nat) (dat : Bit_Chain) (start_address seed : Nat) :
    Option (Nat × Bit_Chain) :=
  match bit_write_CRC_pad fuel dat with
  | none => none
  | some dat =>
    let crc := CRC_calculated dat start_address seed
    let dat := bit_write_RC dat (UCHAR (crc >>> 8))
    let dat := bit_write_RC dat (UCHAR (crc &&& 0xFF))
    some (crc, dat)

/-! ## Sentinel search -/

/-- The inner loop of `bit_search_sentinel` (`for (j = 0; j < 16; j++) if
(dat->chain[i + j] != sentinel[j]) break;`): the first argument bounds the
iterations, the result is the final `j`. -/
def bit_search_sentinel_inner (dat : Bit_Chain) (sentinel : Nat → Nat) (i : Nat) :
    Nat → Nat → Nat
  | 0, j => j
  | n + 1, j =>
    if j < 16 then
      if UCHAR (dat.chain (i + j)) ≠ UCHAR (sentinel j) then j
      else bit_search_sentinel_inner dat sentinel i n (j + 1)
    else j

/-- The outer loop of `bit_search_sentinel` (`for (i = 0; i < dat->size;
i++)`): the first argument is `dat->size - i`. -/
def bit_search_sentinel_loop (dat : Bit_Chain) (sentinel : Nat → Nat) :
    Nat → Nat → Int × Bit_Chain
  | 0, _ => (0, dat)
  | n + 1, i =>
    let j := bit_search_sentinel_inner dat sentinel i 16 0
    if j = 16 then (-1, { dat with byte := i + j, bit := 0 })
    else bit_search_sentinel_loop dat sentinel n (i + 1)

/-- Search for a sentinel; if found, positions the cursor immediately after
it.  The array `sentinel[16]` is a map from index to byte. -/
def bit_search_sentinel (dat : Bit_Chain) (sentinel : Nat → Nat) : Int × Bit_Chain :=
  bit_search_sentinel_loop dat sentinel dat.size 0

/-! ## Indices read from the buffer -/

/-- The indices `i` of the accesses `dat->chain[i]` made by `bit_read_B`. -/
def bit_read_B_reads (dat : Bit_Chain) : List Nat := [dat.byte]

/-- The indices of the accesses `dat->chain[i]` made by `bit_read_BB`, in
order. -/
def bit_read_BB_reads (dat : Bit_Chain) : List Nat :=
  dat.byte ::
    (if dat.bit < 7 then []
     else if dat.byte < dat.size - 1 then [dat.byte + 1] else [])

/-- The indices of the accesses `dat->chain[i]` made by `bit_read_RC`, in
order. -/
def bit_read_RC_reads (dat : Bit_Chain) : List Nat :=
  dat.byte ::
    (if dat.bit = 0 then []
     else if dat.byte < dat.size - 1 then [dat.byte + 1] else [])

/-- The indices read by `bit_read_RS`: those of its two calls of
`bit_read_RC`. -/
def bit_read_RS_reads (dat : Bit_Chain) : List Nat :=
  bit_read_RC_reads dat ++ bit_read_RC_reads (bit_read_RC dat).2

/-- The indices read by `bit_read_RL`: those of its two calls of
`bit_read_RS`. -/
def bit_read_RL_reads (dat : Bit_Chain) : List Nat :=
  bit_read_RS_reads dat ++ bit_read_RS_reads (bit_read_RS dat).2

/-- The indices `i + j` of the accesses `dat->chain[i + j]` made by the inner
loop of `bit_search_sentinel` for a given `i`, in order. -/
def bit_search_sentinel_inner_reads (dat : Bit_Chain) (sentinel : Nat → Nat) (i : Nat) :
    Nat → Nat → List Nat
  | 0, _ => []
  | n + 1, j =>
    if j < 16 then
      (i + j) ::
        (if UCHAR (dat.chain (i + j)) ≠ UCHAR (sentinel j) then []
         else bit_search_sentinel_inner_reads dat sentinel i n (j + 1))
    else []

/-- The indices read by the outer loop of `bit_search_sentinel`; the first
argument is `dat->size - i`. -/
def bit_search_sentinel_loop_reads (dat : Bit_Chain) (sentinel : Nat → Nat) :
    Nat → Nat → List Nat
  | 0, _ => []
  | n + 1, i =>
    bit_search_sentinel_inner_reads dat sentinel i 16 0 ++
      (if bit_search_sentinel_inner dat sentinel i 16 0 = 16 then []
       else bit_search_sentinel_loop_reads dat sentinel n (i + 1))

/-- The indices of the accesses `dat->chain[i + j]` made by
`bit_search_sentinel`, in order. -/
def bit_search_sentinel_reads (dat : Bit_Chain) (sentinel : Nat → Nat) : List Nat :=
  bit_search_sentinel_loop_reads dat sentinel dat.size 0

/-! ## 64-bit digest step -/

/-- The initialisers of the table `ckr64table` of `calculate_mirror_crc`, as
written in the source. -/
def ckr64table_mirror : List Nat :=
  [
    0x0000000000000000, 0x7ad870c830358979, 0xf5b0e190606b12f2,
    0x8f689158505e9b8b, 0xc038e5739841b68f, 0xbae095bba8743ff6,
    0x358804e3f82aa47d, 0x4f50742bc81f2d04, 0xab28ecb46814fe75,
    0xd1f09c7c5821770c, 0x5e980d24087fec87, 0x24407dec384a65fe,
    0x6b1009c7f05548fa, 0x11c8790fc060c183, 0x9ea0e857903e5a08,
    0xe478989fa00bd371, 0x7d08ff3b88be6f81, 0x07d08ff3b88be6f8,
    0x88b81eabe8d57d73, 0xf2606e63d8e0f40a, 0xbd301a4810ffd90e,
    0xc7e86a8020ca5077, 0x4880fbd87094cbfc, 0x32588b1040a14285,
    0xd620138fe0aa91f4, 0xacf86347d09f188d, 0x2390f21f80c18306,
    0x594882d7b0f40a7f, 0x1618f6fc78eb277b, 0x6cc0863448deae02,
    0xe3a8176c18803589, 0x997067a428b5bcf0, 0xfa11fe77117cdf02,
    0x80c98ebf2149567b, 0x0fa11fe77117cdf0, 0x75796f2f41224489,
    0x3a291b04893d698d, 0x40f16bccb908e0f4, 0xcf99fa94e9567b7f,
    0xb5418a5cd963f206, 0x513912c379682177, 0x2be1620b495da80e,
    0xa489f35319033385, 0xde51839b2936bafc, 0x9101f7b0e12997f8,
    0xebd98778d11c1e81, 0x64b116208142850a, 0x1e6966e8b1770c73,
    0x8719014c99c2b083, 0xfdc17184a9f739fa, 0x72a9e0dcf9a9a271,
    0x08719014c99c2b08, 0x4721e43f0183060c, 0x3df994f731b68f75,
    0xb29105af61e814fe, 0xc849756751dd9d87, 0x2c31edf8f1d64ef6,
    0x56e99d30c1e3c78f, 0xd9810c6891bd5c04, 0xa3597ca0a188d57d,
    0xec09088b6997f879, 0x96d1784359a27100, 0x19b9e91b09fcea8b,
    0x636199d339c963f2, 0xdf7adabd7a6e2d6f, 0xa5a2aa754a5ba416,
    0x2aca3b2d1a053f9d, 0x50124be52a30b6e4, 0x1f423fcee22f9be0,
    0x659a4f06d21a1299, 0xeaf2de5e82448912, 0x902aae96b271006b,
    0x74523609127ad31a, 0x0e8a46c1224f5a63, 0x81e2d7997211c1e8,
    0xfb3aa75142244891, 0xb46ad37a8a3b6595, 0xceb2a3b2ba0eecec,
    0x41da32eaea507767, 0x3b024222da65fe1e, 0xa2722586f2d042ee,
    0xd8aa554ec2e5cb97, 0x57c2c41692bb501c, 0x2d1ab4dea28ed965,
    0x624ac0f56a91f461, 0x1892b03d5aa47d18, 0x97fa21650afae693,
    0xed2251ad3acf6fea, 0x095ac9329ac4bc9b, 0x7382b9faaaf135e2,
    0xfcea28a2faafae69, 0x8632586aca9a2710, 0xc9622c4102850a14,
    0xb3ba5c8932b0836d, 0x3cd2cdd162ee18e6, 0x460abd1952db919f,
    0x256b24ca6b12f26d, 0x5fb354025b277b14, 0xd0dbc55a0b79e09f,
    0xaa03b5923b4c69e6, 0xe553c1b9f35344e2, 0x9f8bb171c366cd9b,
    0x10e3202993385610, 0x6a3b50e1a30ddf69, 0x8e43c87e03060c18,
    0xf49bb8b633338561, 0x7bf329ee636d1eea, 0x012b592653589793,
    0x4e7b2d0d9b47ba97, 0x34a35dc5ab7233ee, 0xbbcbcc9dfb2ca865,
    0xc113bc55cb19211c, 0x5863dbf1e3ac9dec, 0x22bbab39d3991495,
    0xadd33a6183c78f1e, 0xd70b4aa9b3f20667, 0x985b3e827bed2b63,
    0xe2834e4a4bd8a21a, 0x6debdf121b863991, 0x1733afda2bb3b0e8,
    0xf34b37458bb86399, 0x8993478dbb8deae0, 0x06fbd6d5ebd3716b,
    0x7c23a61ddbe6f812, 0x3373d23613f9d516, 0x49aba2fe23cc5c6f,
    0xc6c333a67392c7e4, 0xbc1b436e43a74e9d, 0x95ac9329ac4bc9b5,
    0xef74e3e19c7e40cc, 0x601c72b9cc20db47, 0x1ac40271fc15523e,
    0x5594765a340a7f3a, 0x2f4c0692043ff643, 0xa02497ca54616dc8,
    0xdafce7026454e4b1, 0x3e847f9dc45f37c0, 0x445c0f55f46abeb9,
    0xcb349e0da4342532, 0xb1eceec59401ac4b, 0xfebc9aee5c1e814f,
    0x8464ea266c2b0836, 0x0b0c7b7e3c7593bd, 0x71d40bb60c401ac4,
    0xe8a46c1224f5a634, 0x927c1cda14c02f4d, 0x1d148d82449eb4c6,
    0x67ccfd4a74ab3dbf, 0x289c8961bcb410bb, 0x5244f9a98c8199c2,
    0xdd2c68f1dcdf0249, 0xa7f41839ecea8b30, 0x438c80a64ce15841,
    0x3954f06e7cd4d138, 0xb63c61362c8a4ab3, 0xcce411fe1cbfc3ca,
    0x83b465d5d4a0eece, 0xf96c151de49567b7, 0x76048445b4cbfc3c,
    0x0cdcf48d84fe7545, 0x6fbd6d5ebd3716b7, 0x15651d968d029fce,
    0x9a0d8ccedd5c0445, 0xe0d5fc06ed698d3c, 0xaf85882d2576a038,
    0xd55df8e515432941, 0x5a3569bd451db2ca, 0x20ed197575283bb3,
    0xc49581ead523e8c2, 0xbe4df122e51661bb, 0x3125607ab548fa30,
    0x4bfd10b2857d7349, 0x04ad64994d625e4d, 0x7e7514517d57d734,
    0xf11d85092d094cbf, 0x8bc5f5c11d3cc5c6, 0x12b5926535897936,
    0x686de2ad05bcf04f, 0xe70573f555e26bc4, 0x9ddd033d65d7e2bd,
    0xd28d7716adc8cfb9, 0xa85507de9dfd46c0, 0x273d9686cda3dd4b,
    0x5de5e64efd965432, 0xb99d7ed15d9d8743, 0xc3450e196da80e3a,
    0x4c2d9f413df695b1, 0x36f5ef890dc31cc8, 0x79a59ba2c5dc31cc,
    0x037deb6af5e9b8b5, 0x8c157a32a5b7233e, 0xf6cd0afa9582aa47,
    0x4ad64994d625e4da, 0x300e395ce6106da3, 0xbf66a804b64ef628,
    0xc5bed8cc867b7f51, 0x8aeeace74e645255, 0xf036dc2f7e51db2c,
    0x7f5e4d772e0f40a7, 0x05863dbf1e3ac9de, 0xe1fea520be311aaf,
    0x9b26d5e88e0493d6, 0x144e44b0de5a085d, 0x6e963478ee6f8124,
    0x21c640532670ac20, 0x5b1e309b16452559, 0xd476a1c3461bbed2,
    0xaeaed10b762e37ab, 0x37deb6af5e9b8b5b, 0x4d06c6676eae0222,
    0xc26e573f3ef099a9, 0xb8b627f70ec510d0, 0xf7e653dcc6da3dd4,
    0x8d3e2314f6efb4ad, 0x0256b24ca6b12f26, 0x788ec2849684a65f,
    0x9cf65a1b368f752e, 0xe62e2ad306bafc57, 0x6946bb8b56e467dc,
    0x139ecb4366d1eea5, 0x5ccebf68aecec3a1, 0x2616cfa09efb4ad8,
    0xa97e5ef8cea5d153, 0xd3a62e30fe90582a, 0xb0c7b7e3c7593bd8,
    0xca1fc72bf76cb2a1, 0x45775673a732292a, 0x3faf26bb9707a053,
    0x70ff52905f188d57, 0x0a2722586f2d042e, 0x854fb3003f739fa5,
    0xff97c3c80f4616dc, 0x1bef5b57af4dc5ad, 0x61372b9f9f784cd4,
    0xee5fbac7cf26d75f, 0x9487ca0fff135e26, 0xdbd7be24370c7322,
    0xa10fceec0739fa5b, 0x2e675fb4576761d0, 0x54bf2f7c6752e8a9,
    0xcdcf48d84fe75459, 0xb71738107fd2dd20, 0x387fa9482f8c46ab,
    0x42a7d9801fb9cfd2, 0x0df7adabd7a6e2d6, 0x772fdd63e7936baf,
    0xf8474c3bb7cdf024, 0x829f3cf387f8795d, 0x66e7a46c27f3aa2c,
    0x1c3fd4a417c62355, 0x935745fc4798b8de, 0xe98f353477ad31a7,
    0xa6df411fbfb21ca3, 0xdc0731d78f8795da, 0x536fa08fdfd90e51,
    0x29b7d047efec8728
  ]

/-- Conversion to `unsigned int`. -/
def UINT (x : Nat) : Nat := x % 2 ^ 32

/-- 64-bit Mirror CRC for 1 byte.  The table is declared `static unsigned int
ckr64table[256]`, so each initialiser is converted to `unsigned int`; the
return type is `uint8_t`, so the result is converted to 8 bits.  `data` is the
value of the operand of `crc ^ data` (the parameter is declared
`uint8_t *`). -/
def calculate_mirror_crc (data crc : Nat) : Nat :=
  let crc := crc % 2 ^ 64
  UCHAR (UINT (ckr64table_mirror.getD ((crc ^^^ data) &&& 0xff) 0) ^^^ (crc >>> 8))

/-! ## Reference checksums (from the wording of the specification) -/

/-- One step of a reflected CRC: shift right by one and XOR the polynomial
in when the bit shifted out was 1. -/
def crc_reference_step (poly x : Nat) : Nat :=
  if x % 2 = 1 then (x >>> 1) ^^^ poly else x >>> 1

/-- One byte of a reflected CRC: XOR the byte into the low 8 bits and perform
8 steps. -/
def crc_reference_byte (poly reg byte : Nat) : Nat :=
  (crc_reference_step poly)^[8] (reg ^^^ byte)

/-- The bit-by-bit CRC-32: start from the inverted seed, process each byte,
invert the 32-bit register at the end. -/
def crc32_reference (seed : Nat) (bytes : List Nat) : Nat :=
  0xFFFFFFFF ^^^ bytes.foldl (crc_reference_byte 0xEDB88320) (0xFFFFFFFF ^^^ seed)

/-- The bit-by-bit CRC-16: start from the seed and process each byte. -/
def crc16_reference (seed : Nat) (bytes : List Nat) : Nat :=
  bytes.foldl (crc_reference_byte 0xA001) seed

/-- The ASCII bytes of `123456789`. -/
def check_string : List Nat := [0x31, 0x32, 0x33, 0x34, 0x35, 0x36, 0x37, 0x38, 0x39]

/-! ## Reference reader (from the wording of the specification) -/

/-- Reading a field bit by bit: `n` successive calls of `bit_read_B`, the bits
assembled most significant first. -/
def read_bits_reference : Nat → Bit_Chain → Nat × Bit_Chain
  | 0, dat => (0, dat)
  | n + 1, dat =>
    let (acc, dat) := read_bits_reference n dat
    let (b, dat) := bit_read_B dat
    (2 * acc + b, dat)

/-! ## Vocabulary of the statements -/

/-- The absolute bit position of the cursor. -/
def pos (d : Bit_Chain) : Nat := 8 * d.byte + d.bit

/-- The cursor lies inside the buffer. -/
def WF (d : Bit_Chain) : Prop := d.byte < d.size ∧ d.bit < 8

/-- Bit `q` of the stream (bit 0 is the most significant bit of byte 0). -/
def bitAt (c : Nat → Nat) (q : Nat) : Nat := c (q / 8) / 2 ^ (7 - q % 8) % 2

/-- The number formed by the `n` bits that start at bit position `p`, most
significant first. -/
def peek (c : Nat → Nat) (p : Nat) : Nat → Nat
  | 0 => 0
  | n + 1 => 2 * peek c p n + bitAt c (p + n)

/-- Put the cursor of `d'` back to where it was in `d` (the assignments
`dat->byte = ...; dat->bit = ...`). -/
def rewind (d' d : Bit_Chain) : Bit_Chain := { d' with byte := d.byte, bit := d.bit }

/-- Relation between the state before and after writing the `n` low bits of
`v`: the buffer did not shrink, the cursor moved by `n` bits, the byte under
the old cursor is not the last one, the `n` bits from the old cursor are those
of `v`, every other bit is unchanged and the new cursor is inside the buffer. -/
structure Wrote (d d' : Bit_Chain) (n v : Nat) : Prop where
  size_le : d.size ≤ d'.size
  version_eq : d'.version = d.version
  room : d.byte + 1 < d'.size
  byte_eq : d'.byte = d.byte + (d.bit + n) / 8
  bit_eq : d'.bit = (d.bit + n) % 8
  bits : ∀ q, bitAt d'.chain q
      = if pos d ≤ q ∧ q < pos d + n then v / 2 ^ (pos d + n - 1 - q) % 2 else bitAt d.chain q
  byte_lt : d'.byte < d'.size

/-- The state `d'` extends `d`: nothing before the cursor of `d` differs. -/
structure Ext (d d' : Bit_Chain) : Prop where
  size_le : d.size ≤ d'.size
  pos_le : pos d ≤ pos d'
  keep : ∀ q, q < pos d → bitAt d'.chain q = bitAt d.chain q

/-- The accumulation performed by the loop of `bit_read_MC` over the payloads
of the continuation bytes `cs` and of the final byte `f`. -/
def MC_acc : Nat → Nat → List Nat → Nat → Nat
  | res, j, [], f => res ||| (f <<< j)
  | res, j, c :: cs, f => MC_acc (res ||| (c <<< j)) (j + 7) cs f

/-- Writing the continuation bytes of a modular char, in the order sent. -/
def MC_send : Bit_Chain → List Nat → Bit_Chain
  | d, [] => d
  | d, c :: cs => MC_send (bit_write_RC d (c + 128)) cs

/-! ## Concrete buffers -/

/-- A four-byte buffer holding `A5 5A A5 5A`, cursor at byte 1, bit 3. -/
def dat_small : Bit_Chain :=
  { chain := fun i => if i % 2 = 0 then 0xA5 else 0x5A, size := 4, byte := 1, bit := 3,
    version := 2 }

/-- A 64-byte buffer of the same pattern with a newer version tag, cursor at
byte 2, bit 5. -/
def dat_wide : Bit_Chain :=
  { chain := fun i => if i % 2 = 0 then 0xA5 else 0x5A, size := 64, byte := 2, bit := 5,
    version := 4 }

/-- A zeroed 16-byte buffer of a version older than R_2000, cursor at the
start. -/
def dat_zero : Bit_Chain :=
  { chain := fun _ => 0, size := 16, byte := 0, bit := 0, version := 2 }

/-- A 64-byte buffer of version R_2004 whose first nine bytes are the ASCII
digits `123456789`, cursor at byte 9, bit 0. -/
def dat_digits : Bit_Chain :=
  { chain := fun i => check_string.getD i 0, size := 64, byte := 9, bit := 0, version := 4 }

/-- An 8-byte buffer whose bytes all carry the continuation flag, cursor at
the start. -/
def dat_flags : Bit_Chain :=
  { chain := fun _ => 0x80, size := 8, byte := 0, bit := 0, version := 2 }

/-- The same bytes in a buffer of exactly four bytes. -/
def dat_flags_end : Bit_Chain :=
  { chain := fun _ => 0x80, size := 4, byte := 0, bit := 0, version := 2 }

/-- An 8-byte buffer that starts with the byte `0x35` (code 3, length 5),
cursor at the start. -/
def dat_handle5 : Bit_Chain :=
  { chain := fun i => if i = 0 then 0x35 else 0, size := 8, byte := 0, bit := 0, version := 2 }

/-- The byte `0x35` as the only byte of a buffer. -/
def dat_handle5_end : Bit_Chain :=
  { chain := fun i => if i = 0 then 0x35 else 0, size := 1, byte := 0, bit := 0, version := 2 }

/-- A 64-byte buffer holding the bytes 5, 6, ..., 20 at offsets 5..20 and
zeros elsewhere. -/
def dat_marker : Bit_Chain :=
  { chain := fun i => if 5 ≤ i ∧ i < 21 then i else 0, size := 64, byte := 40, bit := 3,
    version := 2 }

/-- The 16-byte pattern 5, 6, ..., 20. -/
def marker : Nat → Nat := fun j => j + 5

/-- A 24-byte buffer in a memory whose byte `i` holds `i % 256`, cursor at
byte 3, bit 2. -/
def dat_edge : Bit_Chain :=
  { chain := fun i => i % 256, size := 24, byte := 3, bit := 2, version := 2 }

/-- The 16-byte pattern 10, 11, ..., 25. -/
def edge_marker : Nat → Nat := fun j => j + 10

/-- A four-byte buffer with the cursor in its last byte, at bit 5. -/
def dat_last : Bit_Chain :=
  { chain := fun i => if i % 2 = 0 then 0xA5 else 0x5A, size := 4, byte := 3, bit := 5,
    version := 2 }

/-- An empty buffer (no block allocated yet) whose cursor fields hold stale
values. -/
def dat_empty : Bit_Chain :=
  { chain := fun _ => 0xFF, size := 0, byte := 5, bit := 3, version := 2 }

/-- A colour with a true-colour value, both flag bits set and two names. -/
def color_named : Dwg_Color :=
  { index := 300, rgb := 0xC2112233, byte := 3, name := [0x52, 0x65, 0x64],
    book_name := [0x42] }

/-- A text of 65536 letters `A`. -/
def text_long : List Nat := List.replicate 65536 0x41

/-- A colour whose flag byte selects the name, the name being `text_long`. -/
def color_long : Dwg_Color :=
  { index := 1, rgb := 0, byte := 1, name := text_long, book_name := [] }

/-- The colour record a reader starts from. -/
def color_blank : Dwg_Color :=
  { index := 7, rgb := 8, byte := 9, name := [1], book_name := [2] }

/-- An 8-byte buffer holding `A5 5A A5 5A ...`, cursor at byte 2, bit 7: a
field of two or eight bits read or written here straddles bytes 2 and 3. -/
def dat_straddle : Bit_Chain :=
  { chain := fun i => if i % 2 = 0 then 0xA5 else 0x5A, size := 8, byte := 2, bit := 7,
    version := 2 }

/-- A one-byte buffer holding `0x03`, cursor at bit 4 of that byte; the byte
of memory behind the buffer holds `0x50`. -/
def dat_handle5_split : Bit_Chain :=
  { chain := fun i => if i = 0 then 0x03 else if i = 1 then 0x50 else 0, size := 1, byte := 0,
    bit := 4, version := 2 }

/-- The four flagged bytes of `dat_flags_end`, cursor at byte 1. -/
def dat_flags_short : Bit_Chain :=
  { chain := fun _ => 0x80, size := 4, byte := 1, bit := 0, version := 2 }

/-- A colour whose flag byte selects both names, the name being `text_long`. -/
def color_long_both : Dwg_Color :=
  { index := 1, rgb := 0, byte := 3, name := text_long, book_name := [0x42] }

set_option maxRecDepth 100000

/-! ## Auxiliary lemmas -/

theorem advance_fwd (d : Bit_Chain) (n : Nat) (h : d.byte + 1 < d.size ∨ d.bit + n ≤ 7) :
    bit_advance_position d (n : Int)
      = { d with bit := (d.bit + n) % 8, byte := d.byte + (d.bit + n) / 8 } := by
  unfold bit_advance_position
  have hc : ¬ (d.byte ≥ d.size - 1 ∧ ((d.bit : Int) + (n : Int)) > 7) := by
    rintro ⟨h1, h2⟩
    omega
  simp only [hc, if_false]
  have e1 : ((d.bit : Int) + (n : Int)).tmod 8 = (((d.bit + n) % 8 : Nat) : Int) := by
    rw [Int.tmod_eq_emod (by omega) (by omega)]; omega
  have e2 : ((d.bit : Int) + (n : Int)).tdiv 8 = (((d.bit + n) / 8 : Nat) : Int) := by
    rw [Int.tdiv_eq_ediv (by omega) (by omega)]; omega
  rw [e1, e2]
  have e3 : UCHAR_of_int (((d.bit + n) % 8 : Nat) : Int) = (d.bit + n) % 8 := by
    unfold UCHAR_of_int; omega
  have e4 : ULONG_of_int ((d.byte : Int) + (((d.bit + n) / 8 : Nat) : Int)) = d.byte + (d.bit + n) / 8 := by
    unfold ULONG_of_int; split <;> omega
  rw [e3, e4]

theorem advance_8 (d : Bit_Chain) (h : d.byte + 1 < d.size) :
    bit_advance_position d 8 = { d with bit := (d.bit + 8) % 8, byte := d.byte + (d.bit + 8) / 8 } :=
  advance_fwd d 8 (Or.inl h)

theorem advance_2 (d : Bit_Chain) (h : d.byte + 1 < d.size) :
    bit_advance_position d 2 = { d with bit := (d.bit + 2) % 8, byte := d.byte + (d.bit + 2) / 8 } :=
  advance_fwd d 2 (Or.inl h)

theorem advance_1 (d : Bit_Chain) (h : d.byte + 1 < d.size) :
    bit_advance_position d 1 = { d with bit := (d.bit + 1) % 8, byte := d.byte + (d.bit + 1) / 8 } :=
  advance_fwd d 1 (Or.inl h)

theorem alloc_guard (d : Bit_Chain) (h : WF d) :
    ∃ s, (if d.byte ≥ d.size - 1 then bit_chain_alloc d else d) = { d with size := s }
      ∧ d.size ≤ s ∧ d.byte + 1 < s := by
  obtain ⟨h1, _⟩ := h
  by_cases hc : d.byte ≥ d.size - 1
  · refine ⟨d.size + CHAIN_BLOCK, ?_, by omega, ?_⟩
    · have : d.size ≠ 0 := by omega
      simp [hc, bit_chain_alloc, this]
    · unfold CHAIN_BLOCK; omega
  · exact ⟨d.size, by simp [hc], le_refl _, by omega⟩

theorem lor_add (m a b : Nat) (hb : b < 2 ^ m) : (a * 2 ^ m) ||| b = a * 2 ^ m + b := by
  rw [Nat.mul_comm, ← Nat.mul_add_lt_is_or hb]

theorem mask_hi (k x : Nat) (hk : k < 8) (hx : x < 256) :
    (x &&& (0xff <<< (8 - k))) % 256 = x / 2 ^ (8 - k) * 2 ^ (8 - k) := by
  revert x; revert k; decide

theorem mask_lo (k x : Nat) (hk : k < 8) (hx : x < 256) :
    (x &&& (0xff >>> k)) % 256 = x % 2 ^ (8 - k) := by
  revert x; revert k; decide

theorem wr_RC_b0 (k x v : Nat) (hk : k < 8) :
    UCHAR (UCHAR (UCHAR x &&& (0xff <<< (8 - k))) ||| (UCHAR v >>> k))
      = (x % 256) / 2 ^ (8 - k) * 2 ^ (8 - k) + (v % 256) / 2 ^ k := by
  unfold UCHAR
  rw [mask_hi k _ hk (Nat.mod_lt _ (by norm_num)), Nat.shiftRight_eq_div_pow]
  have hv : v % 256 / 2 ^ k < 2 ^ (8 - k) := by
    rw [Nat.div_lt_iff_lt_mul (by positivity), ← pow_add]
    have : 8 - k + k = 8 := by omega
    rw [this]; exact Nat.mod_lt _ (by norm_num)
  rw [lor_add _ _ _ hv]
  apply Nat.mod_eq_of_lt
  have h1 : x % 256 / 2 ^ (8 - k) * 2 ^ (8 - k) ≤ x % 256 := Nat.div_mul_le_self _ _
  have h2 : x % 256 < 256 := Nat.mod_lt _ (by norm_num)
  interval_cases k <;> simp at * <;> omega

theorem wr_RC_b1 (k y v : Nat) (hk : k < 8) :
    UCHAR (UCHAR (UCHAR y &&& (0xff >>> k)) ||| (UCHAR v <<< (8 - k)))
      = ((v % 256) * 2 ^ (8 - k) + (y % 256) % 2 ^ (8 - k)) % 256 := by
  unfold UCHAR
  rw [mask_lo k _ hk (Nat.mod_lt _ (by norm_num)), Nat.shiftLeft_eq, Nat.lor_comm,
    lor_add _ _ _ (Nat.mod_lt _ (by positivity))]

theorem rd_RC_b (k x y : Nat) (hk : k < 8) :
    UCHAR (UCHAR (UCHAR x <<< k) ||| (UCHAR y >>> (8 - k)))
      = (x % 256 * 2 ^ k) % 256 + (y % 256) / 2 ^ (8 - k) := by
  unfold UCHAR
  rw [Nat.shiftLeft_eq, Nat.shiftRight_eq_div_pow]
  have hx : (x % 256 * 2 ^ k) % 256 = ((x % 256 * 2 ^ k) % 256 / 2 ^ k) * 2 ^ k := by
    interval_cases k <;> simp <;> omega
  have hy : y % 256 / 2 ^ (8 - k) < 2 ^ k := by
    interval_cases k <;> simp <;> omega
  rw [hx, lor_add _ _ _ hy, ← hx]
  apply Nat.mod_eq_of_lt
  interval_cases k <;> simp at * <;> omega

theorem write_RC_eq (d : Bit_Chain) (v : Nat) (h : WF d) :
    ∃ s, d.size ≤ s ∧ d.byte + 1 < s ∧
      bit_write_RC d v =
        { d with
          size := s
          byte := d.byte + 1
          chain :=
            if d.bit = 0 then Function.update d.chain d.byte (v % 256)
            else Function.update
              (Function.update d.chain d.byte
                ((d.chain d.byte % 256) / 2 ^ (8 - d.bit) * 2 ^ (8 - d.bit) + (v % 256) / 2 ^ d.bit))
              (d.byte + 1)
              (((v % 256) * 2 ^ (8 - d.bit) + (d.chain (d.byte + 1) % 256) % 2 ^ (8 - d.bit)) % 256) } := by
  obtain ⟨s, hs, h1, h2⟩ := alloc_guard d h
  refine ⟨s, h1, h2, ?_⟩
  unfold bit_write_RC
  simp only [hs]
  have hlt : d.byte < s - 1 := by omega
  have hb : d.bit < 8 := h.2
  by_cases h0 : d.bit = 0
  · simp only [h0, if_true, chain_store]
    rw [advance_8 _ (by simpa using h2)]
    simp [h0, UCHAR]
  · simp only [h0, if_false, chain_store, hlt, if_true]
    rw [advance_8 _ (by simpa using h2)]
    have e : (d.bit + 8) % 8 = d.bit := by omega
    have e2 : (d.bit + 8) / 8 = 1 := by omega
    simp only [e, e2]
    have hne : d.byte + 1 ≠ d.byte := by omega
    simp only [Function.update_noteq hne, Function.update_same]
    rw [wr_RC_b0 _ _ _ hb]
    have := wr_RC_b1 d.bit (d.chain (d.byte+1)) v hb
    simp only [UCHAR] at this ⊢
    rw [this]

theorem bitAt_update (c : Nat → Nat) (i x q : Nat) :
    bitAt (Function.update c i x) q
      = if q / 8 = i then x / 2 ^ (7 - q % 8) % 2 else bitAt c q := by
  unfold bitAt
  by_cases h : q / 8 = i
  · subst h; simp
  · simp [h, Function.update_noteq h]

theorem RC_b0_keep (k r a v : Nat) (hk : k < 8) (hr : r < k) :
    ((a % 256) / 2 ^ (8 - k) * 2 ^ (8 - k) + (v % 256) / 2 ^ k) / 2 ^ (7 - r) % 2
      = a / 2 ^ (7 - r) % 2 := by
  interval_cases k <;> interval_cases r <;> simp <;> omega

theorem RC_b0_new (k r a v : Nat) (hk : k ≤ r) (hr : r < 8) :
    ((a % 256) / 2 ^ (8 - k) * 2 ^ (8 - k) + (v % 256) / 2 ^ k) / 2 ^ (7 - r) % 2
      = v / 2 ^ (7 - (r - k)) % 2 := by
  interval_cases r <;> interval_cases k <;> simp <;> omega

theorem RC_b1_new (k r y v : Nat) (hk : k < 8) (hr : r < k) :
    (((v % 256) * 2 ^ (8 - k) + (y % 256) % 2 ^ (8 - k)) % 256) / 2 ^ (7 - r) % 2
      = v / 2 ^ (k - 1 - r) % 2 := by
  interval_cases k <;> interval_cases r <;> simp <;> omega

theorem RC_b1_keep (k r y v : Nat) (hk : k ≤ r) (hr : r < 8) :
    (((v % 256) * 2 ^ (8 - k) + (y % 256) % 2 ^ (8 - k)) % 256) / 2 ^ (7 - r) % 2
      = y / 2 ^ (7 - r) % 2 := by
  interval_cases r <;> interval_cases k <;> simp <;> omega

theorem write_RC_wrote (d : Bit_Chain) (v : Nat) (h : WF d) :
    Wrote d (bit_write_RC d v) 8 v := by
  obtain ⟨s, h1, h2, e⟩ := write_RC_eq d v h
  have hb : d.bit < 8 := h.2
  rw [e]
  refine ⟨h1, rfl, h2, ?_, ?_, ?_, ?_⟩
  rotate_left 3
  · show d.byte + 1 < s; exact h2
  · show d.byte + 1 = _; omega
  · show d.bit = _; omega
  · intro q
    show bitAt (if d.bit = 0 then _ else _) q = _
    have hq := Nat.div_add_mod q 8
    have hr : q % 8 < 8 := Nat.mod_lt _ (by norm_num)
    unfold pos
    by_cases h0 : d.bit = 0
    · simp only [h0, if_true, bitAt_update]
      by_cases hqb : q / 8 = d.byte
      · have hc : 8 * d.byte + 0 ≤ q ∧ q < 8 * d.byte + 0 + 8 := by omega
        have he : 8 * d.byte + 0 + 8 - 1 - q = 7 - q % 8 := by omega
        simp only [hqb, hc, if_true, and_self, he]
        have := RC_b0_new 0 (q % 8) 0 v (by omega) hr
        simpa using this
      · have hc : ¬ (8 * d.byte + 0 ≤ q ∧ q < 8 * d.byte + 0 + 8) := by omega
        simp only [hqb, hc, if_false]
    · simp only [h0, if_false, bitAt_update]
      by_cases hqb1 : q / 8 = d.byte + 1
      · simp only [hqb1, if_true]
        by_cases hrk : q % 8 < d.bit
        · have hc : 8 * d.byte + d.bit ≤ q ∧ q < 8 * d.byte + d.bit + 8 := by omega
          have he : 8 * d.byte + d.bit + 8 - 1 - q = d.bit - 1 - q % 8 := by omega
          simp only [hc, if_true, and_self, he]
          exact RC_b1_new _ _ _ _ hb hrk
        · have hc : ¬ (8 * d.byte + d.bit ≤ q ∧ q < 8 * d.byte + d.bit + 8) := by omega
          simp only [hc, if_false]
          rw [RC_b1_keep _ _ _ _ (by omega) hr]
          unfold bitAt; rw [hqb1]
      · by_cases hqb : q / 8 = d.byte
        · have hne : ¬ (d.byte = d.byte + 1) := by omega
          simp only [hqb, hne, if_true, if_false]
          by_cases hrk : q % 8 < d.bit
          · have hc : ¬ (8 * d.byte + d.bit ≤ q ∧ q < 8 * d.byte + d.bit + 8) := by omega
            simp only [hc, if_false]
            rw [RC_b0_keep _ _ _ _ hb hrk]
            unfold bitAt; rw [hqb]
          · have hc : 8 * d.byte + d.bit ≤ q ∧ q < 8 * d.byte + d.bit + 8 := by omega
            have he : 8 * d.byte + d.bit + 8 - 1 - q = 7 - (q % 8 - d.bit) := by omega
            simp only [hc, if_true, and_self, he]
            exact RC_b0_new _ _ _ _ (by omega) hr
        · have hc : ¬ (8 * d.byte + d.bit ≤ q ∧ q < 8 * d.byte + d.bit + 8) := by omega
          simp only [hqb1, hqb, hc, if_false]

theorem peek_of_bits (c : Nat → Nat) (p : Nat) : ∀ (n v : Nat),
    (∀ i, i < n → bitAt c (p + i) = v / 2 ^ (n - 1 - i) % 2) → peek c p n = v % 2 ^ n
  | 0, v, _ => by simp [peek, Nat.mod_one]
  | n + 1, v, h => by
    have ih := peek_of_bits c p n (v / 2) (fun i hi => by
      rw [h i (by omega), Nat.div_div_eq_div_mul, ← pow_succ']
      have : n + 1 - 1 - i = n - 1 - i + 1 := by omega
      rw [this])
    have hl := h n (by omega)
    have e : n + 1 - 1 - n = 0 := by omega
    rw [e, pow_zero, Nat.div_one] at hl
    simp only [peek, ih, hl]
    rw [pow_succ, Nat.mul_comm (2 ^ n) 2, Nat.mod_mul]
    omega

theorem peek_congr (c c' : Nat → Nat) (p : Nat) : ∀ (n : Nat),
    (∀ i, i < n → bitAt c (p + i) = bitAt c' (p + i)) → peek c p n = peek c' p n
  | 0, _ => rfl
  | n + 1, h => by
    simp only [peek, peek_congr c c' p n (fun i hi => h i (by omega)), h n (by omega)]

theorem peek_lt (c : Nat → Nat) (p : Nat) : ∀ n, peek c p n < 2 ^ n
  | 0 => by simp [peek]
  | n + 1 => by
    have := peek_lt c p n
    have hb : bitAt c (p + n) < 2 := Nat.mod_lt _ (by norm_num)
    simp only [peek, pow_succ]; omega

theorem rd_RC_bits (k i x y : Nat) (hk : k < 8) (hi : i < 8) :
    ((x % 256 * 2 ^ k) % 256 + (y % 256) / 2 ^ (8 - k)) / 2 ^ (7 - i) % 2
      = (if k + i < 8 then x else y) / 2 ^ (7 - (k + i) % 8) % 2 := by
  interval_cases k <;> interval_cases i <;> simp <;> omega

theorem bitAt_at (c : Nat → Nat) (b j : Nat) :
    bitAt c (8 * b + j) = c (b + j / 8) / 2 ^ (7 - j % 8) % 2 := by
  unfold bitAt
  have e1 : (8 * b + j) / 8 = b + j / 8 := by omega
  have e2 : (8 * b + j) % 8 = j % 8 := by omega
  rw [e1, e2]

theorem read_RC_eq (d : Bit_Chain) (hb : d.bit < 8) (hr : d.byte + 1 < d.size) :
    bit_read_RC d = (peek d.chain (pos d) 8, { d with byte := d.byte + 1 }) := by
  have hlt : d.byte < d.size - 1 := by omega
  have hval : (if d.bit = 0 then UCHAR (d.chain d.byte)
      else UCHAR (UCHAR (UCHAR (d.chain d.byte) <<< d.bit)
        ||| (UCHAR (d.chain (d.byte + 1)) >>> (8 - d.bit))))
      = (d.chain d.byte % 256 * 2 ^ d.bit) % 256 + (d.chain (d.byte + 1) % 256) / 2 ^ (8 - d.bit) := by
    by_cases h0 : d.bit = 0
    · simp only [h0, if_true, UCHAR]; simp
    · simp only [h0, if_false]; exact rd_RC_b _ _ _ hb
  have hpk : peek d.chain (pos d) 8
      = (d.chain d.byte % 256 * 2 ^ d.bit) % 256 + (d.chain (d.byte + 1) % 256) / 2 ^ (8 - d.bit) := by
    rw [peek_of_bits d.chain (pos d) 8
      ((d.chain d.byte % 256 * 2 ^ d.bit) % 256 + (d.chain (d.byte + 1) % 256) / 2 ^ (8 - d.bit))
      (fun i hi => by
      unfold pos
      rw [Nat.add_assoc, bitAt_at, show 8 - 1 - i = 7 - i from rfl, rd_RC_bits _ _ _ _ hb hi]
      by_cases hc : d.bit + i < 8
      · have : (d.bit + i) / 8 = 0 := by omega
        simp [hc, this]
      · have : (d.bit + i) / 8 = 1 := by omega
        simp [hc, this])]
    apply Nat.mod_eq_of_lt
    rw [← hval]
    split
    · exact Nat.mod_lt _ (by norm_num)
    · exact Nat.mod_lt _ (by norm_num)
  unfold bit_read_RC
  simp only [hlt, if_true]
  rw [advance_8 _ hr, hval, hpk]
  have e1 : (d.bit + 8) % 8 = d.bit := by omega
  have e2 : (d.bit + 8) / 8 = 1 := by omega
  rw [e1, e2]

theorem Ext.refl (d : Bit_Chain) : Ext d d := ⟨le_refl _, le_refl _, fun _ _ => rfl⟩

theorem Ext.trans {a b c : Bit_Chain} (h1 : Ext a b) (h2 : Ext b c) : Ext a c :=
  ⟨le_trans h1.size_le h2.size_le, le_trans h1.pos_le h2.pos_le,
    fun q hq => by rw [h2.keep q (lt_of_lt_of_le hq h1.pos_le), h1.keep q hq]⟩

theorem Wrote.pos_eq {d d' : Bit_Chain} {n v : Nat} (h : Wrote d d' n v) :
    pos d' = pos d + n := by
  unfold pos; rw [h.byte_eq, h.bit_eq]; omega

theorem Wrote.ext {d d' : Bit_Chain} {n v : Nat} (h : Wrote d d' n v) : Ext d d' :=
  ⟨h.size_le, by rw [h.pos_eq]; omega, fun q hq => by
    rw [h.bits q]; have : ¬ (pos d ≤ q ∧ q < pos d + n) := by omega
    simp [this]⟩

theorem Wrote.wf {d d' : Bit_Chain} {n v : Nat} (h : Wrote d d' n v) : WF d' := by
  refine ⟨h.byte_lt, ?_⟩
  rw [h.bit_eq]; omega

theorem Wrote.peek_eq {d d1 dF : Bit_Chain} {n v : Nat} (h : Wrote d d1 n v) (hF : Ext d1 dF) :
    peek dF.chain (pos d) n = v % 2 ^ n := by
  rw [peek_congr dF.chain d1.chain (pos d) n (fun i hi => hF.keep _ (by rw [h.pos_eq]; omega))]
  apply peek_of_bits
  intro i hi
  rw [h.bits]
  have hc : pos d ≤ pos d + i ∧ pos d + i < pos d + n := by omega
  have he : pos d + n - 1 - (pos d + i) = n - 1 - i := by omega
  simp only [hc, and_self, if_true, he]

theorem read_back_RC {d d1 dF : Bit_Chain} {v : Nat} (hd : WF d) (h : Wrote d d1 8 v)
    (hF : Ext d1 dF) : bit_read_RC (rewind dF d) = (v % 256, rewind dF d1) := by
  have hsz := hF.size_le
  have hroom := h.room
  rw [read_RC_eq (rewind dF d) hd.2 (by show d.byte + 1 < dF.size; omega)]
  have e : pos (rewind dF d) = pos d := rfl
  have e2 : (rewind dF d).chain = dF.chain := rfl
  rw [e, e2, h.peek_eq hF]
  have hb := h.byte_eq
  have hbit := h.bit_eq
  have := hd.2
  have e3 : d1.byte = d.byte + 1 := by omega
  have e4 : d1.bit = d.bit := by omega
  simp [rewind, e3, e4]

theorem wrote_of_bytes (d : Bit_Chain) (s n v X Y : Nat) (hd : WF d) (hn : n ≤ 8)
    (hs1 : d.size ≤ s) (hs2 : d.byte + 1 < s)
    (hX : ∀ r, r < 8 → X / 2 ^ (7 - r) % 2
      = if d.bit ≤ r ∧ r < d.bit + n then v / 2 ^ (d.bit + n - 1 - r) % 2
        else d.chain d.byte / 2 ^ (7 - r) % 2)
    (hY : ∀ r, r < 8 → Y / 2 ^ (7 - r) % 2
      = if 8 + r < d.bit + n then v / 2 ^ (d.bit + n - 1 - (8 + r)) % 2
        else d.chain (d.byte + 1) / 2 ^ (7 - r) % 2) :
    Wrote d { d with
        chain := Function.update (Function.update d.chain d.byte X) (d.byte + 1) Y
        size := s
        byte := d.byte + (d.bit + n) / 8
        bit := (d.bit + n) % 8 } n v := by
  have hb : d.bit < 8 := hd.2
  refine ⟨hs1, rfl, hs2, rfl, rfl, ?_, ?_⟩
  rotate_left 1
  · show d.byte + (d.bit + n) / 8 < s; omega
  intro q
  show bitAt (Function.update (Function.update d.chain d.byte X) (d.byte + 1) Y) q = _
  have hq := Nat.div_add_mod q 8
  have hr : q % 8 < 8 := Nat.mod_lt _ (by norm_num)
  unfold pos
  simp only [bitAt_update]
  by_cases hqb1 : q / 8 = d.byte + 1
  · simp only [hqb1, if_true]
    rw [hY _ hr]
    by_cases hc : 8 + q % 8 < d.bit + n
    · have hc2 : 8 * d.byte + d.bit ≤ q ∧ q < 8 * d.byte + d.bit + n := by omega
      have he : 8 * d.byte + d.bit + n - 1 - q = d.bit + n - 1 - (8 + q % 8) := by omega
      simp only [hc, hc2, and_self, if_true, he]
    · have hc2 : ¬ (8 * d.byte + d.bit ≤ q ∧ q < 8 * d.byte + d.bit + n) := by omega
      simp only [hc, hc2, if_false]
      unfold bitAt; rw [hqb1]
  · by_cases hqb : q / 8 = d.byte
    · have hne : ¬ (d.byte = d.byte + 1) := by omega
      simp only [hqb, hne, if_true, if_false]
      rw [hX _ hr]
      by_cases hc : d.bit ≤ q % 8 ∧ q % 8 < d.bit + n
      · have hc2 : 8 * d.byte + d.bit ≤ q ∧ q < 8 * d.byte + d.bit + n := by omega
        have he : 8 * d.byte + d.bit + n - 1 - q = d.bit + n - 1 - q % 8 := by omega
        simp only [hc, hc2, and_self, if_true, he]
      · have hc2 : ¬ (8 * d.byte + d.bit ≤ q ∧ q < 8 * d.byte + d.bit + n) := by omega
        simp only [hc, hc2, if_false]
        unfold bitAt; rw [hqb]
    · have hc2 : ¬ (8 * d.byte + d.bit ≤ q ∧ q < 8 * d.byte + d.bit + n) := by omega
      simp only [hqb1, hqb, hc2, if_false]

/-! ### two bits -/

theorem wr_BB_lo (k x v : Nat) (hk : k < 7) (hx : x < 256) (hv : v < 4) :
    ((x &&& (0xff ^^^ ((0xc0 >>> k) % 256))) ||| (v <<< (6 - k))) % 256
      = x / 2 ^ (8 - k) * 2 ^ (8 - k) + v * 2 ^ (6 - k) + x % 2 ^ (6 - k) := by
  revert v; revert x; revert k; decide

theorem wr_BB_7a (x v : Nat) (hx : x < 256) (hv : v < 4) :
    ((x &&& 0xfe) ||| (v >>> 1)) % 256 = x / 2 * 2 + v / 2 := by
  revert v; revert x; decide

theorem wr_BB_7b (y v : Nat) (hy : y < 256) (hv : v < 4) :
    ((y &&& 0x7f) ||| ((v &&& 0x01) <<< 7)) % 256 = y % 128 + v % 2 * 128 := by
  revert v; revert y; decide

theorem rd_BB_lo (k x : Nat) (hk : k < 7) (hx : x < 256) :
    ((x &&& (0xc0 >>> k)) >>> (6 - k)) % 256 = x / 2 ^ (6 - k) % 4 := by
  revert x; revert k; decide

theorem rd_BB_7a (x : Nat) (hx : x < 256) : ((x &&& 0x01) <<< 1) % 256 = x % 2 * 2 := by
  revert x; decide

theorem rd_BB_7b (y : Nat) (hy : y < 256) : (y &&& 0x80) >>> 7 = y / 128 := by
  revert y; decide

theorem BB_lo_bits (k r x v : Nat) (hk : k < 7) (hr : r < 8) (hv : v < 4) :
    ((x % 256) / 2 ^ (8 - k) * 2 ^ (8 - k) + v * 2 ^ (6 - k) + (x % 256) % 2 ^ (6 - k))
        / 2 ^ (7 - r) % 2
      = if k ≤ r ∧ r < k + 2 then v / 2 ^ (k + 2 - 1 - r) % 2 else x / 2 ^ (7 - r) % 2 := by
  interval_cases k <;> interval_cases r <;> simp <;> omega

theorem write_BB_wrote (d : Bit_Chain) (v : Nat) (h : WF d) (hv : v < 4) :
    Wrote d (bit_write_BB d v) 2 v := by
  obtain ⟨s, hs, h1, h2⟩ := alloc_guard d h
  have hb : d.bit < 8 := h.2
  have hlt : d.byte < s - 1 := by omega
  have hv256 : v % 256 = v := Nat.mod_eq_of_lt (by omega)
  have hx : d.chain d.byte % 256 < 256 := Nat.mod_lt _ (by norm_num)
  have hy : d.chain (d.byte + 1) % 256 < 256 := Nat.mod_lt _ (by norm_num)
  have hne : d.byte + 1 ≠ d.byte := by omega
  by_cases h7 : d.bit < 7
  · have e : bit_write_BB d v = { d with
        chain := Function.update (Function.update d.chain d.byte
          ((d.chain d.byte % 256) / 2 ^ (8 - d.bit) * 2 ^ (8 - d.bit) + v * 2 ^ (6 - d.bit)
            + (d.chain d.byte % 256) % 2 ^ (6 - d.bit))) (d.byte + 1) (d.chain (d.byte + 1))
        size := s
        byte := d.byte + (d.bit + 2) / 8
        bit := (d.bit + 2) % 8 } := by
      unfold bit_write_BB
      simp only [hs, h7, if_true, chain_store, UCHAR, hv256]
      rw [advance_2 _ (by simpa using h2), wr_BB_lo _ _ _ h7 hx hv]
      congr 1
      rw [← Function.update_noteq hne
        ((d.chain d.byte % 256) / 2 ^ (8 - d.bit) * 2 ^ (8 - d.bit) + v * 2 ^ (6 - d.bit)
            + (d.chain d.byte % 256) % 2 ^ (6 - d.bit)) d.chain, Function.update_eq_self]
    rw [e]
    refine wrote_of_bytes d s 2 v _ _ h (by norm_num) h1 h2 (fun r hr => ?_) (fun r hr => ?_)
    · exact BB_lo_bits _ _ _ _ h7 hr hv
    · have : ¬ (8 + r < d.bit + 2) := by omega
      simp only [this, if_false]
  · have hk : d.bit = 7 := by omega
    have e : bit_write_BB d v = { d with
        chain := Function.update (Function.update d.chain d.byte
          ((d.chain d.byte % 256) / 2 * 2 + v / 2)) (d.byte + 1)
          ((d.chain (d.byte + 1) % 256) % 128 + v % 2 * 128)
        size := s
        byte := d.byte + (d.bit + 2) / 8
        bit := (d.bit + 2) % 8 } := by
      unfold bit_write_BB
      simp only [hs, h7, if_false, hlt, if_true, chain_store, UCHAR, hv256]
      rw [advance_2 _ (by simpa using h2)]
      simp only [Function.update_noteq hne, wr_BB_7a _ _ hx hv, wr_BB_7b _ _ hy hv]
    rw [e]
    refine wrote_of_bytes d s 2 v _ _ h (by norm_num) h1 h2 (fun r hr => ?_) (fun r hr => ?_)
    · rw [hk]; interval_cases r <;> simp <;> omega
    · rw [hk]; interval_cases r <;> simp <;> omega

theorem read_BB_eq (d : Bit_Chain) (hb : d.bit < 8) (hr : d.byte + 1 < d.size) :
    bit_read_BB d = (peek d.chain (pos d) 2,
      { d with byte := d.byte + (d.bit + 2) / 8, bit := (d.bit + 2) % 8 }) := by
  have hlt : d.byte < d.size - 1 := by omega
  have hx : d.chain d.byte % 256 < 256 := Nat.mod_lt _ (by norm_num)
  have hy : d.chain (d.byte + 1) % 256 < 256 := Nat.mod_lt _ (by norm_num)
  have hpk : peek d.chain (pos d) 2 = 2 * bitAt d.chain (8 * d.byte + d.bit)
      + bitAt d.chain (8 * d.byte + (d.bit + 1)) := by
    simp [peek, pos, Nat.add_assoc]
  unfold bit_read_BB
  rw [advance_2 _ hr, hpk, bitAt_at, bitAt_at]
  by_cases h7 : d.bit < 7
  · simp only [h7, if_true, UCHAR]
    rw [rd_BB_lo _ _ h7 hx]
    have e1 : d.bit / 8 = 0 := by omega
    have e2 : (d.bit + 1) / 8 = 0 := by omega
    have e3 : d.bit % 8 = d.bit := by omega
    have e4 : (d.bit + 1) % 8 = d.bit + 1 := by omega
    simp only [e1, e2, e3, e4, Nat.add_zero]
    congr 1
    generalize d.chain d.byte = x
    have hk : d.bit < 7 := h7
    generalize d.bit = k at hk
    interval_cases k <;> simp <;> omega
  · have hk : d.bit = 7 := by omega
    simp only [h7, if_false, hlt, if_true, UCHAR]
    rw [rd_BB_7a _ hx, rd_BB_7b _ hy, hk]
    have hor : (d.chain d.byte % 256 % 2 * 2) ||| (d.chain (d.byte + 1) % 256 / 128)
        = d.chain d.byte % 256 % 2 * 2 + d.chain (d.byte + 1) % 256 / 128 := by
      have := lor_add 1 (d.chain d.byte % 256 % 2) (d.chain (d.byte + 1) % 256 / 128) (by omega)
      simpa using this
    rw [hor]
    congr 1
    simp
    omega

theorem rewind_self (d : Bit_Chain) : rewind d d = d := rfl

theorem read_back_BB {d d1 dF : Bit_Chain} {v : Nat} (hd : WF d) (h : Wrote d d1 2 v)
    (hF : Ext d1 dF) : bit_read_BB (rewind dF d) = (v % 4, rewind dF d1) := by
  have hsz := hF.size_le
  have hroom := h.room
  rw [read_BB_eq (rewind dF d) hd.2 (by show d.byte + 1 < dF.size; omega)]
  have e : pos (rewind dF d) = pos d := rfl
  have e2 : (rewind dF d).chain = dF.chain := rfl
  rw [e, e2, h.peek_eq hF]
  simp [rewind, h.byte_eq, h.bit_eq]

theorem and_255 (v : Nat) : v &&& 0xFF = v % 256 := Nat.and_pow_two_sub_one_eq_mod v 8

theorem and_65535 (v : Nat) : v &&& 0xFFFF = v % 65536 := Nat.and_pow_two_sub_one_eq_mod v 16

theorem lor_shift8 (a b : Nat) (hb : b < 256) : (a <<< 8) ||| b = a * 256 + b := by
  rw [Nat.shiftLeft_eq]; exact lor_add 8 a b hb

theorem lor_shift16 (a b : Nat) (hb : b < 65536) : (a <<< 16) ||| b = a * 65536 + b := by
  rw [Nat.shiftLeft_eq]; exact lor_add 16 a b hb

theorem write_RC_ext (d : Bit_Chain) (v : Nat) (h : WF d) :
    WF (bit_write_RC d v) ∧ Ext d (bit_write_RC d v) :=
  ⟨(write_RC_wrote d v h).wf, (write_RC_wrote d v h).ext⟩

theorem write_BB_ext (d : Bit_Chain) (v : Nat) (h : WF d) (hv : v < 4) :
    WF (bit_write_BB d v) ∧ Ext d (bit_write_BB d v) :=
  ⟨(write_BB_wrote d v h hv).wf, (write_BB_wrote d v h hv).ext⟩

theorem write_RS_ext (d : Bit_Chain) (v : Nat) (h : WF d) :
    WF (bit_write_RS d v) ∧ Ext d (bit_write_RS d v) := by
  obtain ⟨w1, e1⟩ := write_RC_ext d (v &&& 0xFF) h
  obtain ⟨w2, e2⟩ := write_RC_ext _ (v >>> 8) w1
  unfold bit_write_RS
  exact ⟨w2, e1.trans e2⟩

theorem read_back_RS {d dF : Bit_Chain} {v : Nat} (hd : WF d)
    (hF : Ext (bit_write_RS d v) dF) :
    bit_read_RS (rewind dF d) = (v % 65536, rewind dF (bit_write_RS d v)) := by
  have W1 := write_RC_wrote d (v &&& 0xFF) hd
  have w1 := W1.wf
  have W2 := write_RC_wrote _ (v >>> 8) w1
  unfold bit_write_RS at hF ⊢
  unfold bit_read_RS
  rw [read_back_RC hd W1 (W2.ext.trans hF)]
  simp only []
  rw [read_back_RC w1 W2 hF]
  simp only []
  congr 1
  rw [and_255, Nat.shiftRight_eq_div_pow, lor_shift8 _ _ (Nat.mod_lt _ (by norm_num))]
  omega

theorem write_RL_ext (d : Bit_Chain) (v : Nat) (h : WF d) :
    WF (bit_write_RL d v) ∧ Ext d (bit_write_RL d v) := by
  obtain ⟨w1, e1⟩ := write_RS_ext d (v &&& 0xFFFF) h
  obtain ⟨w2, e2⟩ := write_RS_ext _ (v >>> 16) w1
  unfold bit_write_RL
  exact ⟨w2, e1.trans e2⟩

theorem read_back_RL {d dF : Bit_Chain} {v : Nat} (hd : WF d)
    (hF : Ext (bit_write_RL d v) dF) :
    bit_read_RL (rewind dF d) = (v % 2 ^ 32, rewind dF (bit_write_RL d v)) := by
  obtain ⟨w1, e1⟩ := write_RS_ext d (v &&& 0xFFFF) hd
  obtain ⟨w2, e2⟩ := write_RS_ext _ (v >>> 16) w1
  unfold bit_write_RL at hF ⊢
  unfold bit_read_RL
  rw [read_back_RS hd (e2.trans hF)]
  simp only []
  rw [read_back_RS w1 hF]
  simp only []
  congr 1
  rw [and_65535, Nat.shiftRight_eq_div_pow, lor_shift16 _ _ (Nat.mod_lt _ (by norm_num))]
  omega

theorem bit_eq_of_testBit {x y i j : Nat} (h : x.testBit i = y.testBit j) :
    x / 2 ^ i % 2 = y / 2 ^ j % 2 := by
  rw [Nat.testBit_to_div_mod, Nat.testBit_to_div_mod] at h
  have h1 := Nat.mod_two_eq_zero_or_one (x / 2 ^ i)
  have h2 := Nat.mod_two_eq_zero_or_one (y / 2 ^ j)
  rcases h1 with h1 | h1 <;> rcases h2 with h2 | h2 <;> simp [h1, h2] at h ⊢

theorem bit_comp_hi (v1 v2 n2 e : Nat) (he : n2 ≤ e) :
    (v1 * 2 ^ n2 + v2 % 2 ^ n2) / 2 ^ e % 2 = v1 / 2 ^ (e - n2) % 2 := by
  apply bit_eq_of_testBit
  rw [Nat.mul_comm, Nat.testBit_mul_pow_two_add v1 (Nat.mod_lt _ (by positivity)) e]
  have : ¬ e < n2 := by omega
  simp [this]

theorem bit_comp_lo (v1 v2 n2 e : Nat) (he : e < n2) :
    (v1 * 2 ^ n2 + v2 % 2 ^ n2) / 2 ^ e % 2 = v2 / 2 ^ e % 2 := by
  apply bit_eq_of_testBit
  rw [Nat.mul_comm, Nat.testBit_mul_pow_two_add v1 (Nat.mod_lt _ (by positivity)) e]
  simp [he, Nat.testBit_mod_two_pow]

theorem Wrote.frame {d d' : Bit_Chain} {n v : Nat} (h : Wrote d d' n v) (q : Nat)
    (hq : q < pos d ∨ pos d + n ≤ q) : bitAt d'.chain q = bitAt d.chain q := by
  rw [h.bits q]
  have : ¬ (pos d ≤ q ∧ q < pos d + n) := by omega
  simp [this]

theorem Wrote.comp {d d1 d2 : Bit_Chain} {n1 n2 v1 v2 : Nat} (h1 : Wrote d d1 n1 v1)
    (h2 : Wrote d1 d2 n2 v2) : Wrote d d2 (n1 + n2) (v1 * 2 ^ n2 + v2 % 2 ^ n2) := by
  have hp := h1.pos_eq
  refine ⟨le_trans h1.size_le h2.size_le, by rw [h2.version_eq, h1.version_eq],
    lt_of_lt_of_le h1.room h2.size_le, ?_, ?_, ?_, h2.byte_lt⟩
  · rw [h2.byte_eq, h1.byte_eq, h1.bit_eq]; omega
  · rw [h2.bit_eq, h1.bit_eq]; omega
  · intro q
    rw [h2.bits q, hp]
    by_cases c2 : pos d + n1 ≤ q ∧ q < pos d + n1 + n2
    · have c : pos d ≤ q ∧ q < pos d + (n1 + n2) := by omega
      simp only [c2, c, and_self, if_true]
      rw [bit_comp_lo _ _ _ _ (by omega)]
      congr 3
      omega
    · simp only [c2, if_false]
      rw [h1.bits q]
      by_cases c1 : pos d ≤ q ∧ q < pos d + n1
      · have c : pos d ≤ q ∧ q < pos d + (n1 + n2) := by omega
        simp only [c1, c, and_self, if_true]
        rw [bit_comp_hi _ _ _ _ (by omega)]
        congr 3
        omega
      · have c : ¬ (pos d ≤ q ∧ q < pos d + (n1 + n2)) := by omega
        simp only [c1, c, if_false]

theorem write_RS_wrote (d : Bit_Chain) (v : Nat) (h : WF d) :
    Wrote d (bit_write_RS d v) 16 ((v &&& 0xFF) * 2 ^ 8 + (v >>> 8) % 2 ^ 8) := by
  have W1 := write_RC_wrote d (v &&& 0xFF) h
  have W2 := write_RC_wrote _ (v >>> 8) W1.wf
  exact W1.comp W2

theorem write_RL_wrote (d : Bit_Chain) (v : Nat) (h : WF d) :
    Wrote d (bit_write_RL d v) 32
      ((((v &&& 0xFFFF) &&& 0xFF) * 2 ^ 8 + ((v &&& 0xFFFF) >>> 8) % 2 ^ 8) * 2 ^ 16
        + (((v >>> 16) &&& 0xFF) * 2 ^ 8 + ((v >>> 16) >>> 8) % 2 ^ 8) % 2 ^ 16) := by
  have W1 := write_RS_wrote d (v &&& 0xFFFF) h
  have W2 := write_RS_wrote _ (v >>> 16) W1.wf
  exact W1.comp W2

theorem H_code_byte (c n : Nat) (hc : c ≤ 15) (hn : n ≤ 4) :
    (UCHAR (UCHAR (c <<< 4) ||| n) % 256) &&& 0x0f = n
      ∧ ((UCHAR (UCHAR (c <<< 4) ||| n) % 256) &&& 0xf0) >>> 4 = c := by
  have hc' : c < 16 := by omega
  have hn' : n < 5 := by omega
  clear hc hn
  revert n; revert c; unfold UCHAR; decide

theorem H_code_byte0 (c : Nat) (hc : c ≤ 15) :
    ((c <<< 4) % 256) &&& 0x0f = 0 ∧ (((c <<< 4) % 256) &&& 0xf0) >>> 4 = c := by
  have hc' : c < 16 := by omega
  clear hc
  revert c; decide

theorem write_H_emit_ext (value : Nat) : ∀ (n : Nat) (d : Bit_Chain), WF d →
    WF (bit_write_H_emit value n d) ∧ Ext d (bit_write_H_emit value n d)
      ∧ pos (bit_write_H_emit value n d) = pos d + 8 * n
  | 0, d, h => ⟨h, Ext.refl d, rfl⟩
  | n + 1, d, h => by
    have W := write_RC_wrote d (get_byte value n) h
    obtain ⟨w, e, p⟩ := write_H_emit_ext value n _ W.wf
    refine ⟨w, W.ext.trans e, ?_⟩
    show pos (bit_write_H_emit value n (bit_write_RC d (get_byte value n))) = _
    rw [p, W.pos_eq]; omega

theorem set_byte_fresh (acc n b : Nat) (h : acc % 256 ^ (n + 1) = 0) :
    set_byte acc n b = acc + b % 256 * 256 ^ n ∧ (acc + b % 256 * 256 ^ n) % 256 ^ n = 0 := by
  have h0 : acc / 256 ^ n % 256 = 0 := by
    rw [← Nat.mod_mul_right_div_self, ← pow_succ, h, Nat.zero_div]
  have h1 : acc % 256 ^ n = 0 := by
    have : 256 ^ n ∣ acc := Dvd.dvd.trans ⟨256, pow_succ 256 n⟩ (Nat.dvd_of_mod_eq_zero h)
    exact Nat.mod_eq_zero_of_dvd this
  constructor
  · unfold set_byte get_byte UCHAR
    rw [h0]; simp
  · rw [Nat.add_mul_mod_self_right]; exact h1

/-- The value assembled by the loop of `bit_read_H` from the bytes that
`bit_write_H_emit` sent. -/
theorem read_back_H_loop (value : Nat) : ∀ (n acc : Nat) (d dF : Bit_Chain), WF d →
    Ext (bit_write_H_emit value n d) dF → acc % 256 ^ n = 0 →
    bit_read_H_loop n acc (rewind dF d)
      = (acc + value % 256 ^ n, rewind dF (bit_write_H_emit value n d))
  | 0, acc, d, dF, _, _, _ => by simp [bit_read_H_loop, bit_write_H_emit, Nat.mod_one]
  | n + 1, acc, d, dF, h, hF, ha => by
    have W := write_RC_wrote d (get_byte value n) h
    obtain ⟨w, e, _⟩ := write_H_emit_ext value n _ W.wf
    have hF' : Ext (bit_write_H_emit value n (bit_write_RC d (get_byte value n))) dF := hF
    obtain ⟨hs, hm⟩ := set_byte_fresh acc n (get_byte value n % 256) ha
    have ih := read_back_H_loop value n (set_byte acc n (get_byte value n % 256))
      _ dF W.wf hF' (by rw [hs]; exact hm)
    show (let (b, dat) := bit_read_RC (rewind dF d); bit_read_H_loop n (set_byte acc n b) dat) = _
    rw [read_back_RC h W (e.trans hF')]
    simp only []
    rw [ih, hs]
    show _ = (_, rewind dF (bit_write_H_emit value n (bit_write_RC d (get_byte value n))))
    congr 1
    unfold get_byte
    rw [pow_succ, Nat.mod_mul]
    have : value / 256 ^ n % 256 % 256 % 256 = value / 256 ^ n % 256 := by omega
    rw [this]
    ring

theorem H_scan_spec (value : Nat) (h0 : value ≠ 0) (hv : value < 2 ^ 32) :
    1 ≤ bit_write_H_scan value 4 ∧ bit_write_H_scan value 4 ≤ 4
      ∧ value < 256 ^ bit_write_H_scan value 4 := by
  simp only [bit_write_H_scan, get_byte]
  norm_num
  split_ifs <;> norm_num <;> omega

theorem MC_cont (g : Nat) (hg : g < 128) :
    ((g + 128) % 256) &&& 0x80 ≠ 0 ∧ ((g + 128) % 256) &&& 0x7f = g := by
  revert g; decide

theorem MC_last (g : Nat) (hg : g < 64) :
    (g % 256) &&& 0x80 = 0 ∧ (g % 256) &&& 0x40 = 0 := by
  revert g; decide

theorem MC_last_neg (g : Nat) (hg : g < 64) :
    ((g + 64) % 256) &&& 0x80 = 0 ∧ ((g + 64) % 256) &&& 0x40 ≠ 0
      ∧ ((g + 64) % 256) &&& 0xbf = g := by
  revert g; decide

theorem MC_send_ext : ∀ (cs : List Nat) (d : Bit_Chain), WF d →
    WF (MC_send d cs) ∧ Ext d (MC_send d cs)
  | [], d, h => ⟨h, Ext.refl d⟩
  | c :: cs, d, h => by
    have W := write_RC_wrote d (c + 128) h
    obtain ⟨w, e⟩ := MC_send_ext cs _ W.wf
    exact ⟨w, W.ext.trans e⟩

theorem read_back_MC_loop (f : Nat) (neg : Bool) (hf : f < 64) :
    ∀ (cs : List Nat) (n j res : Nat) (d dF : Bit_Chain), WF d → (∀ c ∈ cs, c < 128) →
      cs.length < n →
      Ext (bit_write_RC (MC_send d cs) (f + if neg then 64 else 0)) dF →
      bit_read_MC_loop n j res (rewind dF d)
        = (if neg then -(MC_acc res j cs f : Int) else (MC_acc res j cs f : Int), false,
            rewind dF (bit_write_RC (MC_send d cs) (f + if neg then 64 else 0)))
  | [], n + 1, j, res, d, dF, h, _, _, hF => by
    have W := write_RC_wrote d (f + if neg then 64 else 0) h
    rw [bit_read_MC_loop]
    simp only [MC_send] at hF ⊢
    rw [read_back_RC h W hF]
    simp only []
    cases neg
    · obtain ⟨a1, a2⟩ := MC_last f hf
      have a0 : f % 256 = f := Nat.mod_eq_of_lt (by omega)
      simp [a0] at a1 a2
      simp [a0, a1, a2, MC_acc]
    · obtain ⟨a1, a2, a3⟩ := MC_last_neg f hf
      simp [a1, a2, a3, MC_acc]
  | c :: cs, n + 1, j, res, d, dF, h, hc, hn, hF => by
    have W := write_RC_wrote d (c + 128) h
    have hF' : Ext (bit_write_RC (MC_send (bit_write_RC d (c + 128)) cs)
        (f + if neg then 64 else 0)) dF := hF
    obtain ⟨w, e⟩ := MC_send_ext cs _ W.wf
    have W2 := write_RC_wrote (MC_send (bit_write_RC d (c + 128)) cs) (f + if neg then 64 else 0) w
    have ih := read_back_MC_loop f neg hf cs n (j + 7) (res ||| (c <<< j)) _ dF W.wf
      (fun x hx => hc x (List.mem_cons_of_mem _ hx)) (by simpa using hn) hF'
    rw [bit_read_MC_loop]
    rw [read_back_RC h W (e.trans (W2.ext.trans hF'))]
    obtain ⟨a1, a2⟩ := MC_cont c (hc c (List.mem_cons_self _ _))
    simp only [a1, a2, if_false]
    rw [ih]
    rfl

theorem group_eq (value j : Nat) : (value &&& (0x7f <<< j)) >>> j = value / 2 ^ j % 128 := by
  have h : (value &&& (0x7f <<< j)) >>> j = (value >>> j) &&& 0x7f := by
    apply Nat.eq_of_testBit_eq
    intro i
    simp [Nat.testBit_shiftRight, Nat.testBit_and, Nat.testBit_shiftLeft]
  rw [h, Nat.shiftRight_eq_div_pow]
  exact Nat.and_pow_two_sub_one_eq_mod _ 7

theorem flag_on (g : Nat) (hg : g < 128) : UCHAR (UCHAR g ||| 0x80) = g + 128 := by
  revert g; unfold UCHAR; decide

theorem MC_fill_eq (value : Nat) :
    bit_write_MC_fill value 4 0 0x7f (fun _ => 0)
      = Function.update (Function.update (Function.update (Function.update (fun _ => 0)
          (3 : Int) (value % 128 + 128)) (2 : Int) (value / 2 ^ 7 % 128 + 128))
          (1 : Int) (value / 2 ^ 14 % 128 + 128)) (0 : Int) (value / 2 ^ 21 % 128 + 128) := by
  have h0 : (value &&& 127) >>> 0 = value % 128 := by
    have := group_eq value 0
    simpa using this
  have h1 : (value &&& 127 <<< 7) >>> 7 = value / 2 ^ 7 % 128 := group_eq value 7
  have h2 : (value &&& 127 <<< 7 <<< 7) >>> (7 + 7) = value / 2 ^ 14 % 128 := by
    have e : (127 <<< 7 <<< 7 : Nat) = 127 <<< 14 := by decide
    rw [e]; exact group_eq value 14
  have h3 : (value &&& 127 <<< 7 <<< 7 <<< 7) >>> (7 + 7 + 7) = value / 2 ^ 21 % 128 := by
    have e : (127 <<< 7 <<< 7 <<< 7 : Nat) = 127 <<< 21 := by decide
    rw [e]; exact group_eq value 21
  have l (x : Nat) : x % 128 < 128 := Nat.mod_lt _ (by norm_num)
  simp only [bit_write_MC_fill, Nat.zero_add, h0, h1, h2, h3, flag_on _ (l _)]
  push_cast
  rfl

theorem payload_eq (g : Nat) (hg : g < 128) : (g + 128) &&& 0x7f = g := by
  revert g; decide

theorem payload_40 (g : Nat) (hg : g < 128) : ((g + 128) &&& 0x40 = 0) ↔ g < 64 := by
  revert g; decide

theorem sign_on (g : Nat) (hg : g < 64) : g ||| 0x40 = g + 64 := by
  revert g; decide

theorem lor_shift (x g j : Nat) (hx : x < 2 ^ j) : x ||| (g <<< j) = g * 2 ^ j + x := by
  rw [Nat.lor_comm, Nat.shiftLeft_eq, lor_add j g x hx]

theorem MC_acc_1 (g0 : Nat) : MC_acc 0 0 [] g0 = g0 := by
  simp [MC_acc]

theorem MC_acc_2 (g0 g1 : Nat) (h0 : g0 < 128) : MC_acc 0 0 [g0] g1 = g0 + g1 * 2 ^ 7 := by
  simp only [MC_acc, Nat.zero_add]
  rw [lor_shift 0 g0 0 (by norm_num), lor_shift _ g1 7 (by omega)]
  omega

theorem MC_acc_3 (g0 g1 g2 : Nat) (h0 : g0 < 128) (h1 : g1 < 128) :
    MC_acc 0 0 [g0, g1] g2 = g0 + g1 * 2 ^ 7 + g2 * 2 ^ 14 := by
  simp only [MC_acc, Nat.zero_add]
  rw [lor_shift 0 g0 0 (by norm_num), lor_shift _ g1 7 (by omega),
    lor_shift _ g2 (7 + 7) (by omega)]
  omega

theorem MC_acc_4 (g0 g1 g2 g3 : Nat) (h0 : g0 < 128) (h1 : g1 < 128) (h2 : g2 < 128) :
    MC_acc 0 0 [g0, g1, g2] g3 = g0 + g1 * 2 ^ 7 + g2 * 2 ^ 14 + g3 * 2 ^ 21 := by
  simp only [MC_acc, Nat.zero_add]
  rw [lor_shift 0 g0 0 (by norm_num), lor_shift _ g1 7 (by omega),
    lor_shift _ g2 (7 + 7) (by omega), lor_shift _ g3 (7 + 7 + 7) (by omega)]
  omega

theorem MC_emit_3 (byte : Int → Nat) (d : Bit_Chain) :
    bit_write_MC_emit byte 3 5 3 d = bit_write_RC d (byte 3) := by
  simp [bit_write_MC_emit]

theorem MC_emit_2 (byte : Int → Nat) (d : Bit_Chain) :
    bit_write_MC_emit byte 2 5 3 d = bit_write_RC (bit_write_RC d (byte 3)) (byte 2) := by
  simp [bit_write_MC_emit]

theorem MC_emit_1 (byte : Int → Nat) (d : Bit_Chain) :
    bit_write_MC_emit byte 1 5 3 d
      = bit_write_RC (bit_write_RC (bit_write_RC d (byte 3)) (byte 2)) (byte 1) := by
  simp [bit_write_MC_emit]

theorem MC_emit_0 (byte : Int → Nat) (d : Bit_Chain) :
    bit_write_MC_emit byte 0 5 3 d
      = bit_write_RC (bit_write_RC (bit_write_RC (bit_write_RC d (byte 3)) (byte 2)) (byte 1))
          (byte 0) := by
  simp [bit_write_MC_emit]

/-- The array handed to the emitting loop: entry `i` loses the continuation
flag and receives the sign flag. -/
theorem MC_final (B : Int → Nat) (i : Int) (neg : Bool) (j : Int) :
    (if neg then Function.update (Function.update B i (B i &&& 0x7f)) i
        ((Function.update B i (B i &&& 0x7f)) i ||| 0x40)
      else Function.update B i (B i &&& 0x7f)) j
      = if j = i then (if neg then (B i &&& 0x7f) ||| 0x40 else B i &&& 0x7f) else B j := by
  cases neg <;> by_cases h : j = i <;> simp [Function.update_apply, h]

theorem MC_index_cases (B : Int → Nat) (g0 g1 g2 g3 : Nat)
    (h0 : g0 < 128) (h1 : g1 < 128) (h2 : g2 < 128) (h3 : g3 < 64)
    (hB3 : B 3 = g0 + 128) (hB2 : B 2 = g1 + 128) (hB1 : B 1 = g2 + 128) (hB0 : B 0 = g3 + 128) :
    (bit_write_MC_index B = 3 ∧ g1 = 0 ∧ g2 = 0 ∧ g3 = 0 ∧ g0 < 64)
      ∨ (bit_write_MC_index B = 2 ∧ g2 = 0 ∧ g3 = 0 ∧ g1 < 64)
      ∨ (bit_write_MC_index B = 1 ∧ g3 = 0 ∧ g2 < 64)
      ∨ bit_write_MC_index B = 0 := by
  have p1 := payload_eq g1 h1
  have p2 := payload_eq g2 h2
  have p3 := payload_eq g3 (by omega)
  have q0 := payload_40 g0 h0
  have q1 := payload_40 g1 h1
  have q2 := payload_40 g2 h2
  have q3 := payload_40 g3 (by omega)
  have hscan : bit_write_MC_scan B 3
      = if g3 ≠ 0 then 0 else if g2 ≠ 0 then 1 else if g1 ≠ 0 then 2 else 3 := by
    simp [bit_write_MC_scan, hB0, hB1, hB2, p1, p2, p3]
  unfold bit_write_MC_index
  rw [hscan]
  by_cases c3 : g3 = 0
  · by_cases c2 : g2 = 0
    · by_cases c1 : g1 = 0
      · by_cases c0 : g0 < 64
        · left
          simp [c1, c2, c3, hB3, q0.mpr c0, c0]
        · right; left
          have : ¬ ((g0 + 128) &&& 0x40 = 0) := fun h => c0 (q0.mp h)
          simp [c1, c2, c3, hB3, this]
      · by_cases d1 : g1 < 64
        · right; left
          simp [c1, c2, c3, hB2, q1.mpr d1, d1]
        · right; right; left
          have : ¬ ((g1 + 128) &&& 0x40 = 0) := fun h => d1 (q1.mp h)
          simp [c1, c2, c3, hB2, this]
    · by_cases d2 : g2 < 64
      · right; right; left
        simp [c2, c3, hB1, q2.mpr d2, d2]
      · right; right; right
        have : ¬ ((g2 + 128) &&& 0x40 = 0) := fun h => d2 (q2.mp h)
        simp [c2, c3, hB1, this]
  · right; right; right
    simp [c3, hB0, q3.mpr h3]

theorem write_MC_shape (d : Bit_Chain) (neg : Bool) (B : Int → Nat) (g0 g1 g2 g3 : Nat)
    (h0 : g0 < 128) (h1 : g1 < 128) (h2 : g2 < 128) (h3 : g3 < 64)
    (hB3 : B 3 = g0 + 128) (hB2 : B 2 = g1 + 128) (hB1 : B 1 = g2 + 128) (hB0 : B 0 = g3 + 128) :
    ∃ cs f, (∀ c ∈ cs, c < 128) ∧ f < 64 ∧ cs.length < 4
      ∧ MC_acc 0 0 cs f = g0 + g1 * 2 ^ 7 + g2 * 2 ^ 14 + g3 * 2 ^ 21
      ∧ bit_write_MC_emit
          (if neg then Function.update (Function.update B (bit_write_MC_index B)
              (B (bit_write_MC_index B) &&& 0x7f)) (bit_write_MC_index B)
              ((Function.update B (bit_write_MC_index B) (B (bit_write_MC_index B) &&& 0x7f))
                (bit_write_MC_index B) ||| 0x40)
            else Function.update B (bit_write_MC_index B) (B (bit_write_MC_index B) &&& 0x7f))
          (bit_write_MC_index B) 5 3 d
        = bit_write_RC (MC_send d cs) (f + if neg then 64 else 0) := by
  have p0 := payload_eq g0 h0
  have p1 := payload_eq g1 h1
  have p2 := payload_eq g2 h2
  have p3 := payload_eq g3 (by omega)
  rcases MC_index_cases B g0 g1 g2 g3 h0 h1 h2 h3 hB3 hB2 hB1 hB0 with
    ⟨hi, c1, c2, c3, c0⟩ | ⟨hi, c2, c3, c1⟩ | ⟨hi, c3, c2⟩ | hi
  · refine ⟨[], g0, by simp, c0, by simp, by rw [MC_acc_1, c1, c2, c3]; omega, ?_⟩
    rw [hi, MC_emit_3, MC_final]
    simp only [if_true, hB3, p0, sign_on g0 c0, MC_send]
    cases neg <;> simp
  · refine ⟨[g0], g1, by simpa using h0, c1, by simp, by rw [MC_acc_2 _ _ h0, c2, c3]; omega, ?_⟩
    rw [hi, MC_emit_2, MC_final, MC_final]
    simp only [if_true, hB3, hB2, p1, sign_on g1 c1, MC_send]
    cases neg <;> simp
  · refine ⟨[g0, g1], g2, by simp [h0, h1], c2, by simp, by rw [MC_acc_3 _ _ _ h0 h1, c3]; omega, ?_⟩
    rw [hi, MC_emit_1, MC_final, MC_final, MC_final]
    simp only [if_true, hB3, hB2, hB1, p2, sign_on g2 c2, MC_send]
    cases neg <;> simp
  · refine ⟨[g0, g1, g2], g3, by simp [h0, h1, h2], h3, by simp,
      by rw [MC_acc_4 _ _ _ _ h0 h1 h2], ?_⟩
    rw [hi, MC_emit_0, MC_final, MC_final, MC_final, MC_final]
    simp only [if_true, hB3, hB2, hB1, hB0, p3, sign_on g3 h3, MC_send]
    cases neg <;> simp

/-! ### modular chars, handles, checksums and the sentinel search -/

theorem flag_clear_iff (b : Nat) (hb : b < 256) : (b &&& 0x80 = 0) ↔ b < 128 := by
  revert b; decide

theorem pos_next (d : Bit_Chain) (n : Nat) :
    pos { d with byte := d.byte + n } = pos d + 8 * n := by
  unfold pos; simp; omega

theorem read_MC_loop_error : ∀ (n j res : Nat) (d : Bit_Chain), d.bit < 8 →
    d.byte + n < d.size → (∀ i, i < n → 128 ≤ peek d.chain (pos d + 8 * i) 8) →
    bit_read_MC_loop n j res d = (0, true, { d with byte := d.byte + n })
  | 0, _, _, d, _, _, _ => rfl
  | n + 1, j, res, d, hb, hs, hf => by
    rw [bit_read_MC_loop, read_RC_eq d hb (by omega)]
    have h0 := hf 0 (by omega)
    simp only [Nat.mul_zero, Nat.add_zero] at h0
    have hlt := peek_lt d.chain (pos d) 8
    have hc : ¬ (peek d.chain (pos d) 8 &&& 0x80 = 0) := by
      rw [flag_clear_iff _ hlt]; omega
    simp only [hc, if_false]
    rw [read_MC_loop_error n _ _ { d with byte := d.byte + 1 } hb (by show d.byte + 1 + n < d.size; omega)
      (fun i hi => by
        have := hf (i + 1) (by omega)
        rw [pos_next]
        have e : pos d + 8 * 1 + 8 * i = pos d + 8 * (i + 1) := by omega
        rw [e]; exact this)]
    simp [Nat.add_assoc, Nat.add_comm 1 n]

theorem read_MC_loop_stop : ∀ (k m j res : Nat) (d : Bit_Chain), d.bit < 8 →
    d.byte + k + 1 < d.size → (∀ i, i < k → 128 ≤ peek d.chain (pos d + 8 * i) 8) →
    peek d.chain (pos d + 8 * k) 8 < 128 →
    (bit_read_MC_loop (k + 1 + m) j res d).2.1 = false
      ∧ (bit_read_MC_loop (k + 1 + m) j res d).2.2 = { d with byte := d.byte + (k + 1) }
  | 0, m, j, res, d, hb, hs, _, hl => by
    have e : 0 + 1 + m = m + 1 := by omega
    rw [e, bit_read_MC_loop, read_RC_eq d hb (by omega)]
    simp only [Nat.mul_zero, Nat.add_zero] at hl
    have hlt := peek_lt d.chain (pos d) 8
    have hc : peek d.chain (pos d) 8 &&& 0x80 = 0 := by
      rw [flag_clear_iff _ hlt]; exact hl
    simp [hc]
  | k + 1, m, j, res, d, hb, hs, hf, hl => by
    have e : k + 1 + 1 + m = (k + 1 + m) + 1 := by omega
    rw [e, bit_read_MC_loop, read_RC_eq d hb (by omega)]
    have h0 := hf 0 (by omega)
    simp only [Nat.mul_zero, Nat.add_zero] at h0
    have hlt := peek_lt d.chain (pos d) 8
    have hc : ¬ (peek d.chain (pos d) 8 &&& 0x80 = 0) := by
      rw [flag_clear_iff _ hlt]; omega
    simp only [hc, if_false]
    have ih := read_MC_loop_stop k m (j + 7) (res ||| ((peek d.chain (pos d) 8 &&& 0x7f) <<< j))
      { d with byte := d.byte + 1 } hb (by show d.byte + 1 + k + 1 < d.size; omega)
      (fun i hi => by
        have := hf (i + 1) (by omega)
        rw [pos_next]
        have e : pos d + 8 * 1 + 8 * i = pos d + 8 * (i + 1) := by omega
        rw [e]; exact this)
      (by
        rw [pos_next]
        have e : pos d + 8 * 1 + 8 * k = pos d + 8 * (k + 1) := by omega
        rw [e]; exact hl)
    refine ⟨ih.1, ?_⟩
    rw [ih.2]
    simp [Nat.add_assoc, Nat.add_comm 1 (k + 1)]

theorem nibbles (b : Nat) (hb : b < 256) :
    b &&& 0x0f = b % 16 ∧ (b &&& 0xf0) >>> 4 = b / 16 := by
  revert b; decide

theorem Wrote.congr {d d' : Bit_Chain} {n v w : Nat} (h : Wrote d d' n v)
    (hvw : v % 2 ^ n = w % 2 ^ n) : Wrote d d' n w := by
  refine ⟨h.size_le, h.version_eq, h.room, h.byte_eq, h.bit_eq, ?_, h.byte_lt⟩
  intro q
  rw [h.bits q]
  by_cases c : pos d ≤ q ∧ q < pos d + n
  · simp only [c, and_self, if_true]
    apply bit_eq_of_testBit
    have e : pos d + n - 1 - q < n := by omega
    have h1 := Nat.testBit_mod_two_pow v n (pos d + n - 1 - q)
    have h2 := Nat.testBit_mod_two_pow w n (pos d + n - 1 - q)
    simp only [e, decide_True, Bool.true_and] at h1 h2
    rw [← h1, ← h2, hvw]
  · simp only [c, if_false]

theorem Wrote.peek_sub {d d1 dF : Bit_Chain} {n v : Nat} (h : Wrote d d1 n v) (hF : Ext d1 dF)
    (a m : Nat) (ham : a + m ≤ n) :
    peek dF.chain (pos d + a) m = v / 2 ^ (n - a - m) % 2 ^ m := by
  rw [peek_congr dF.chain d1.chain (pos d + a) m
    (fun i hi => hF.keep _ (by rw [h.pos_eq]; omega))]
  apply peek_of_bits
  intro i hi
  rw [h.bits]
  have hc : pos d ≤ pos d + a + i ∧ pos d + a + i < pos d + n := by omega
  simp only [hc, and_self, if_true]
  rw [Nat.div_div_eq_div_mul, ← pow_add]
  congr 3
  omega

theorem write_H_emit_wrote (value : Nat) : ∀ (n m v0 : Nat) (d0 d : Bit_Chain),
    Wrote d0 d m v0 →
    Wrote d0 (bit_write_H_emit value n d) (m + 8 * n) (v0 * 2 ^ (8 * n) + value % 2 ^ (8 * n))
  | 0, m, v0, d0, d, h => by
    simpa [bit_write_H_emit, Nat.mod_one] using h
  | n + 1, m, v0, d0, d, h => by
    have W := write_RC_wrote d (get_byte value n) h.wf
    have ih := write_H_emit_wrote value n (m + 8) _ d0 _ (h.comp W)
    have e : m + 8 + 8 * n = m + 8 * (n + 1) := by omega
    rw [e] at ih
    show Wrote d0 (bit_write_H_emit value n (bit_write_RC d (get_byte value n))) _ _
    refine ih.congr ?_
    congr 1
    unfold get_byte
    have p1 : (2 : Nat) ^ (8 * (n + 1)) = 2 ^ (8 * n) * 2 ^ 8 := by
      rw [Nat.mul_add, pow_add]
    have p2 : (256 : Nat) ^ n = 2 ^ (8 * n) := by
      rw [show (256 : Nat) = 2 ^ 8 from rfl, ← pow_mul]
    rw [p1, p2, Nat.mod_mul (a := 2 ^ (8 * n))]
    have : value / 2 ^ (8 * n) % 256 % 2 ^ 8 = value / 2 ^ (8 * n) % 2 ^ 8 := by
      norm_num
    rw [this]
    ring

theorem H_scan_min (value : Nat) (h0 : value ≠ 0) :
    256 ^ (bit_write_H_scan value 4 - 1) ≤ value := by
  simp only [bit_write_H_scan, get_byte]
  norm_num
  split_ifs <;> norm_num <;> omega

theorem H_code_counter (c n : Nat) (hc : c ≤ 15) (hn : n ≤ 4) :
    UCHAR (UCHAR (c <<< 4) ||| n) % 2 ^ 8 = (c <<< 4) ||| n := by
  have hc' : c < 16 := by omega
  have hn' : n < 5 := by omega
  clear hc hn
  revert n; revert c; unfold UCHAR; decide

theorem shiftRight_xor (x y k : Nat) : (x ^^^ y) >>> k = (x >>> k) ^^^ (y >>> k) := by
  apply Nat.eq_of_testBit_eq
  intro i
  simp [Nat.testBit_shiftRight, Nat.testBit_xor]

theorem xor_mod_pow (x y k : Nat) : (x ^^^ y) % 2 ^ k = (x % 2 ^ k) ^^^ (y % 2 ^ k) := by
  apply Nat.eq_of_testBit_eq
  intro i
  simp only [Nat.testBit_mod_two_pow, Nat.testBit_xor]
  by_cases h : i < k <;> simp [h]

theorem split_low8 (x : Nat) : x = ((x >>> 8) <<< 8) ^^^ (x % 256) := by
  apply Nat.eq_of_testBit_eq
  intro i
  have e : (256 : Nat) = 2 ^ 8 := rfl
  rw [e]
  simp only [Nat.testBit_xor, Nat.testBit_shiftLeft, Nat.testBit_shiftRight,
    Nat.testBit_mod_two_pow]
  by_cases h : i < 8
  · have : ¬ i ≥ 8 := by omega
    simp [h, this]
  · have h8 : i ≥ 8 := by omega
    have e2 : 8 + (i - 8) = i := by omega
    simp [h, h8, e2]

theorem crc_step_eq (poly x : Nat) :
    crc_reference_step poly x = (x >>> 1) ^^^ (if x % 2 = 1 then poly else 0) := by
  unfold crc_reference_step
  split <;> simp

theorem crc_step_xor (poly x y : Nat) :
    crc_reference_step poly (x ^^^ y) = crc_reference_step poly x ^^^ crc_reference_step poly y := by
  rw [crc_step_eq, crc_step_eq, crc_step_eq, shiftRight_xor]
  by_cases hx : x % 2 = 1 <;> by_cases hy : y % 2 = 1 <;>
    simp only [Nat.xor_mod_two_eq_one, hx, hy, if_true, if_false, iff_self, not_true_eq_false,
      not_false_eq_true, iff_false, false_iff, Nat.xor_zero] <;>
    (apply Nat.eq_of_testBit_eq; intro i; simp only [Nat.testBit_xor];
      cases (x >>> 1).testBit i <;> cases (y >>> 1).testBit i <;> cases poly.testBit i <;> rfl)

theorem crc_step_zero (poly : Nat) : crc_reference_step poly 0 = 0 := by
  simp [crc_reference_step]

theorem crc_iter_xor (poly : Nat) : ∀ (k x y : Nat),
    (crc_reference_step poly)^[k] (x ^^^ y)
      = (crc_reference_step poly)^[k] x ^^^ (crc_reference_step poly)^[k] y
  | 0, _, _ => rfl
  | k + 1, x, y => by
    simp only [Function.iterate_succ, Function.comp_apply]
    rw [crc_step_xor, crc_iter_xor poly k]

theorem crc_iter_shift (poly h : Nat) : ∀ (k m : Nat),
    (crc_reference_step poly)^[k] (h <<< (k + m)) = h <<< m
  | 0, m => by simp
  | k + 1, m => by
    simp only [Function.iterate_succ, Function.comp_apply]
    have e : crc_reference_step poly (h <<< (k + 1 + m)) = h <<< (k + m) := by
      unfold crc_reference_step
      have e1 : k + 1 + m = (k + m) + 1 := by omega
      have hev : (h <<< (k + 1 + m)) % 2 = 0 := by
        rw [e1, Nat.shiftLeft_eq, pow_succ, ← Nat.mul_assoc]
        exact Nat.mul_mod_left _ _
      have : ¬ ((h <<< (k + 1 + m)) % 2 = 1) := by omega
      simp only [this, if_false]
      rw [e1, Nat.shiftLeft_eq, Nat.shiftLeft_eq, Nat.shiftRight_eq_div_pow, pow_succ,
        ← Nat.mul_assoc]
      simp
    rw [e, crc_iter_shift poly h k m]

/-- Eight steps act on the low byte only; the rest of the register is shifted
down. -/
theorem crc_iter8 (poly x : Nat) :
    (crc_reference_step poly)^[8] x = (x >>> 8) ^^^ (crc_reference_step poly)^[8] (x % 256) := by
  conv_lhs => rw [split_low8 x]
  rw [crc_iter_xor]
  have := crc_iter_shift poly (x >>> 8) 8 0
  simp only [Nat.add_zero, Nat.shiftLeft_zero] at this
  rw [this]

theorem ckr32table_eq (i : Nat) (hi : i < 256) :
    ckr32table.getD i 0 = (crc_reference_step 0xEDB88320)^[8] i := by
  revert i; decide

theorem ckrtable_eq (i : Nat) (hi : i < 256) :
    ckrtable.getD i 0 = (crc_reference_step 0xA001)^[8] i := by
  revert i; decide

theorem ckr32table_lt (i : Nat) : ckr32table.getD i 0 < 2 ^ 32 := by
  by_cases hi : i < 256
  · revert i; decide
  · rw [List.getD_eq_default _ _ (by simpa [ckr32table] using hi)]; norm_num

theorem ckrtable_lt (i : Nat) : ckrtable.getD i 0 < 2 ^ 16 := by
  by_cases hi : i < 256
  · revert i; decide
  · rw [List.getD_eq_default _ _ (by simpa [ckrtable] using hi)]; norm_num

theorem foldl_congr_mem {α β : Type} (f g : β → α → β) : ∀ (l : List α) (s : β) (P : β → Prop),
    P s → (∀ r a, P r → a ∈ l → f r a = g r a ∧ P (f r a)) →
    l.foldl f s = l.foldl g s ∧ P (l.foldl f s)
  | [], s, _, hs, _ => ⟨rfl, hs⟩
  | a :: l, s, P, hs, h => by
    obtain ⟨e, p⟩ := h s a hs (List.mem_cons_self _ _)
    simp only [List.foldl_cons]
    rw [← e]
    exact foldl_congr_mem f g l (f s a) P p (fun r b hr hb => h r b hr (List.mem_cons_of_mem _ hb))

/-- One table-driven step of `bit_ckr32` is one byte of the bit-by-bit CRC. -/
theorem ckr32_step (reg b : Nat) (hb : b < 256) :
    (reg >>> 8) ^^^ ckr32table.getD ((reg ^^^ UCHAR b) &&& 0xff) 0
      = crc_reference_byte 0xEDB88320 reg b := by
  unfold crc_reference_byte UCHAR
  rw [crc_iter8, Nat.mod_eq_of_lt hb, and_255, ckr32table_eq _ (Nat.mod_lt _ (by norm_num)),
    shiftRight_xor]
  have : b >>> 8 = 0 := by
    rw [Nat.shiftRight_eq_div_pow]; exact Nat.div_eq_of_lt hb
  rw [this, Nat.xor_zero]

theorem ckr32_step_lt (reg b : Nat) (hr : reg < 2 ^ 32) :
    (reg >>> 8) ^^^ ckr32table.getD ((reg ^^^ UCHAR b) &&& 0xff) 0 < 2 ^ 32 := by
  apply Nat.xor_lt_two_pow _ (ckr32table_lt _)
  rw [Nat.shiftRight_eq_div_pow]
  exact lt_of_le_of_lt (Nat.div_le_self _ _) hr

theorem UINT_NOT_lt (x : Nat) : UINT_NOT x < 2 ^ 32 :=
  Nat.xor_lt_two_pow (by norm_num) (Nat.mod_lt _ (by norm_num))

theorem UINT_NOT_NOT (x : Nat) (hx : x < 2 ^ 32) : UINT_NOT (UINT_NOT x) = x := by
  have h := UINT_NOT_lt x
  unfold UINT_NOT at h ⊢
  rw [Nat.mod_eq_of_lt h, Nat.mod_eq_of_lt hx, ← Nat.xor_assoc, Nat.xor_self, Nat.zero_xor]

/-- The register of `bit_ckr32` stays below 2^32. -/
theorem ckr32_reg_lt : ∀ (l : List Nat) (reg : Nat), reg < 2 ^ 32 →
    l.foldl (fun invertedckr byte =>
      (invertedckr >>> 8) ^^^ ckr32table.getD ((invertedckr ^^^ UCHAR byte) &&& 0xff) 0) reg
      < 2 ^ 32
  | [], _, h => h
  | b :: l, reg, h => by
    simp only [List.foldl_cons]
    exact ckr32_reg_lt l _ (ckr32_step_lt reg b h)

/-- One table-driven step of `bit_ckr8` is one byte of the bit-by-bit CRC-16, on
a 16-bit register. -/
theorem ckr8_step (reg b : Nat) (hr : reg < 2 ^ 16) (hb : b < 256) :
    ((reg >>> 8) &&& 0xFF) ^^^ ckrtable.getD (UCHAR (UCHAR b ^^^ UCHAR (reg &&& 0xFF)) &&& 0xFF) 0
      = crc_reference_byte 0xA001 reg b := by
  unfold crc_reference_byte UCHAR
  have e256 : (256 : Nat) = 2 ^ 8 := rfl
  have hidx : ((b % 256 ^^^ (reg &&& 0xFF) % 256) % 256) &&& 0xFF = (reg ^^^ b) % 256 := by
    rw [and_255, and_255, Nat.mod_mod, Nat.mod_mod, e256, ← xor_mod_pow, Nat.mod_mod,
      Nat.xor_comm]
  have hhi : (reg >>> 8) &&& 0xFF = reg >>> 8 := by
    rw [and_255, Nat.shiftRight_eq_div_pow]
    apply Nat.mod_eq_of_lt
    omega
  rw [hidx, hhi, crc_iter8 _ (reg ^^^ b), ckrtable_eq _ (Nat.mod_lt _ (by norm_num)),
    shiftRight_xor]
  have : b >>> 8 = 0 := by
    rw [Nat.shiftRight_eq_div_pow]; exact Nat.div_eq_of_lt hb
  rw [this, Nat.xor_zero]

theorem ckr8_step_lt (reg b : Nat) :
    ((reg >>> 8) &&& 0xFF) ^^^ ckrtable.getD (UCHAR (UCHAR b ^^^ UCHAR (reg &&& 0xFF)) &&& 0xFF) 0
      < 2 ^ 16 := by
  apply Nat.xor_lt_two_pow _ (ckrtable_lt _)
  rw [and_255]
  exact lt_of_lt_of_le (Nat.mod_lt _ (by norm_num)) (by norm_num)

theorem sentinel_inner_match (dat : Bit_Chain) (sentinel : Nat → Nat) (i : Nat) :
    ∀ (n j : Nat), j ≤ 16 → 16 ≤ n + j →
      (∀ t, j ≤ t → t < 16 → UCHAR (dat.chain (i + t)) = UCHAR (sentinel t)) →
      bit_search_sentinel_inner dat sentinel i n j = 16
  | 0, j, h1, h2, _ => by
    simp only [bit_search_sentinel_inner]; omega
  | n + 1, j, h1, h2, h => by
    rw [bit_search_sentinel_inner]
    by_cases hj : j < 16
    · have := h j (le_refl _) hj
      simp only [hj, if_true, this, ne_eq, not_true_eq_false, if_false]
      exact sentinel_inner_match dat sentinel i n (j + 1) (by omega) (by omega)
        (fun t ht1 ht2 => h t (by omega) ht2)
    · simp only [hj, if_false]; omega

theorem sentinel_inner_mismatch (dat : Bit_Chain) (sentinel : Nat → Nat) (i : Nat) :
    ∀ (n j : Nat),
      (∃ t, j ≤ t ∧ t < 16 ∧ UCHAR (dat.chain (i + t)) ≠ UCHAR (sentinel t)) →
      bit_search_sentinel_inner dat sentinel i n j ≠ 16
  | 0, j, ⟨t, h1, h2, _⟩ => by
    simp only [bit_search_sentinel_inner]; omega
  | n + 1, j, ⟨t, h1, h2, h3⟩ => by
    rw [bit_search_sentinel_inner]
    have hj : j < 16 := by omega
    simp only [hj, if_true]
    by_cases hm : UCHAR (dat.chain (i + j)) ≠ UCHAR (sentinel j)
    · rw [if_pos hm]; omega
    · rw [if_neg hm]
      have htj : t ≠ j := fun e => hm (e ▸ h3)
      exact sentinel_inner_mismatch dat sentinel i n (j + 1) ⟨t, by omega, h2, h3⟩

theorem sentinel_loop_found (dat : Bit_Chain) (sentinel : Nat → Nat) (k : Nat)
    (hocc : ∀ j, j < 16 → UCHAR (dat.chain (k + j)) = UCHAR (sentinel j))
    (hfirst : ∀ i, i < k → ∃ j, j < 16 ∧ UCHAR (dat.chain (i + j)) ≠ UCHAR (sentinel j)) :
    ∀ (m i n : Nat), k = i + m → k < i + n →
      bit_search_sentinel_loop dat sentinel n i = (-1, { dat with byte := k + 16, bit := 0 })
  | 0, i, n, hk, hn => by
    obtain ⟨n', rfl⟩ : ∃ n', n = n' + 1 := ⟨n - 1, by omega⟩
    have e : i = k := by omega
    subst e
    rw [bit_search_sentinel_loop]
    have := sentinel_inner_match dat sentinel i 16 0 (by omega) (by omega)
      (fun t _ ht => hocc t ht)
    simp only [this, if_true]
  | m + 1, i, n, hk, hn => by
    obtain ⟨n', rfl⟩ : ∃ n', n = n' + 1 := ⟨n - 1, by omega⟩
    rw [bit_search_sentinel_loop]
    obtain ⟨j, hj, hne⟩ := hfirst i (by omega)
    have := sentinel_inner_mismatch dat sentinel i 16 0 ⟨j, by omega, hj, hne⟩
    simp only [this, if_false]
    exact sentinel_loop_found dat sentinel k hocc hfirst m (i + 1) n' (by omega) (by omega)

theorem div_mod_of_testBit (x i : Nat) : x / 2 ^ i % 2 = if x.testBit i then 1 else 0 := by
  rw [Nat.testBit_to_div_mod]
  rcases Nat.mod_two_eq_zero_or_one (x / 2 ^ i) with h | h <;> simp [h]

theorem mask_clear_testBit (k i : Nat) (hk : k < 8) (hi : i < 8) :
    (0xff ^^^ (0x80 >>> k)).testBit i = decide (i ≠ 7 - k) := by
  revert i; revert k; decide

theorem wr_B_clear_bits (k r x : Nat) (hk : k < 8) (hr : r < 8) :
    ((x % 256 &&& (0xff ^^^ (0x80 >>> k))) % 256) / 2 ^ (7 - r) % 2
      = if k ≤ r ∧ r < k + 1 then 0 else x / 2 ^ (7 - r) % 2 := by
  have e : (256 : Nat) = 2 ^ 8 := rfl
  rw [div_mod_of_testBit, div_mod_of_testBit, e, Nat.testBit_mod_two_pow, Nat.testBit_and,
    Nat.testBit_mod_two_pow, mask_clear_testBit k (7 - r) hk (by omega)]
  have h7 : 7 - r < 8 := by omega
  by_cases c : k ≤ r ∧ r < k + 1
  · have : 7 - r = 7 - k := by omega
    simp [c, h7, this]
  · have : 7 - r ≠ 7 - k := by omega
    simp [c, h7, this]

theorem write_B_zero_wrote (d : Bit_Chain) (h : WF d) : Wrote d (bit_write_B d 0) 1 0 := by
  obtain ⟨s, hs, h1, h2⟩ := alloc_guard d h
  have hb : d.bit < 8 := h.2
  have hne : d.byte + 1 ≠ d.byte := by omega
  have e : bit_write_B d 0 =
      { chain := Function.update (Function.update d.chain d.byte
            ((d.chain d.byte % 256 &&& (0xff ^^^ (0x80 >>> d.bit))) % 256)) (d.byte + 1)
            (d.chain (d.byte + 1)),
        size := s, byte := d.byte + (d.bit + 1) / 8, bit := (d.bit + 1) % 8,
        version := d.version } := by
    unfold bit_write_B
    simp only [hs, chain_store, UCHAR, Nat.zero_mod, ne_eq, not_true_eq_false, if_false]
    rw [advance_1 _ (by simpa using h2)]
    congr 1
    rw [← Function.update_noteq hne ((d.chain d.byte % 256 &&& (0xff ^^^ (0x80 >>> d.bit))) % 256)
      d.chain, Function.update_eq_self]
  rw [e]
  refine wrote_of_bytes d s 1 0 _ _ h (by norm_num) h1 h2 (fun r hr => ?_) (fun r hr => ?_)
  · rw [wr_B_clear_bits _ _ _ hb hr]
    by_cases c : d.bit ≤ r ∧ r < d.bit + 1
    · simp [c]
    · simp [c]
  · have : ¬ (8 + r < d.bit + 1) := by omega
    simp only [this, if_false]

/-- The padding loop of `bit_write_CRC` ends on a byte boundary, having
written only zero bits. -/
theorem write_CRC_pad_spec : ∀ (fuel : Nat) (d : Bit_Chain), WF d → 8 ≤ d.bit + fuel →
    ∃ d', bit_write_CRC_pad fuel d = some d' ∧ WF d' ∧ d'.bit = 0
      ∧ (d.bit = 0 → d' = d) ∧ (d.bit ≠ 0 → Wrote d d' (8 - d.bit) 0)
  | 0, d, h, hf => absurd hf (by have := h.2; omega)
  | fuel + 1, d, h, hf => by
    by_cases h0 : d.bit = 0
    · refine ⟨d, ?_, h, h0, fun _ => rfl, fun c => absurd h0 c⟩
      simp [bit_write_CRC_pad, h0]
    · have hpos : d.bit > 0 := by omega
      have W := write_B_zero_wrote d h
      rw [bit_write_CRC_pad, if_pos hpos]
      by_cases h7 : d.bit = 7
      · have hb1 : (bit_write_B d 0).bit = 0 := by rw [W.bit_eq, h7]
        refine ⟨bit_write_B d 0, ?_, W.wf, hb1, fun c => absurd c h0, fun _ => ?_⟩
        · cases fuel <;> simp [bit_write_CRC_pad, hb1]
        · rw [h7]; exact W
      · have hb1 : (bit_write_B d 0).bit = d.bit + 1 := by
          rw [W.bit_eq]; have := h.2; omega
        obtain ⟨d', e, w, b0, _, hw⟩ := write_CRC_pad_spec fuel (bit_write_B d 0) W.wf (by omega)
        refine ⟨d', e, w, b0, fun c => absurd c h0, fun _ => ?_⟩
        have W2 := hw (by omega)
        have := W.comp W2
        rw [hb1] at this
        have e2 : 1 + (8 - (d.bit + 1)) = 8 - d.bit := by have := h.2; omega
        rw [e2] at this
        exact this.congr (by simp)

theorem byte_of_bits (c c' : Nat → Nat) (i : Nat)
    (h : ∀ r, r < 8 → bitAt c (8 * i + r) = bitAt c' (8 * i + r)) :
    c i % 256 = c' i % 256 := by
  have h0 := h 0 (by norm_num)
  have h1 := h 1 (by norm_num)
  have h2 := h 2 (by norm_num)
  have h3 := h 3 (by norm_num)
  have h4 := h 4 (by norm_num)
  have h5 := h 5 (by norm_num)
  have h6 := h 6 (by norm_num)
  have h7 := h 7 (by norm_num)
  simp only [bitAt_at] at h0 h1 h2 h3 h4 h5 h6 h7
  norm_num at h0 h1 h2 h3 h4 h5 h6 h7
  omega

theorem chain_bytes_congr (c c' : Nat → Nat) (start n : Nat)
    (h : ∀ i, start ≤ i → i < start + n → c i % 256 = c' i % 256) :
    (chain_bytes c start n).map UCHAR = (chain_bytes c' start n).map UCHAR := by
  unfold chain_bytes
  rw [List.map_map, List.map_map]
  apply List.map_congr_left
  intro i hi
  have := List.mem_range.mp hi
  exact h (start + i) (by omega) (by omega)

theorem bit_ckr32_map (seed : Nat) (l : List Nat) :
    bit_ckr32 seed l = bit_ckr32 seed (l.map UCHAR) := by
  unfold bit_ckr32
  simp only [List.foldl_map]
  have : ∀ b, UCHAR (UCHAR b) = UCHAR b := fun b => by unfold UCHAR; omega
  simp only [this]

theorem bit_ckr8_map (seed : Nat) (l : List Nat) :
    bit_ckr8 seed l = bit_ckr8 seed (l.map UCHAR) := by
  unfold bit_ckr8
  simp only [List.foldl_map]
  have : ∀ b, UCHAR (UCHAR b) = UCHAR b := fun b => by unfold UCHAR; omega
  simp only [this]

theorem bit_ckr32_lt (seed : Nat) (l : List Nat) : bit_ckr32 seed l < 2 ^ 32 := UINT_NOT_lt _

theorem bit_ckr8_lt (seed : Nat) (l : List Nat) : bit_ckr8 seed l < 2 ^ 32 := by
  unfold bit_ckr8
  have : ∀ (l : List Nat) (r : Nat), r < 2 ^ 32 →
      l.foldl (fun dx byte =>
        ((dx >>> 8) &&& 0xFF)
          ^^^ ckrtable.getD (UCHAR (UCHAR byte ^^^ UCHAR (dx &&& 0xFF)) &&& 0xFF) 0) r
        < 2 ^ 32 := by
    intro l
    induction l with
    | nil => intro r hr; exact hr
    | cons b l ih =>
      intro r _
      simp only [List.foldl_cons]
      exact ih _ (lt_of_lt_of_le (ckr8_step_lt r b) (by norm_num))
  exact this l _ (Nat.mod_lt _ (by norm_num))

/-- The digest of `bit_write_CRC` and `bit_check_CRC` for a section that
starts at or before the cursor byte and is shorter than 2^32 bytes. -/
theorem CRC_calculated_eq (dat : Bit_Chain) (start_address seed : Nat)
    (hs : start_address ≤ dat.byte) (hl : dat.byte - start_address < 2 ^ 32) :
    CRC_calculated dat start_address seed
      = if dat.version ≥ R_2004 then
          bit_ckr32 seed (chain_bytes dat.chain start_address (dat.byte - start_address))
        else bit_ckr8 seed (chain_bytes dat.chain start_address (dat.byte - start_address)) := by
  have e : ULONG_of_int ((dat.byte : Int) - (start_address : Int)) = dat.byte - start_address := by
    unfold ULONG_of_int
    split <;> omega
  unfold CRC_calculated CRC_len_uint CRC_len_long
  rw [e]
  have e1 : (dat.byte - start_address) % 2 ^ 32 = dat.byte - start_address :=
    Nat.mod_eq_of_lt hl
  have e2 : ¬ (dat.byte - start_address ≥ 2 ^ 63) := by omega
  simp only [e1, e2, if_false]
  split
  · exact Nat.mod_eq_of_lt (bit_ckr32_lt _ _)
  · exact Nat.mod_eq_of_lt (bit_ckr8_lt _ _)

/-- Two states whose buffers agree on all bits before the cursor byte of the
first give the same digest. -/
theorem CRC_calculated_congr (dat dat' : Bit_Chain) (start_address seed : Nat)
    (hb : dat'.byte = dat.byte) (hv : dat'.version = dat.version)
    (hs : start_address ≤ dat.byte) (hl : dat.byte - start_address < 2 ^ 32)
    (h : ∀ q, q < 8 * dat.byte → bitAt dat'.chain q = bitAt dat.chain q) :
    CRC_calculated dat' start_address seed = CRC_calculated dat start_address seed := by
  rw [CRC_calculated_eq dat start_address seed hs hl,
    CRC_calculated_eq dat' start_address seed (by omega) (by omega), hb, hv]
  have hc := chain_bytes_congr dat'.chain dat.chain start_address (dat.byte - start_address)
    (fun i h1 h2 => byte_of_bits _ _ i (fun r hr => h _ (by omega)))
  rw [bit_ckr32_map seed (chain_bytes dat'.chain _ _), bit_ckr8_map seed (chain_bytes dat'.chain _ _),
    hc, ← bit_ckr32_map, ← bit_ckr8_map]

/-- The states reached by `bit_write_CRC`: the padded state `dp` on the byte
boundary `a`, and the final state after the two checksum bytes. -/
theorem write_CRC_states (fuel : Nat) (d : Bit_Chain) (start_address seed : Nat)
    (hd : WF d) (hfuel : 8 ≤ fuel) :
    ∃ dp, WF dp ∧ dp.bit = 0 ∧ dp.byte = (pos d + 7) / 8 ∧ dp.version = d.version ∧ Ext d dp
      ∧ (∀ q, pos d ≤ q → q < pos dp → bitAt dp.chain q = 0)
      ∧ bit_write_CRC fuel d start_address seed
          = some (CRC_calculated dp start_address seed,
              bit_write_RC (bit_write_RC dp (UCHAR (CRC_calculated dp start_address seed >>> 8)))
                (UCHAR (CRC_calculated dp start_address seed &&& 0xFF))) := by
  obtain ⟨dp, e, w, b0, hsame, hw⟩ := write_CRC_pad_spec fuel d hd (by omega)
  have hbit := hd.2
  refine ⟨dp, w, b0, ?_, ?_, ?_, ?_, ?_⟩
  · by_cases h0 : d.bit = 0
    · rw [hsame h0]; unfold pos; omega
    · rw [(hw h0).byte_eq]; unfold pos; omega
  · by_cases h0 : d.bit = 0
    · rw [hsame h0]
    · exact (hw h0).version_eq
  · by_cases h0 : d.bit = 0
    · rw [hsame h0]; exact Ext.refl d
    · exact (hw h0).ext
  · intro q h1 h2
    by_cases h0 : d.bit = 0
    · rw [hsame h0] at h2; omega
    · have W := hw h0
      rw [W.pos_eq] at h2
      rw [W.bits q]
      simp [h1, h2]
  · unfold bit_write_CRC
    rw [e]

theorem bit_ckr8_lt16 (seed : Nat) (l : List Nat) (hseed : seed < 2 ^ 16) :
    bit_ckr8 seed l < 2 ^ 16 := by
  unfold bit_ckr8
  have : ∀ (l : List Nat) (r : Nat), r < 2 ^ 16 →
      l.foldl (fun dx byte =>
        ((dx >>> 8) &&& 0xFF)
          ^^^ ckrtable.getD (UCHAR (UCHAR byte ^^^ UCHAR (dx &&& 0xFF)) &&& 0xFF) 0) r
        < 2 ^ 16 := by
    intro l
    induction l with
    | nil => intro r hr; exact hr
    | cons b l ih =>
      intro r _
      simp only [List.foldl_cons]
      exact ih _ (ckr8_step_lt r b)
  exact this l _ (by rw [Nat.mod_eq_of_lt (by omega)]; exact hseed)

/-- Seal then validate on the 16-bit path: for a version before R_2004 and a
seed below 2^16, the checksum written by `bit_write_CRC` is accepted by
`bit_check_CRC` started at the byte where it was stored. -/
theorem bit_CRC_seal_then_validate_16 (fuel : Nat) (d : Bit_Chain) (start_address seed a : Nat)
    (hbyte : d.byte < d.size) (hbit : d.bit < 8) (hfuel : 8 ≤ fuel)
    (ha : a = (pos d + 7) / 8) (hstart : start_address ≤ a) (hlen : a - start_address < 2 ^ 32)
    (hver : d.version < R_2004) (hseed : seed < 2 ^ 16) :
    ∃ crc d', bit_write_CRC fuel d start_address seed = some (crc, d')
      ∧ (bit_check_CRC { d' with byte := a, bit := 0 } start_address seed).1 = 1 := by
  have hd : WF d := ⟨hbyte, hbit⟩
  obtain ⟨dp, w, b0, hba, hver', hext, hzero, e⟩ :=
    write_CRC_states fuel d start_address seed hd hfuel
  rw [← ha] at hba
  have h1 := CRC_calculated_eq dp start_address seed (by omega) (by omega)
  have hv : ¬ (dp.version ≥ R_2004) := by rw [hver']; exact not_le.mpr hver
  rw [if_neg hv] at h1
  have hlt : CRC_calculated dp start_address seed < 2 ^ 16 := by
    rw [h1]; exact bit_ckr8_lt16 _ _ hseed
  obtain ⟨crc, hcrc⟩ : ∃ crc, crc = CRC_calculated dp start_address seed := ⟨_, rfl⟩
  rw [← hcrc] at e hlt
  have W1 := write_RC_wrote dp (UCHAR (crc >>> 8)) w
  have W2 := write_RC_wrote _ (UCHAR (crc &&& 0xFF)) W1.wf
  obtain ⟨dF, hdF⟩ : ∃ dF, dF = bit_write_RC (bit_write_RC dp (UCHAR (crc >>> 8)))
      (UCHAR (crc &&& 0xFF)) := ⟨_, rfl⟩
  rw [← hdF] at e W2
  have hE := W1.ext.trans W2.ext
  refine ⟨crc, dF, e, ?_⟩
  have hrw : ({ dF with byte := a, bit := 0 } : Bit_Chain) = rewind dF dp := by
    unfold rewind; rw [hba, b0]
  rw [hrw]
  have hc := CRC_calculated_congr dp (rewind dF dp) start_address seed rfl
    (by show dF.version = dp.version; rw [W2.version_eq, W1.version_eq]) (by omega) (by omega)
    (fun q hq => hE.keep q (by unfold pos; omega))
  rw [← hcrc] at hc
  have hr1 := read_back_RC w W1 W2.ext
  have hr2 := read_back_RC W1.wf W2 (Ext.refl _)
  rw [rewind_self] at hr2
  have hb0 : ¬ ((rewind dF dp).bit > 0) := by show ¬ (dp.bit > 0); omega
  have hself : ({ rewind dF dp with bit := 0 } : Bit_Chain) = rewind dF dp := by
    unfold rewind; rw [b0]
  unfold bit_check_CRC
  simp only [hb0, if_false, hself, hc, hr1, hr2]
  have : ((UCHAR (crc >>> 8) % 256) <<< 8 ||| UCHAR (crc &&& 0xFF) % 256) % 4294967296 = crc := by
    rw [lor_shift8 _ _ (Nat.mod_lt _ (by norm_num)), and_255, Nat.shiftRight_eq_div_pow]
    unfold UCHAR
    omega
  simp
  exact this.symm

/-! ### cursor movement, text, colour and growth -/

theorem sentinel_loop_absent (dat : Bit_Chain) (sentinel : Nat → Nat) (s : Nat)
    (habs : ∀ i, i < s → ∃ j, j < 16 ∧ UCHAR (dat.chain (i + j)) ≠ UCHAR (sentinel j)) :
    ∀ (n i : Nat), i + n = s → bit_search_sentinel_loop dat sentinel n i = (0, dat)
  | 0, i, _ => by rw [bit_search_sentinel_loop]
  | n + 1, i, h => by
    rw [bit_search_sentinel_loop]
    obtain ⟨j, hj, hne⟩ := habs i (by omega)
    have := sentinel_inner_mismatch dat sentinel i 16 0 ⟨j, by omega, hj, hne⟩
    simp only [this, if_false]
    exact sentinel_loop_absent dat sentinel s habs n (i + 1) (by omega)

/-- When no offset below `size` starts a copy of the pattern in the memory
(the bytes stored after the buffer included), `bit_search_sentinel` returns 0
and leaves the state as it was. -/
theorem bit_search_sentinel_absent (dat : Bit_Chain) (sentinel : Nat → Nat)
    (habs : ∀ i, i < dat.size → ∃ j, j < 16 ∧ UCHAR (dat.chain (i + j)) ≠ UCHAR (sentinel j)) :
    bit_search_sentinel dat sentinel = (0, dat) :=
  sentinel_loop_absent dat sentinel dat.size habs dat.size 0 (by omega)

theorem advance_clamp (d : Bit_Chain) (n : Nat) (h1 : d.size ≤ d.byte + 1) (h2 : 7 < d.bit + n) :
    bit_advance_position d (n : Int) = { d with bit := 7 } := by
  unfold bit_advance_position
  have c : d.byte ≥ d.size - 1 ∧ (d.bit : Int) + (n : Int) > 7 := ⟨by omega, by omega⟩
  simp only [c, and_self, if_true]

theorem advance_last (d : Bit_Chain) (n : Nat) (h : d.byte + 1 = d.size) (hbit : d.bit < 8) :
    bit_advance_position d (n : Int) = { d with bit := min (d.bit + n) 7 } := by
  by_cases hc : d.bit + n ≤ 7
  · rw [advance_fwd d n (Or.inr hc)]
    have e1 : (d.bit + n) % 8 = min (d.bit + n) 7 := by omega
    have e2 : d.byte + (d.bit + n) / 8 = d.byte := by omega
    rw [e1, e2]
  · rw [advance_clamp d n (by omega) (by omega)]
    have e1 : min (d.bit + n) 7 = 7 := by omega
    rw [e1]

theorem advance_keeps (d : Bit_Chain) (n : Nat) (hn : n ≤ 8) (h : WF d) :
    WF (bit_advance_position d (n : Int)) ∧ (bit_advance_position d (n : Int)).size = d.size := by
  obtain ⟨h1, h2⟩ := h
  by_cases hc : d.byte + 1 < d.size
  · rw [advance_fwd d n (Or.inl hc)]
    refine ⟨⟨?_, ?_⟩, rfl⟩
    · show d.byte + (d.bit + n) / 8 < d.size
      omega
    · show (d.bit + n) % 8 < 8
      omega
  · rw [advance_last d n (by omega) h2]
    refine ⟨⟨h1, ?_⟩, rfl⟩
    show min (d.bit + n) 7 < 8
    omega

theorem read_B_inv (d : Bit_Chain) (h : WF d) :
    (∀ i ∈ bit_read_B_reads d, i < d.size) ∧ WF (bit_read_B d).2
      ∧ (bit_read_B d).2.size = d.size := by
  refine ⟨?_, advance_keeps d 1 (by omega) h⟩
  intro i hi
  simp only [bit_read_B_reads, List.mem_singleton] at hi
  rw [hi]; exact h.1

theorem read_BB_inv (d : Bit_Chain) (h : WF d) :
    (∀ i ∈ bit_read_BB_reads d, i < d.size) ∧ WF (bit_read_BB d).2
      ∧ (bit_read_BB d).2.size = d.size := by
  refine ⟨?_, advance_keeps d 2 (by omega) h⟩
  intro i hi
  have h1 := h.1
  unfold bit_read_BB_reads at hi
  split_ifs at hi <;> simp at hi <;> omega

theorem read_RC_inv (d : Bit_Chain) (h : WF d) :
    (∀ i ∈ bit_read_RC_reads d, i < d.size) ∧ WF (bit_read_RC d).2
      ∧ (bit_read_RC d).2.size = d.size := by
  refine ⟨?_, advance_keeps d 8 (by omega) h⟩
  intro i hi
  have h1 := h.1
  unfold bit_read_RC_reads at hi
  split_ifs at hi <;> simp at hi <;> omega

theorem read_RS_inv (d : Bit_Chain) (h : WF d) :
    (∀ i ∈ bit_read_RS_reads d, i < d.size) ∧ WF (bit_read_RS d).2
      ∧ (bit_read_RS d).2.size = d.size := by
  obtain ⟨a1, a2, a3⟩ := read_RC_inv d h
  obtain ⟨b1, b2, b3⟩ := read_RC_inv _ a2
  have e : (bit_read_RS d).2 = (bit_read_RC (bit_read_RC d).2).2 := rfl
  rw [e]
  refine ⟨?_, b2, by rw [b3, a3]⟩
  intro i hi
  unfold bit_read_RS_reads at hi
  rcases List.mem_append.mp hi with hi | hi
  · exact a1 i hi
  · rw [← a3]; exact b1 i hi

theorem read_RL_inv (d : Bit_Chain) (h : WF d) :
    (∀ i ∈ bit_read_RL_reads d, i < d.size) ∧ WF (bit_read_RL d).2
      ∧ (bit_read_RL d).2.size = d.size := by
  obtain ⟨a1, a2, a3⟩ := read_RS_inv d h
  obtain ⟨b1, b2, b3⟩ := read_RS_inv _ a2
  have e : (bit_read_RL d).2 = (bit_read_RS (bit_read_RS d).2).2 := rfl
  rw [e]
  refine ⟨?_, b2, by rw [b3, a3]⟩
  intro i hi
  unfold bit_read_RL_reads at hi
  rcases List.mem_append.mp hi with hi | hi
  · exact a1 i hi
  · rw [← a3]; exact b1 i hi

theorem write_RC_seq : ∀ (vs : List Nat) (d : Bit_Chain), WF d →
    WF (vs.foldl bit_write_RC d) ∧ Ext d (vs.foldl bit_write_RC d)
      ∧ pos (vs.foldl bit_write_RC d) = pos d + 8 * vs.length
      ∧ ∀ i, i < vs.length →
          peek (vs.foldl bit_write_RC d).chain (pos d + 8 * i) 8 = vs.getD i 0 % 256
  | [], d, h => ⟨h, Ext.refl d, rfl, fun i hi => absurd hi (by simp)⟩
  | v :: vs, d, h => by
    have W := write_RC_wrote d v h
    obtain ⟨w, e, p, k⟩ := write_RC_seq vs _ W.wf
    refine ⟨w, W.ext.trans e, ?_, ?_⟩
    · show pos (vs.foldl bit_write_RC (bit_write_RC d v)) = _
      rw [p, W.pos_eq, List.length_cons]; omega
    · intro i hi
      show peek (vs.foldl bit_write_RC (bit_write_RC d v)).chain _ 8 = _
      cases i with
      | zero =>
        have := W.peek_eq e
        simpa using this
      | succ j =>
        have := k j (by simpa using hi)
        rw [W.pos_eq] at this
        have e2 : pos d + 8 * (j + 1) = pos d + 8 + 8 * j := by omega
        rw [e2, this]
        simp

theorem write_BS_ext (d : Bit_Chain) (v : Nat) (h : WF d) :
    WF (bit_write_BS d v) ∧ Ext d (bit_write_BS d v) ∧ (bit_write_BS d v).version = d.version := by
  unfold bit_write_BS
  by_cases h1 : v > 256
  · simp only [h1, if_true]
    have W := write_BB_wrote d 0 h (by norm_num)
    have W2 := write_RS_wrote _ v W.wf
    exact ⟨W2.wf, W.ext.trans W2.ext, by rw [W2.version_eq, W.version_eq]⟩
  · simp only [h1, if_false]
    by_cases h2 : v = 0
    · simp only [h2, if_true]
      have W := write_BB_wrote d 2 h (by norm_num)
      exact ⟨W.wf, W.ext, W.version_eq⟩
    · simp only [h2, if_false]
      by_cases h3 : v = 256
      · simp only [h3, if_true]
        have W := write_BB_wrote d 3 h (by norm_num)
        exact ⟨W.wf, W.ext, W.version_eq⟩
      · simp only [h3, if_false]
        have W := write_BB_wrote d 1 h (by norm_num)
        have W2 := write_RC_wrote _ v W.wf
        exact ⟨W2.wf, W.ext.trans W2.ext, by rw [W2.version_eq, W.version_eq]⟩

theorem read_back_BS {d dF : Bit_Chain} {v : Nat} (hd : WF d) (hv : v ≤ 65535)
    (hF : Ext (bit_write_BS d v) dF) :
    bit_read_BS (rewind dF d) = (v, rewind dF (bit_write_BS d v)) := by
  unfold bit_read_BS
  unfold bit_write_BS at hF ⊢
  by_cases h1 : v > 256
  · simp only [h1, if_true] at hF ⊢
    have W := write_BB_wrote d 0 hd (by norm_num)
    have w := W.wf
    obtain ⟨w2, e2⟩ := write_RS_ext _ v w
    rw [read_back_BB hd W (e2.trans hF)]
    simp only [Nat.zero_mod, if_true]
    rw [read_back_RS w hF, Nat.mod_eq_of_lt (by omega)]
  · simp only [h1, if_false] at hF ⊢
    by_cases h2 : v = 0
    · simp only [h2, if_true] at hF ⊢
      have W := write_BB_wrote d 2 hd (by norm_num)
      rw [read_back_BB hd W hF]
      simp
    · simp only [h2, if_false] at hF ⊢
      by_cases h3 : v = 256
      · simp only [h3, if_true] at hF ⊢
        have W := write_BB_wrote d 3 hd (by norm_num)
        rw [read_back_BB hd W hF]
        simp
      · simp only [h3, if_false] at hF ⊢
        have W := write_BB_wrote d 1 hd (by norm_num)
        have w := W.wf
        have W2 := write_RC_wrote _ v w
        rw [read_back_BB hd W (W2.ext.trans hF)]
        simp only [Nat.one_mod, if_true]
        rw [read_back_RC w W2 hF]
        simp [UCHAR]
        omega

theorem write_BL_ext (d : Bit_Chain) (v : Nat) (h : WF d) :
    WF (bit_write_BL d v) ∧ Ext d (bit_write_BL d v) ∧ (bit_write_BL d v).version = d.version := by
  unfold bit_write_BL
  by_cases h1 : v > 255
  · simp only [h1, if_true]
    have W := write_BB_wrote d 0 h (by norm_num)
    have W2 := write_RL_wrote _ v W.wf
    exact ⟨W2.wf, W.ext.trans W2.ext, by rw [W2.version_eq, W.version_eq]⟩
  · simp only [h1, if_false]
    by_cases h2 : v = 0
    · simp only [h2, if_true]
      have W := write_BB_wrote d 2 h (by norm_num)
      exact ⟨W.wf, W.ext, W.version_eq⟩
    · simp only [h2, if_false]
      have W := write_BB_wrote d 1 h (by norm_num)
      have W2 := write_RC_wrote _ v W.wf
      exact ⟨W2.wf, W.ext.trans W2.ext, by rw [W2.version_eq, W.version_eq]⟩

theorem read_back_BL {d dF : Bit_Chain} {v : Nat} (hd : WF d) (hv : v < 2 ^ 32)
    (hF : Ext (bit_write_BL d v) dF) :
    bit_read_BL (rewind dF d) = (v, rewind dF (bit_write_BL d v)) := by
  unfold bit_read_BL
  unfold bit_write_BL at hF ⊢
  by_cases h1 : v > 255
  · simp only [h1, if_true] at hF ⊢
    have W := write_BB_wrote d 0 hd (by norm_num)
    obtain ⟨w2, e2⟩ := write_RL_ext _ v W.wf
    rw [read_back_BB hd W (e2.trans hF)]
    simp only [Nat.zero_mod, if_true]
    rw [read_back_RL W.wf hF, Nat.mod_eq_of_lt hv]
  · simp only [h1, if_false] at hF ⊢
    by_cases h2 : v = 0
    · simp only [h2, if_true] at hF ⊢
      have W := write_BB_wrote d 2 hd (by norm_num)
      rw [read_back_BB hd W hF]
      simp
    · simp only [h2, if_false] at hF ⊢
      have W := write_BB_wrote d 1 hd (by norm_num)
      have W2 := write_RC_wrote _ v W.wf
      rw [read_back_BB hd W (W2.ext.trans hF)]
      simp only [Nat.one_mod, one_ne_zero, if_true, if_false]
      rw [read_back_RC W.wf W2 hF, and_255]
      congr 1
      omega

theorem write_TV_loop_ext (chain : List Nat) : ∀ (n i : Nat) (d : Bit_Chain), WF d →
    WF (bit_write_TV_loop chain n i d) ∧ Ext d (bit_write_TV_loop chain n i d)
      ∧ (bit_write_TV_loop chain n i d).version = d.version
  | 0, _, d, h => ⟨h, Ext.refl d, rfl⟩
  | n + 1, i, d, h => by
    have W := write_RC_wrote d (chain.getD i 0) h
    obtain ⟨w, e, v⟩ := write_TV_loop_ext chain n (i + 1) _ W.wf
    exact ⟨w, W.ext.trans e, by rw [bit_write_TV_loop, v, W.version_eq]⟩

theorem printable_keep (c : Nat) (h : 0x20 ≤ c ∧ c ≤ 0x7E) :
    (if c % 256 = 0 then 0x2A else if ¬ isprint (c % 256) then 0x7E else c % 256) = c := by
  have e : c % 256 = c := Nat.mod_eq_of_lt (by omega)
  have p : isprint c = true := by unfold isprint; exact decide_eq_true h
  rw [e, if_neg (by omega), p]
  simp

theorem read_back_TV_loop (chain : List Nat) : ∀ (n i : Nat) (d dF : Bit_Chain), WF d →
    (∀ k, k < n → 0x20 ≤ chain.getD (i + k) 0 ∧ chain.getD (i + k) 0 ≤ 0x7E) →
    Ext (bit_write_TV_loop chain n i d) dF →
    bit_read_TV_loop n (rewind dF d)
      = ((List.range n).map (fun k => chain.getD (i + k) 0),
          rewind dF (bit_write_TV_loop chain n i d))
  | 0, _, d, dF, _, _, _ => rfl
  | n + 1, i, d, dF, h, hp, hF => by
    have W := write_RC_wrote d (chain.getD i 0) h
    have hF' : Ext (bit_write_TV_loop chain n (i + 1) (bit_write_RC d (chain.getD i 0))) dF := hF
    obtain ⟨w, e, _⟩ := write_TV_loop_ext chain n (i + 1) _ W.wf
    have ih := read_back_TV_loop chain n (i + 1) _ dF W.wf
      (fun k hk => by have := hp (k + 1) (by omega); rwa [show i + (k + 1) = i + 1 + k by omega] at this)
      hF'
    rw [bit_read_TV_loop, read_back_RC h W (e.trans hF')]
    simp only []
    rw [ih, printable_keep _ (by simpa using hp 0 (by omega))]
    rw [List.range_succ_eq_map, List.map_cons, List.map_map]
    simp only [Nat.add_zero]
    congr 2
    apply List.map_congr_left
    intro k _
    simp only [Function.comp, Nat.succ_eq_add_one]
    congr 1
    omega

theorem strlen_printable (text : List Nat) (hp : ∀ c ∈ text, 0x20 ≤ c ∧ c ≤ 0x7E) :
    strlen text = text.length := by
  unfold strlen
  have : text.takeWhile (fun c => decide (UCHAR c ≠ 0)) = text := by
    rw [List.takeWhile_eq_self_iff]
    intro c hc
    have := hp c hc
    simp only [UCHAR, ne_eq, decide_eq_true_eq]
    omega
  rw [this]

theorem range_map_getD (l : List Nat) :
    (List.range l.length).map (fun k => l.getD (0 + k) 0) = l := by
  apply List.ext_getElem
  · simp
  · intro i h1 h2
    simp [List.getD_eq_getElem?_getD, h2]

theorem TV_length_conv (n : Nat) (h : n < 2 ^ 31) :
    UINT_of_int (INT_of_nat n) = n ∧ (INT_of_nat n).toNat = n := by
  have e : INT_of_nat n = (n : Int) := by
    unfold INT_of_nat
    have : n % 2 ^ 32 = n := Nat.mod_eq_of_lt (by omega)
    rw [this, if_pos (by omega)]
  rw [e]
  unfold UINT_of_int
  constructor <;> omega

theorem write_TV_ext (d : Bit_Chain) (text : List Nat) (h : WF d) :
    WF (bit_write_TV d text) ∧ Ext d (bit_write_TV d text)
      ∧ (bit_write_TV d text).version = d.version := by
  unfold bit_write_TV
  obtain ⟨w, e, v⟩ := write_BS_ext d (UINT_of_int (INT_of_nat (strlen text))) h
  obtain ⟨w2, e2, v2⟩ := write_TV_loop_ext text (INT_of_nat (strlen text)).toNat 0 _ w
  exact ⟨w2, e.trans e2, by rw [v2, v]⟩

theorem read_back_TV {d dF : Bit_Chain} {text : List Nat} (hd : WF d)
    (hp : ∀ c ∈ text, 0x20 ≤ c ∧ c ≤ 0x7E) (hlen : text.length ≤ 65535)
    (hF : Ext (bit_write_TV d text) dF) :
    bit_read_TV (rewind dF d) = (text ++ [0], rewind dF (bit_write_TV d text)) := by
  unfold bit_read_TV
  unfold bit_write_TV at hF ⊢
  obtain ⟨c1, c2⟩ := TV_length_conv text.length (by omega)
  simp only [c1, c2, strlen_printable text hp] at hF ⊢
  obtain ⟨w, _, _⟩ := write_BS_ext d text.length hd
  obtain ⟨_, e2, _⟩ := write_TV_loop_ext text text.length 0 _ w
  rw [read_back_BS hd hlen (e2.trans hF)]
  simp only []
  rw [read_back_TV_loop text text.length 0 _ dF w
    (fun k hk => hp _ (by
      rw [List.getD_eq_getElem?_getD, Nat.zero_add, List.getElem?_eq_getElem hk]
      exact List.getElem_mem _)) hF]
  simp only [range_map_getD]

theorem read_TV_loop_len : ∀ (n : Nat) (d : Bit_Chain),
    (bit_read_TV_loop n d).1.length = n
      ∧ ∀ c ∈ (bit_read_TV_loop n d).1, 0x20 ≤ c ∧ c ≤ 0x7E
  | 0, d => ⟨rfl, fun c hc => absurd hc (by simp [bit_read_TV_loop])⟩
  | n + 1, d => by
    obtain ⟨a, b⟩ := read_TV_loop_len n (bit_read_RC d).2
    rw [bit_read_TV_loop]
    refine ⟨by simp [a], ?_⟩
    intro c hc
    simp only [List.mem_cons] at hc
    rcases hc with hc | hc
    · rw [hc]
      by_cases h0 : (bit_read_RC d).1 = 0
      · simp [h0]
      · by_cases h1 : isprint (bit_read_RC d).1 = true
        · simp only [h0, if_false, h1, not_true_eq_false]
          unfold isprint at h1
          exact of_decide_eq_true h1
        · simp [h0, h1]
    · exact b c hc

theorem read_TV_long {d dF : Bit_Chain} {text : List Nat} (hd : WF d)
    (hp : ∀ c ∈ text, 0x20 ≤ c ∧ c ≤ 0x7E) (hlen : text.length = 65536)
    (hF : Ext (bit_write_TV d text) dF) :
    (bit_read_TV (rewind dF d)).1 = [0] := by
  unfold bit_read_TV
  unfold bit_write_TV at hF
  obtain ⟨c1, c2⟩ := TV_length_conv text.length (by omega)
  simp only [strlen_printable text hp, c1, c2] at hF
  rw [hlen] at hF
  have W := write_BB_wrote d 0 hd (by norm_num)
  obtain ⟨w2, e2⟩ := write_RS_ext _ 65536 W.wf
  have hb : bit_write_BS d 65536 = bit_write_RS (bit_write_BB d 0) 65536 := by
    unfold bit_write_BS
    rw [if_pos (by norm_num)]
  rw [hb] at hF
  obtain ⟨_, e3, _⟩ := write_TV_loop_ext text 65536 0 _ w2
  unfold bit_read_BS
  rw [read_back_BB hd W (e2.trans (e3.trans hF))]
  dsimp only
  rw [if_pos (by norm_num), read_back_RS W.wf (e3.trans hF)]
  rfl

theorem text_long_spec :
    (∀ c ∈ text_long, 0x20 ≤ c ∧ c ≤ 0x7E) ∧ text_long.length = 65536 := by
  constructor
  · intro c hc
    unfold text_long at hc
    rw [List.eq_of_mem_replicate hc]
    norm_num
  · unfold text_long
    rw [List.length_replicate]

theorem CMC_old_version (d : Bit_Chain) (color old : Dwg_Color) (hd : WF d)
    (hindex : color.index < 65536) (hv : ¬ (d.version ≥ R_2004)) :
    bit_write_CMC d color = bit_write_BS d color.index
      ∧ bit_read_CMC (rewind (bit_write_BS d color.index) d) old
          = ({ old with index := color.index }, bit_write_BS d color.index) := by
  obtain ⟨w1, e1, v1⟩ := write_BS_ext d color.index hd
  have r1 := @read_back_BS d (bit_write_BS d color.index) color.index hd (by omega) (Ext.refl _)
  rw [rewind_self] at r1
  have hc : ¬ ((bit_write_BS d color.index).version ≥ R_2004) := by rw [v1]; exact hv
  constructor
  · unfold bit_write_CMC
    show (if (bit_write_BS d color.index).version ≥ R_2004 then _ else _) = _
    rw [if_neg hc]
  · unfold bit_read_CMC
    rw [r1]
    show (if (bit_write_BS d color.index).version ≥ R_2004 then _ else _) = _
    rw [if_neg hc]

theorem CMC_write_eq (d : Bit_Chain) (color : Dwg_Color) (hd : WF d) (hv : d.version ≥ R_2004) :
    bit_write_CMC d color
      = (if color.byte &&& 2 ≠ 0 then
          bit_write_TV (if color.byte &&& 1 ≠ 0 then
            bit_write_TV (bit_write_RC (bit_write_BL (bit_write_BS d color.index)
              color.rgb) color.byte) color.name
            else bit_write_RC (bit_write_BL (bit_write_BS d color.index) color.rgb) color.byte)
            color.book_name
        else if color.byte &&& 1 ≠ 0 then
            bit_write_TV (bit_write_RC (bit_write_BL (bit_write_BS d color.index)
              color.rgb) color.byte) color.name
            else bit_write_RC (bit_write_BL (bit_write_BS d color.index) color.rgb)
              color.byte) := by
  obtain ⟨_, _, v1⟩ := write_BS_ext d color.index hd
  have hv1 : (bit_write_BS d color.index).version ≥ R_2004 := by rw [v1]; exact hv
  unfold bit_write_CMC
  show (if (bit_write_BS d color.index).version ≥ R_2004 then _ else _) = _
  rw [if_pos hv1]

theorem CMC_read_head (d dF : Bit_Chain) (color old : Dwg_Color) (hd : WF d)
    (hindex : color.index < 65536) (hrgb : color.rgb < 2 ^ 32) (hflag : color.byte < 256)
    (hv : d.version ≥ R_2004)
    (hE : Ext (bit_write_RC (bit_write_BL (bit_write_BS d color.index) color.rgb) color.byte) dF)
    (hV : dF.version
      = (bit_write_RC (bit_write_BL (bit_write_BS d color.index) color.rgb) color.byte).version) :
    WF (bit_write_RC (bit_write_BL (bit_write_BS d color.index) color.rgb) color.byte)
      ∧ bit_read_CMC (rewind dF d) old
        = (if color.byte &&& 1 ≠ 0 then
            if color.byte &&& 2 ≠ 0 then
              (⟨color.index, color.rgb, color.byte,
                  (bit_read_TV (rewind dF (bit_write_RC (bit_write_BL
                    (bit_write_BS d color.index) color.rgb) color.byte))).1,
                  (bit_read_TV (bit_read_TV (rewind dF (bit_write_RC (bit_write_BL
                    (bit_write_BS d color.index) color.rgb) color.byte))).2).1⟩,
                (bit_read_TV (bit_read_TV (rewind dF (bit_write_RC (bit_write_BL
                    (bit_write_BS d color.index) color.rgb) color.byte))).2).2)
            else
              (⟨color.index, color.rgb, color.byte,
                  (bit_read_TV (rewind dF (bit_write_RC (bit_write_BL
                    (bit_write_BS d color.index) color.rgb) color.byte))).1, old.book_name⟩,
                (bit_read_TV (rewind dF (bit_write_RC (bit_write_BL
                    (bit_write_BS d color.index) color.rgb) color.byte))).2)
          else if color.byte &&& 2 ≠ 0 then
              (⟨color.index, color.rgb, color.byte, old.name,
                  (bit_read_TV (rewind dF (bit_write_RC (bit_write_BL
                    (bit_write_BS d color.index) color.rgb) color.byte))).1⟩,
                (bit_read_TV (rewind dF (bit_write_RC (bit_write_BL
                    (bit_write_BS d color.index) color.rgb) color.byte))).2)
            else
              (⟨color.index, color.rgb, color.byte, old.name, old.book_name⟩,
                rewind dF (bit_write_RC (bit_write_BL (bit_write_BS d color.index) color.rgb)
                  color.byte))) := by
  obtain ⟨w1, e1, v1⟩ := write_BS_ext d color.index hd
  obtain ⟨w2, e2, v2⟩ := write_BL_ext _ color.rgb w1
  have W3 := write_RC_wrote _ color.byte w2
  have w3 := W3.wf
  have v3 := W3.version_eq
  have hb : color.byte % 256 = color.byte := Nat.mod_eq_of_lt hflag
  have r1 := read_back_BS hd (show color.index ≤ 65535 by omega) (e2.trans (W3.ext.trans hE))
  have r2 := read_back_BL w1 hrgb (W3.ext.trans hE)
  have r3 := read_back_RC w2 W3 hE
  rw [hb] at r3
  refine ⟨w3, ?_⟩
  obtain ⟨d1, h1⟩ : ∃ d1, d1 = bit_write_BS d color.index := ⟨_, rfl⟩
  rw [← h1] at v1 v2 v3 r1 r2 r3 hV ⊢
  obtain ⟨d2, h2⟩ : ∃ d2, d2 = bit_write_BL d1 color.rgb := ⟨_, rfl⟩
  rw [← h2] at v2 v3 r2 r3 hV ⊢
  obtain ⟨d3, h3⟩ : ∃ d3, d3 = bit_write_RC d2 color.byte := ⟨_, rfl⟩
  rw [← h3] at v3 r3 hV ⊢
  have ver : (rewind dF d1).version ≥ R_2004 := by
    show dF.version ≥ R_2004
    rw [hV, v3, v2, v1]; exact hv
  unfold bit_read_CMC
  dsimp only
  rw [r1]
  dsimp only
  rw [if_pos ver, r2]
  dsimp only
  rw [r3]
  dsimp only
  by_cases f1 : color.byte &&& 1 ≠ 0
  · by_cases f2 : color.byte &&& 2 ≠ 0
    · simp only [if_pos f1, if_pos f2]
    · simp only [if_pos f1, if_neg f2]
  · by_cases f2 : color.byte &&& 2 ≠ 0
    · simp only [if_neg f1, if_pos f2]
    · simp only [if_neg f1, if_neg f2]

theorem CMC_new_version (d : Bit_Chain) (color old : Dwg_Color) (hd : WF d)
    (hindex : color.index < 65536) (hrgb : color.rgb < 2 ^ 32) (hflag : color.byte < 256)
    (hname : color.byte &&& 1 ≠ 0 →
      (∀ c ∈ color.name, 0x20 ≤ c ∧ c ≤ 0x7E) ∧ color.name.length ≤ 65535)
    (hbook : color.byte &&& 2 ≠ 0 →
      (∀ c ∈ color.book_name, 0x20 ≤ c ∧ c ≤ 0x7E) ∧ color.book_name.length ≤ 65535)
    (hv : d.version ≥ R_2004) :
    bit_read_CMC (rewind (bit_write_CMC d color) d) old
      = ({ index := color.index, rgb := color.rgb, byte := color.byte,
           name := if color.byte &&& 1 ≠ 0 then color.name ++ [0] else old.name,
           book_name := if color.byte &&& 2 ≠ 0 then color.book_name ++ [0]
                        else old.book_name },
          bit_write_CMC d color) := by
  have pre := fun dF hE hV => CMC_read_head d dF color old hd hindex hrgb hflag hv hE hV
  rw [CMC_write_eq d color hd hv]
  obtain ⟨d3, h3⟩ : ∃ d3, d3 = bit_write_RC (bit_write_BL (bit_write_BS d color.index)
      color.rgb) color.byte := ⟨_, rfl⟩
  rw [← h3] at pre ⊢
  clear h3
  by_cases f1 : color.byte &&& 1 ≠ 0
  · obtain ⟨p1, l1⟩ := hname f1
    by_cases f2 : color.byte &&& 2 ≠ 0
    · obtain ⟨p2, l2⟩ := hbook f2
      simp only [if_pos f1, if_pos f2] at pre ⊢
      obtain ⟨w3, -⟩ := pre d3 (Ext.refl _) rfl
      obtain ⟨w4, e4, v4⟩ := write_TV_ext d3 color.name w3
      obtain ⟨w5, e5, v5⟩ := write_TV_ext _ color.book_name w4
      have t1 := read_back_TV w3 p1 l1 e5
      have t2 := read_back_TV w4 p2 l2 (Ext.refl _)
      rw [rewind_self] at t2
      rw [(pre _ (e4.trans e5) (by rw [v5, v4])).2, t1]
      dsimp only
      rw [t2]
    · simp only [if_pos f1, if_neg f2] at pre ⊢
      obtain ⟨w3, -⟩ := pre d3 (Ext.refl _) rfl
      obtain ⟨w4, e4, v4⟩ := write_TV_ext d3 color.name w3
      have t1 := read_back_TV w3 p1 l1 (Ext.refl _)
      rw [rewind_self] at t1
      rw [(pre _ e4 v4).2, t1]
  · by_cases f2 : color.byte &&& 2 ≠ 0
    · obtain ⟨p2, l2⟩ := hbook f2
      simp only [if_neg f1, if_pos f2] at pre ⊢
      obtain ⟨w3, -⟩ := pre d3 (Ext.refl _) rfl
      obtain ⟨w5, e5, v5⟩ := write_TV_ext d3 color.book_name w3
      have t2 := read_back_TV w3 p2 l2 (Ext.refl _)
      rw [rewind_self] at t2
      rw [(pre _ e5 v5).2, t2]
    · simp only [if_neg f1, if_neg f2] at pre ⊢
      rw [(pre d3 (Ext.refl _) rfl).2, rewind_self]

theorem CMC_long_name (d : Bit_Chain) (color old : Dwg_Color) (hd : WF d)
    (hindex : color.index < 65536) (hrgb : color.rgb < 2 ^ 32) (hflag : color.byte = 1)
    (hp : ∀ c ∈ color.name, 0x20 ≤ c ∧ c ≤ 0x7E) (hlen : color.name.length = 65536)
    (hv : d.version ≥ R_2004) :
    (bit_read_CMC (rewind (bit_write_CMC d color) d) old).1.name = [0] := by
  have pre := fun dF hE hV =>
    CMC_read_head d dF color old hd hindex hrgb (by rw [hflag]; norm_num) hv hE hV
  rw [CMC_write_eq d color hd hv]
  obtain ⟨d3, h3⟩ : ∃ d3, d3 = bit_write_RC (bit_write_BL (bit_write_BS d color.index)
      color.rgb) color.byte := ⟨_, rfl⟩
  rw [← h3] at pre ⊢
  clear h3
  have f1 : color.byte &&& 1 ≠ 0 := by rw [hflag]; decide
  have f2 : ¬ (color.byte &&& 2 ≠ 0) := by rw [hflag]; decide
  simp only [if_pos f1, if_neg f2] at pre ⊢
  obtain ⟨w3, -⟩ := pre d3 (Ext.refl _) rfl
  obtain ⟨w4, e4, v4⟩ := write_TV_ext d3 color.name w3
  rw [(pre _ e4 v4).2]
  exact read_TV_long w3 hp hlen (Ext.refl _)

theorem nibble_hi (x : Nat) (hx : x < 256) : (x &&& 0xf0) >>> 4 = x / 16 := by
  revert x
  decide

theorem peek_8_4 (c : Nat → Nat) (p : Nat) : peek c p 8 / 16 = peek c p 4 := by
  have b4 : bitAt c (p + 4) < 2 := Nat.mod_lt _ (by norm_num)
  have b5 : bitAt c (p + 5) < 2 := Nat.mod_lt _ (by norm_num)
  have b6 : bitAt c (p + 6) < 2 := Nat.mod_lt _ (by norm_num)
  have b7 : bitAt c (p + 7) < 2 := Nat.mod_lt _ (by norm_num)
  simp only [peek]
  omega

theorem advance_back_4 (d : Bit_Chain) (hbit : d.bit < 8) :
    bit_advance_position d (-4)
      = { d with bit := if 4 ≤ d.bit then d.bit - 4 else 252 + d.bit } := by
  unfold bit_advance_position
  have hc : ¬ (d.byte ≥ d.size - 1 ∧ ((d.bit : Int) + (-4 : Int)) > 7) := by
    rintro ⟨_, h2⟩
    omega
  simp only [hc, if_false]
  have e0 : ∀ z : Int, z = 0 → ULONG_of_int ((d.byte : Int) + z) = d.byte := by
    intro z hz
    rw [hz]
    unfold ULONG_of_int
    split <;> omega
  have hk : d.bit = 0 ∨ d.bit = 1 ∨ d.bit = 2 ∨ d.bit = 3 ∨ d.bit = 4 ∨ d.bit = 5 ∨ d.bit = 6
      ∨ d.bit = 7 := by omega
  rcases hk with h | h | h | h | h | h | h | h <;> rw [h] <;>
    rw [e0 _ (by decide)] <;> congr 1

/-- Behaviour of `bit_read_4BITS` with the cursor before the last byte: the
value is the four bits under the cursor; from a bit offset 4..7 the cursor
ends four bits further, from a bit offset 0..3 it ends in the next byte with
the bit offset `252 + bit`. -/
theorem bit_read_4BITS_spec (d : Bit_Chain) (hbit : d.bit < 8) (hroom : d.byte + 1 < d.size) :
    (bit_read_4BITS d).1 = peek d.chain (pos d) 4
      ∧ (4 ≤ d.bit → (bit_read_4BITS d).2 = { d with byte := d.byte + 1, bit := d.bit - 4 })
      ∧ (d.bit < 4 → (bit_read_4BITS d).2 = { d with byte := d.byte + 1, bit := 252 + d.bit }) := by
  unfold bit_read_4BITS
  rw [read_RC_eq d hbit hroom]
  dsimp only
  have ab := advance_back_4 { d with byte := d.byte + 1 } hbit
  dsimp only at ab
  rw [ab, nibble_hi _ (peek_lt _ _ 8), peek_8_4]
  refine ⟨rfl, fun h => ?_, fun h => ?_⟩
  · rw [if_pos h]
  · rw [if_neg (by omega)]

/-! ### single-bit reads and writes that do not grow the buffer -/

theorem rd_B_b : ∀ k, k < 8 → ∀ y, y < 256 →
    ((y &&& (0x80 >>> k)) >>> (7 - k)) % 256 = y / 2 ^ (7 - k) % 2 := by
  decide

theorem read_B_eq (d : Bit_Chain) (hb : d.bit < 8) (hr : d.byte + 1 < d.size ∨ d.bit + 1 ≤ 7) :
    bit_read_B d = (bitAt d.chain (pos d),
      { d with bit := (d.bit + 1) % 8, byte := d.byte + (d.bit + 1) / 8 }) := by
  unfold bit_read_B
  dsimp only
  have a := advance_fwd d 1 hr
  have a1 : bit_advance_position d 1 = bit_advance_position d ((1 : Nat) : Int) := rfl
  rw [a1, a]
  congr 1
  unfold UCHAR pos
  rw [rd_B_b _ hb _ (Nat.mod_lt _ (by norm_num)), bitAt_at]
  have e1 : d.bit / 8 = 0 := by omega
  have e2 : d.bit % 8 = d.bit := by omega
  rw [e1, e2, Nat.add_zero]
  have hk : d.bit = 0 ∨ d.bit = 1 ∨ d.bit = 2 ∨ d.bit = 3 ∨ d.bit = 4 ∨ d.bit = 5 ∨ d.bit = 6
      ∨ d.bit = 7 := by omega
  rcases hk with h | h | h | h | h | h | h | h <;> rw [h] <;> norm_num <;> omega

theorem read_bits_reference_eq : ∀ (n : Nat) (d : Bit_Chain), n ≤ 8 → d.bit < 8 →
    d.byte + 1 < d.size →
    read_bits_reference n d
      = (peek d.chain (pos d) n,
          { d with bit := (d.bit + n) % 8, byte := d.byte + (d.bit + n) / 8 })
  | 0, d, _, hb, _ => by
    have e1 : (d.bit + 0) % 8 = d.bit := by omega
    have e2 : d.byte + (d.bit + 0) / 8 = d.byte := by omega
    rw [read_bits_reference, e1, e2]
    rfl
  | n + 1, d, hn, hb, hr => by
    rw [read_bits_reference, read_bits_reference_eq n d (by omega) hb hr]
    dsimp only
    have rb := read_B_eq { d with bit := (d.bit + n) % 8, byte := d.byte + (d.bit + n) / 8 }
      (by show (d.bit + n) % 8 < 8; omega)
      (by show d.byte + (d.bit + n) / 8 + 1 < d.size ∨ (d.bit + n) % 8 + 1 ≤ 7; omega)
    dsimp only at rb
    rw [rb]
    dsimp only
    have p : pos { d with bit := (d.bit + n) % 8, byte := d.byte + (d.bit + n) / 8 }
        = pos d + n := by
      unfold pos
      show 8 * (d.byte + (d.bit + n) / 8) + (d.bit + n) % 8 = 8 * d.byte + d.bit + n
      omega
    rw [p]
    have e1 : ((d.bit + n) % 8 + 1) % 8 = (d.bit + (n + 1)) % 8 := by omega
    have e2 : d.byte + (d.bit + n) / 8 + ((d.bit + n) % 8 + 1) / 8
        = d.byte + (d.bit + (n + 1)) / 8 := by omega
    rw [e1, e2]
    rfl

theorem advance_size (d : Bit_Chain) (n : Int) : (bit_advance_position d n).size = d.size := by
  unfold bit_advance_position
  dsimp only
  split_ifs <;> rfl

theorem write_RC_size (d : Bit_Chain) (v : Nat) (hr : d.byte + 1 < d.size) :
    (bit_write_RC d v).size = d.size := by
  unfold bit_write_RC
  dsimp only
  have hc : ¬ (d.byte ≥ d.size - 1) := by omega
  rw [advance_size, if_neg hc]
  split_ifs <;> rfl

theorem write_BB_size (d : Bit_Chain) (v : Nat) (hr : d.byte + 1 < d.size) :
    (bit_write_BB d v).size = d.size := by
  unfold bit_write_BB
  dsimp only
  have hc : ¬ (d.byte ≥ d.size - 1) := by omega
  rw [advance_size, if_neg hc]
  split_ifs <;> rfl

/-! ### reads that reach the last byte of the buffer -/

theorem peek_top (c : Nat → Nat) (p : Nat) : peek c p 8 / 128 = bitAt c p := by
  have hb : ∀ i, bitAt c (p + i) < 2 := fun i => Nat.mod_lt _ (by norm_num)
  have h0 := hb 0
  have h1 := hb 1
  have h2 := hb 2
  have h3 := hb 3
  have h4 := hb 4
  have h5 := hb 5
  have h6 := hb 6
  have h7 := hb 7
  simp only [peek, Nat.add_zero] at *
  omega

theorem last_b : ∀ k, k < 8 → ∀ y, y < 256 →
    (y * 2 ^ k) % 256 / 128 = y / 2 ^ (7 - k) % 2 := by
  decide

theorem low_bits (x k : Nat) (hk : k < 8) : (x % 256) / 2 ^ (7 - k) % 2 = x / 2 ^ (7 - k) % 2 := by
  interval_cases k <;> simp <;> omega

/-- At the last byte of the buffer `bit_read_RC` returns the bits left in that
byte, followed by zero bits, and parks the cursor at bit 7. -/
theorem read_RC_last (d : Bit_Chain) (hb : d.bit < 8) (hl : d.byte + 1 = d.size) :
    bit_read_RC d = ((d.chain d.byte % 256 * 2 ^ d.bit) % 256, { d with bit := 7 }) := by
  have hlt : ¬ (d.byte < d.size - 1) := by omega
  have hval : (if d.bit = 0 then UCHAR (d.chain d.byte)
      else UCHAR (UCHAR (d.chain d.byte) <<< d.bit)) = (d.chain d.byte % 256 * 2 ^ d.bit) % 256 := by
    by_cases h0 : d.bit = 0
    · simp only [h0, if_true, UCHAR]; simp
    · simp only [h0, if_false, UCHAR]
      rw [Nat.shiftLeft_eq]
  have e : bit_advance_position d 8 = { d with bit := 7 } := by
    have := advance_last d 8 hl hb
    rw [show min (d.bit + 8) 7 = 7 by omega] at this
    exact this
  unfold bit_read_RC
  simp only [hlt, if_false]
  rw [e, hval]

/-- The continuation flag of a byte read at the last byte of the buffer is the
bit under the cursor. -/
theorem last_flag (d : Bit_Chain) (hb : d.bit < 8) :
    (d.chain d.byte % 256 * 2 ^ d.bit) % 256 / 128 = peek d.chain (pos d) 8 / 128 := by
  rw [peek_top, last_b d.bit hb _ (Nat.mod_lt _ (by norm_num)), low_bits _ _ hb]
  unfold pos
  rw [bitAt_at]
  have e1 : d.bit / 8 = 0 := by omega
  have e2 : d.bit % 8 = d.bit := by omega
  rw [e1, e2, Nat.add_zero]

/-- A byte that lies inside the buffer is read as it stands; the cursor moves
to the next byte, or to bit 7 when the byte is the last one. -/
theorem read_RC_in (d : Bit_Chain) (hb : d.bit < 8) (hin : pos d + 8 ≤ 8 * d.size) :
    (bit_read_RC d).1 = peek d.chain (pos d) 8
      ∧ (d.byte + 1 < d.size → (bit_read_RC d).2 = { d with byte := d.byte + 1 })
      ∧ (d.byte + 1 = d.size → (bit_read_RC d).2 = { d with bit := 7 }) := by
  by_cases hr : d.byte + 1 < d.size
  · rw [read_RC_eq d hb hr]
    exact ⟨rfl, fun _ => rfl, fun h => absurd h (by omega)⟩
  · have hl : d.byte + 1 = d.size := by unfold pos at hin; omega
    have h0 : d.bit = 0 := by unfold pos at hin; omega
    rw [read_RC_last d hb hl]
    refine ⟨?_, fun h => absurd h hr, fun _ => rfl⟩
    show (d.chain d.byte % 256 * 2 ^ d.bit) % 256 = peek d.chain (pos d) 8
    rw [peek_of_bits d.chain (pos d) 8 (d.chain d.byte) (fun i hi => by
      unfold pos
      rw [h0, Nat.add_zero, bitAt_at]
      have e1 : i / 8 = 0 := by omega
      have e2 : i % 8 = i := by omega
      rw [e1, e2, Nat.add_zero, show 8 - 1 - i = 7 - i from rfl])]
    rw [h0]
    norm_num

/-- At or behind the last byte of the buffer `bit_read_RC` returns the bits
left in the byte under the cursor, followed by zero bits. -/
theorem read_RC_edge (d : Bit_Chain) (hl : d.size ≤ d.byte + 1) :
    (bit_read_RC d).1 = (d.chain d.byte % 256 * 2 ^ d.bit) % 256 := by
  have hlt : ¬ (d.byte < d.size - 1) := by omega
  unfold bit_read_RC
  simp only [hlt, if_false]
  by_cases h0 : d.bit = 0
  · simp only [h0, if_true, UCHAR]; simp
  · simp only [h0, if_false, UCHAR]
    rw [Nat.shiftLeft_eq]

/-- The eight bits under the cursor: what is left of the current byte, then
the leading bits of the following byte. -/
theorem peek_8_split (d : Bit_Chain) (hb : d.bit < 8) :
    peek d.chain (pos d) 8
      = (d.chain d.byte % 256 * 2 ^ d.bit) % 256 + (d.chain (d.byte + 1) % 256) / 2 ^ (8 - d.bit) := by
  rw [peek_of_bits d.chain (pos d) 8
    ((d.chain d.byte % 256 * 2 ^ d.bit) % 256 + (d.chain (d.byte + 1) % 256) / 2 ^ (8 - d.bit))
    (fun i hi => by
    unfold pos
    rw [Nat.add_assoc, bitAt_at, show 8 - 1 - i = 7 - i from rfl, rd_RC_bits _ _ _ _ hb hi]
    by_cases hc : d.bit + i < 8
    · have : (d.bit + i) / 8 = 0 := by omega
      simp [hc, this]
    · have : (d.bit + i) / 8 = 1 := by omega
      simp [hc, this])]
  apply Nat.mod_eq_of_lt
  rw [← rd_RC_b d.bit _ _ hb]
  unfold UCHAR
  exact Nat.mod_lt _ (by norm_num)

theorem nibble_le (k x y : Nat) (hk : k < 8) (hy : y < 256)
    (h : ((x * 2 ^ k) % 256 + y / 2 ^ (8 - k)) % 16 ≤ 4) : (x * 2 ^ k) % 256 % 16 ≤ 4 := by
  interval_cases k <;> simp at h ⊢ <;> omega

theorem read_MC_loop_error_end : ∀ (n j res : Nat) (d : Bit_Chain), d.bit < 8 →
    d.byte + n + 1 = d.size → (∀ i, i < n + 1 → 128 ≤ peek d.chain (pos d + 8 * i) 8) →
    bit_read_MC_loop (n + 1) j res d = (0, true, { d with byte := d.byte + n, bit := 7 })
  | 0, j, res, d, hb, hs, hf => by
    rw [bit_read_MC_loop, read_RC_last d hb (by omega)]
    have h0 := hf 0 (by omega)
    simp only [Nat.mul_zero, Nat.add_zero] at h0
    have hlt : (d.chain d.byte % 256 * 2 ^ d.bit) % 256 < 256 := Nat.mod_lt _ (by norm_num)
    have hfl := last_flag d hb
    have hc : ¬ ((d.chain d.byte % 256 * 2 ^ d.bit) % 256 &&& 0x80 = 0) := by
      rw [flag_clear_iff _ hlt]; omega
    simp only [hc, if_false]
    rw [bit_read_MC_loop]
    rfl
  | n + 1, j, res, d, hb, hs, hf => by
    rw [bit_read_MC_loop, read_RC_eq d hb (by omega)]
    have h0 := hf 0 (by omega)
    simp only [Nat.mul_zero, Nat.add_zero] at h0
    have hlt := peek_lt d.chain (pos d) 8
    have hc : ¬ (peek d.chain (pos d) 8 &&& 0x80 = 0) := by
      rw [flag_clear_iff _ hlt]; omega
    simp only [hc, if_false]
    rw [read_MC_loop_error_end n _ _ { d with byte := d.byte + 1 } hb
      (by show d.byte + 1 + n + 1 = d.size; omega)
      (fun i hi => by
        have := hf (i + 1) (by omega)
        rw [pos_next]
        have e : pos d + 8 * 1 + 8 * i = pos d + 8 * (i + 1) := by omega
        rw [e]; exact this)]
    simp [Nat.add_assoc, Nat.add_comm 1 n]

theorem read_MC_loop_stop_end : ∀ (k m j res : Nat) (d : Bit_Chain), d.bit < 8 →
    d.byte + k + 1 = d.size → (∀ i, i < k → 128 ≤ peek d.chain (pos d + 8 * i) 8) →
    peek d.chain (pos d + 8 * k) 8 < 128 →
    (bit_read_MC_loop (k + 1 + m) j res d).2.1 = false
      ∧ (bit_read_MC_loop (k + 1 + m) j res d).2.2 = { d with byte := d.byte + k, bit := 7 }
  | 0, m, j, res, d, hb, hs, _, hl => by
    have e : 0 + 1 + m = m + 1 := by omega
    rw [e, bit_read_MC_loop, read_RC_last d hb (by omega)]
    simp only [Nat.mul_zero, Nat.add_zero] at hl
    have hlt : (d.chain d.byte % 256 * 2 ^ d.bit) % 256 < 256 := Nat.mod_lt _ (by norm_num)
    have hfl := last_flag d hb
    have hc : (d.chain d.byte % 256 * 2 ^ d.bit) % 256 &&& 0x80 = 0 := by
      rw [flag_clear_iff _ hlt]; omega
    simp only [hc, if_true]
    exact ⟨trivial, rfl⟩
  | k + 1, m, j, res, d, hb, hs, hf, hl => by
    have e : k + 1 + 1 + m = (k + 1 + m) + 1 := by omega
    rw [e, bit_read_MC_loop, read_RC_eq d hb (by omega)]
    have h0 := hf 0 (by omega)
    simp only [Nat.mul_zero, Nat.add_zero] at h0
    have hlt := peek_lt d.chain (pos d) 8
    have hc : ¬ (peek d.chain (pos d) 8 &&& 0x80 = 0) := by
      rw [flag_clear_iff _ hlt]; omega
    simp only [hc, if_false]
    have ih := read_MC_loop_stop_end k m (j + 7) (res ||| ((peek d.chain (pos d) 8 &&& 0x7f) <<< j))
      { d with byte := d.byte + 1 } hb (by show d.byte + 1 + k + 1 = d.size; omega)
      (fun i hi => by
        have := hf (i + 1) (by omega)
        rw [pos_next]
        have e : pos d + 8 * 1 + 8 * i = pos d + 8 * (i + 1) := by omega
        rw [e]; exact this)
      (by
        rw [pos_next]
        have e : pos d + 8 * 1 + 8 * k = pos d + 8 * (k + 1) := by omega
        rw [e]; exact hl)
    refine ⟨ih.1, ?_⟩
    rw [ih.2]
    simp [Nat.add_assoc, Nat.add_comm 1 k]

/-! ### texts that end with the buffer -/

theorem and_mod_flag (b : Nat) : (b % 256) &&& 1 = b &&& 1 ∧ (b % 256) &&& 2 = b &&& 2 := by
  have e1 : (255 : Nat) &&& 1 = 1 := by decide
  have e2 : (255 : Nat) &&& 2 = 2 := by decide
  constructor
  · rw [← and_255, Nat.and_assoc, e1]
  · rw [← and_255, Nat.and_assoc, e2]

theorem strlen_le (text : List Nat) : strlen text ≤ text.length := by
  unfold strlen
  exact (List.takeWhile_prefix _).length_le

/-- Reading back a bit-long of any value gives its low 32 bits and ends where
the write ended. -/
theorem read_back_BL_mod {d dF : Bit_Chain} {v : Nat} (hd : WF d)
    (hF : Ext (bit_write_BL d v) dF) :
    bit_read_BL (rewind dF d) = (v % 2 ^ 32, rewind dF (bit_write_BL d v)) := by
  unfold bit_read_BL
  unfold bit_write_BL at hF ⊢
  by_cases h1 : v > 255
  · simp only [h1, if_true] at hF ⊢
    have W := write_BB_wrote d 0 hd (by norm_num)
    obtain ⟨w2, e2⟩ := write_RL_ext _ v W.wf
    rw [read_back_BB hd W (e2.trans hF)]
    simp only [Nat.zero_mod, if_true]
    rw [read_back_RL W.wf hF]
  · have hv : v % 2 ^ 32 = v := Nat.mod_eq_of_lt (by omega)
    rw [hv]
    simp only [h1, if_false] at hF ⊢
    by_cases h2 : v = 0
    · simp only [h2, if_true] at hF ⊢
      have W := write_BB_wrote d 2 hd (by norm_num)
      rw [read_back_BB hd W hF]
      simp
    · simp only [h2, if_false] at hF ⊢
      have W := write_BB_wrote d 1 hd (by norm_num)
      have W2 := write_RC_wrote _ v W.wf
      rw [read_back_BB hd W (W2.ext.trans hF)]
      simp only [Nat.one_mod, one_ne_zero, if_true, if_false]
      rw [read_back_RC W.wf W2 hF, and_255]
      congr 1
      omega

/-- The loop of `bit_read_TV` ends where the loop of `bit_write_TV` ended,
whatever the bytes written. -/
theorem read_back_TV_loop_state (chain : List Nat) : ∀ (n i : Nat) (d dF : Bit_Chain), WF d →
    Ext (bit_write_TV_loop chain n i d) dF →
    (bit_read_TV_loop n (rewind dF d)).2 = rewind dF (bit_write_TV_loop chain n i d)
  | 0, _, d, dF, _, _ => rfl
  | n + 1, i, d, dF, h, hF => by
    have W := write_RC_wrote d (chain.getD i 0) h
    have hF' : Ext (bit_write_TV_loop chain n (i + 1) (bit_write_RC d (chain.getD i 0))) dF := hF
    obtain ⟨w, e, _⟩ := write_TV_loop_ext chain n (i + 1) _ W.wf
    have ih := read_back_TV_loop_state chain n (i + 1) _ dF W.wf hF'
    rw [bit_read_TV_loop, read_back_RC h W (e.trans hF')]
    dsimp only
    exact ih

/-- Reading a text of at most 65535 bytes ends where `bit_write_TV` ended,
whatever its bytes. -/
theorem read_back_TV_state {d dF : Bit_Chain} {text : List Nat} (hd : WF d)
    (hlen : text.length ≤ 65535) (hF : Ext (bit_write_TV d text) dF) :
    (bit_read_TV (rewind dF d)).2 = rewind dF (bit_write_TV d text) := by
  have hs := strlen_le text
  unfold bit_read_TV
  unfold bit_write_TV at hF ⊢
  obtain ⟨c1, c2⟩ := TV_length_conv (strlen text) (by omega)
  simp only [c1, c2] at hF ⊢
  obtain ⟨w, _, _⟩ := write_BS_ext d (strlen text) hd
  obtain ⟨_, e2, _⟩ := write_TV_loop_ext text (strlen text) 0 _ w
  rw [@read_back_BS d dF (strlen text) hd (by omega) (e2.trans hF)]
  dsimp only
  exact read_back_TV_loop_state text (strlen text) 0 _ dF w hF

/-- The fields returned by `bit_read_CMC` on a buffer of version R_2004 or
later that holds the index, the rgb value and the flag byte of `color`: the
names are the texts read after the flag byte. -/
theorem CMC_read_parts (d dF : Bit_Chain) (color old : Dwg_Color) (hd : WF d)
    (hindex : color.index < 65536) (hv : d.version ≥ R_2004)
    (hE : Ext (bit_write_RC (bit_write_BL (bit_write_BS d color.index) color.rgb) color.byte) dF)
    (hV : dF.version
      = (bit_write_RC (bit_write_BL (bit_write_BS d color.index) color.rgb) color.byte).version) :
    ∃ d3 S1 S2,
      d3 = bit_write_RC (bit_write_BL (bit_write_BS d color.index) color.rgb) color.byte
      ∧ WF d3
      ∧ S1 = (if color.byte &&& 1 ≠ 0 then (bit_read_TV (rewind dF d3)).2 else rewind dF d3)
      ∧ S2 = (if color.byte &&& 2 ≠ 0 then (bit_read_TV S1).2 else S1)
      ∧ (bit_read_CMC (rewind dF d) old).1.index = color.index
      ∧ (bit_read_CMC (rewind dF d) old).1.rgb = color.rgb % 2 ^ 32
      ∧ (bit_read_CMC (rewind dF d) old).1.byte = color.byte % 256
      ∧ (bit_read_CMC (rewind dF d) old).1.name
          = (if color.byte &&& 1 ≠ 0 then (bit_read_TV (rewind dF d3)).1 else old.name)
      ∧ (bit_read_CMC (rewind dF d) old).1.book_name
          = (if color.byte &&& 2 ≠ 0 then (bit_read_TV S1).1 else old.book_name)
      ∧ (bit_read_CMC (rewind dF d) old).2 = S2 := by
  obtain ⟨w1, e1, v1⟩ := write_BS_ext d color.index hd
  obtain ⟨w2, e2, v2⟩ := write_BL_ext _ color.rgb w1
  have W3 := write_RC_wrote _ color.byte w2
  have w3 := W3.wf
  have v3 := W3.version_eq
  have r1 := read_back_BS hd (show color.index ≤ 65535 by omega) (e2.trans (W3.ext.trans hE))
  have r2 := read_back_BL_mod w1 (W3.ext.trans hE)
  have r3 := read_back_RC w2 W3 hE
  obtain ⟨m1, m2⟩ := and_mod_flag color.byte
  obtain ⟨d1, h1⟩ : ∃ d1, d1 = bit_write_BS d color.index := ⟨_, rfl⟩
  rw [← h1] at v1 v2 v3 r1 r2 r3 hV w3 ⊢
  obtain ⟨d2, h2⟩ : ∃ d2, d2 = bit_write_BL d1 color.rgb := ⟨_, rfl⟩
  rw [← h2] at v2 v3 r2 r3 hV w3 ⊢
  obtain ⟨d3, h3⟩ : ∃ d3, d3 = bit_write_RC d2 color.byte := ⟨_, rfl⟩
  rw [← h3] at v3 r3 hV w3 ⊢
  have ver : (rewind dF d1).version ≥ R_2004 := by
    show dF.version ≥ R_2004
    rw [hV, v3, v2, v1]; exact hv
  refine ⟨d3, _, _, rfl, w3, rfl, rfl, ?_⟩
  unfold bit_read_CMC
  dsimp only
  rw [r1]
  dsimp only
  rw [if_pos ver, r2]
  dsimp only
  rw [r3]
  dsimp only
  rw [m1]
  by_cases f1 : color.byte &&& 1 ≠ 0
  · simp only [if_pos f1]
    rw [m2]
    by_cases f2 : color.byte &&& 2 ≠ 0
    · simp only [if_pos f2]
      exact ⟨trivial, trivial, trivial, trivial, trivial, trivial⟩
    · simp only [if_neg f2]
      exact ⟨trivial, trivial, trivial, trivial, trivial, trivial⟩
  · simp only [if_neg f1]
    rw [m2]
    by_cases f2 : color.byte &&& 2 ≠ 0
    · simp only [if_pos f2]
      exact ⟨trivial, trivial, trivial, trivial, trivial, trivial⟩
    · simp only [if_neg f2]
      exact ⟨trivial, trivial, trivial, trivial, trivial, trivial⟩

/-- A text of 65536 printable bytes is read back as the empty text, and the
read ends right behind the length field. -/
theorem read_TV_long_pair {d dF : Bit_Chain} {text : List Nat} (hd : WF d)
    (hp : ∀ c ∈ text, 0x20 ≤ c ∧ c ≤ 0x7E) (hlen : text.length = 65536)
    (hF : Ext (bit_write_TV d text) dF) :
    bit_read_TV (rewind dF d) = ([0], rewind dF (bit_write_RS (bit_write_BB d 0) 65536)) := by
  unfold bit_read_TV
  unfold bit_write_TV at hF
  obtain ⟨c1, c2⟩ := TV_length_conv text.length (by omega)
  simp only [strlen_printable text hp, c1, c2] at hF
  rw [hlen] at hF
  have W := write_BB_wrote d 0 hd (by norm_num)
  obtain ⟨w2, e2⟩ := write_RS_ext _ 65536 W.wf
  have hb : bit_write_BS d 65536 = bit_write_RS (bit_write_BB d 0) 65536 := by
    unfold bit_write_BS
    rw [if_pos (by norm_num)]
  rw [hb] at hF
  obtain ⟨_, e3, _⟩ := write_TV_loop_ext text 65536 0 _ w2
  unfold bit_read_BS
  rw [read_back_BB hd W (e2.trans (e3.trans hF))]
  dsimp only
  rw [if_pos (by norm_num), read_back_RS W.wf (e3.trans hF)]
  rfl

/-- Behind the length field of a text of 65536 bytes that starts with two
letters `A`, the stream reads as the length 5. -/
theorem BS_after_long {d dF : Bit_Chain} {text : List Nat} (hd : WF d)
    (hp : ∀ c ∈ text, 0x20 ≤ c ∧ c ≤ 0x7E) (hlen : text.length = 65536)
    (h0 : text.getD 0 0 = 0x41) (h1 : text.getD 1 0 = 0x41)
    (hF : Ext (bit_write_TV d text) dF) :
    (bit_read_BS (rewind dF (bit_write_RS (bit_write_BB d 0) 65536))).1 = 5 := by
  unfold bit_write_TV at hF
  obtain ⟨c1, c2⟩ := TV_length_conv text.length (by omega)
  simp only [strlen_printable text hp, c1, c2] at hF
  rw [hlen] at hF
  have W := write_BB_wrote d 0 hd (by norm_num)
  obtain ⟨wX, _⟩ := write_RS_ext _ 65536 W.wf
  have hb : bit_write_BS d 65536 = bit_write_RS (bit_write_BB d 0) 65536 := by
    unfold bit_write_BS
    rw [if_pos (by norm_num)]
  rw [hb] at hF
  obtain ⟨dX, hX⟩ : ∃ dX, dX = bit_write_RS (bit_write_BB d 0) 65536 := ⟨_, rfl⟩
  rw [← hX] at hF wX ⊢
  have hl : bit_write_TV_loop text (65534 + 1 + 1) 0 dX
      = bit_write_TV_loop text 65534 (0 + 1 + 1)
          (bit_write_RC (bit_write_RC dX (text.getD 0 0)) (text.getD (0 + 1) 0)) := by
    rw [bit_write_TV_loop, bit_write_TV_loop]
  have hF2 : Ext (bit_write_TV_loop text (65534 + 1 + 1) 0 dX) dF := hF
  rw [hl, h0, show text.getD (0 + 1) 0 = 0x41 from h1] at hF2
  have W1 := write_RC_wrote dX 0x41 wX
  have W2 := write_RC_wrote _ 0x41 W1.wf
  obtain ⟨_, e3, _⟩ := write_TV_loop_ext text 65534 (0 + 1 + 1) _ W2.wf
  have hE := e3.trans hF2
  have WW := W1.comp W2
  have p1 := WW.peek_sub hE 0 2 (by norm_num)
  have p2 := WW.peek_sub hE 2 8 (by norm_num)
  norm_num at p1 p2
  have hs1 := W1.room
  have hs2 := W2.room
  have hs3 := W2.size_le
  have hs4 := hE.size_le
  have hb1 := W1.byte_eq
  have hbit := wX.2
  have e5 : (dX.bit + 8) / 8 = 1 := by omega
  rw [e5] at hb1
  unfold bit_read_BS
  rw [read_BB_eq (rewind dF dX) hbit (by show dX.byte + 1 < dF.size; omega)]
  dsimp only
  have q1 : peek (rewind dF dX).chain (pos (rewind dF dX)) 2 = 1 := p1
  rw [q1, if_neg (by norm_num), if_pos rfl]
  rw [read_RC_eq _ (by show (dX.bit + 2) % 8 < 8; omega)
    (by show dX.byte + (dX.bit + 2) / 8 + 1 < dF.size; omega)]
  dsimp only
  show UCHAR (peek dF.chain (8 * (dX.byte + (dX.bit + 2) / 8) + (dX.bit + 2) % 8) 8) = 5
  have q2 : 8 * (dX.byte + (dX.bit + 2) / 8) + (dX.bit + 2) % 8 = pos dX + 2 := by
    unfold pos
    omega
  rw [q2, p2]
  rfl

/-- The array returned by `bit_read_TV` holds one byte more than the length
read. -/
theorem read_TV_length (d : Bit_Chain) : (bit_read_TV d).1.length = (bit_read_BS d).1 + 1 := by
  have key : bit_read_TV d
      = ((bit_read_TV_loop (bit_read_BS d).1 (bit_read_BS d).2).1 ++ [0],
          (bit_read_TV_loop (bit_read_BS d).1 (bit_read_BS d).2).2) := rfl
  rw [key]
  obtain ⟨l, _⟩ := read_TV_loop_len (bit_read_BS d).1 (bit_read_BS d).2
  show ((bit_read_TV_loop (bit_read_BS d).1 (bit_read_BS d).2).1 ++ [0]).length = _
  rw [List.length_append, l]
  rfl

/-- After a selected name of 65536 letters `A`, the book name read by
`bit_read_CMC` has five characters, whatever book name was written. -/
theorem CMC_long_book (d : Bit_Chain) (color old : Dwg_Color) (hd : WF d)
    (hindex : color.index < 65536) (hflag : color.byte = 3)
    (hp : ∀ c ∈ color.name, 0x20 ≤ c ∧ c ≤ 0x7E) (hlen : color.name.length = 65536)
    (h0 : color.name.getD 0 0 = 0x41) (h1 : color.name.getD 1 0 = 0x41)
    (hv : d.version ≥ R_2004) :
    (bit_read_CMC (rewind (bit_write_CMC d color) d) old).1.book_name.length = 6 := by
  have f1 : color.byte &&& 1 ≠ 0 := by rw [hflag]; decide
  have f2 : color.byte &&& 2 ≠ 0 := by rw [hflag]; decide
  have hw := CMC_write_eq d color hd hv
  simp only [if_pos f1, if_pos f2] at hw
  have pre := fun dF hE hV => CMC_read_parts d dF color old hd hindex hv hE hV
  obtain ⟨d3, h3⟩ : ∃ d3, d3 = bit_write_RC (bit_write_BL (bit_write_BS d color.index)
      color.rgb) color.byte := ⟨_, rfl⟩
  rw [← h3] at pre hw
  rw [hw]
  obtain ⟨w3, -⟩ : WF d3 ∧ True := by
    obtain ⟨_, _, _, e, w, -⟩ := pre d3 (Ext.refl _) rfl
    rw [e] at w
    exact ⟨w, trivial⟩
  obtain ⟨w4, e4, v4⟩ := write_TV_ext d3 color.name w3
  obtain ⟨w5, e5, v5⟩ := write_TV_ext _ color.book_name w4
  obtain ⟨dF, hF⟩ : ∃ dF, dF = bit_write_TV (bit_write_TV d3 color.name) color.book_name :=
    ⟨_, rfl⟩
  rw [← hF] at e5 v5 ⊢
  obtain ⟨d3x, S1, S2, a1, _, a3, _, _, _, _, _, a9, _⟩ := pre dF (e4.trans e5) (by rw [v5, v4])
  subst a1
  rw [if_pos f1] at a3
  rw [if_pos f2] at a9
  rw [a9, a3, read_TV_long_pair w3 hp hlen e5]
  show (bit_read_TV (rewind dF (bit_write_RS (bit_write_BB d3x 0) 65536))).1.length = 6
  rw [read_TV_length, BS_after_long w3 hp hlen h0 h1 e5]

/-! ### the checksum written, for every start offset -/

/-- C1: bit-short round trip.  For every value `v <= 65535` and every cursor
inside a non-empty buffer (any bit offset 0..7), `bit_write_BS` followed by
putting the cursor back and `bit_read_BS` returns `v`, and the read ends in
the very state in which the write ended (same buffer, same cursor). -/
theorem bit_BS_round_trip (d : Bit_Chain) (v : Nat) (hbyte : d.byte < d.size) (hbit : d.bit < 8)
    (hv : v ≤ 65535) :
    bit_read_BS (rewind (bit_write_BS d v) d) = (v, bit_write_BS d v) := by
  have hd : WF d := ⟨hbyte, hbit⟩
  unfold bit_read_BS bit_write_BS
  by_cases h1 : v > 256
  · simp only [h1, if_true]
    have W := write_BB_wrote d 0 hd (by norm_num)
    have w := W.wf
    obtain ⟨w2, e2⟩ := write_RS_ext _ v w
    rw [read_back_BB hd W e2]
    simp only [Nat.zero_mod, if_true]
    rw [read_back_RS w (Ext.refl _), rewind_self, Nat.mod_eq_of_lt (by omega)]
  · simp only [h1, if_false]
    by_cases h2 : v = 0
    · simp only [h2, if_true]
      have W := write_BB_wrote d 2 hd (by norm_num)
      rw [read_back_BB hd W (Ext.refl _), rewind_self]
      simp
    · simp only [h2, if_false]
      by_cases h3 : v = 256
      · simp only [h3, if_true]
        have W := write_BB_wrote d 3 hd (by norm_num)
        rw [read_back_BB hd W (Ext.refl _), rewind_self]
        simp
      · simp only [h3, if_false]
        have W := write_BB_wrote d 1 hd (by norm_num)
        have w := W.wf
        have W2 := write_RC_wrote _ v w
        rw [read_back_BB hd W W2.ext]
        simp only [Nat.one_mod, if_true]
        rw [read_back_RC w W2 (Ext.refl _), rewind_self]
        simp [UCHAR]
        omega

/-- C1 (witness): a bit-short written at byte 1, bit 3 of a four-byte buffer
(the buffer grows while it is written) is read back. -/
theorem bit_BS_round_trip_witness :
    dat_small.byte < dat_small.size ∧ dat_small.bit < 8 ∧ 300 ≤ 65535
      ∧ bit_read_BS (rewind (bit_write_BS dat_small 300) dat_small)
          = (300, bit_write_BS dat_small 300) :=
  ⟨by decide, by decide, by decide,
    bit_BS_round_trip dat_small 300 (by decide) (by decide) (by decide)⟩

/-- C2: bit-long round trip.  For every `v < 2^32` and every cursor inside a
non-empty buffer, `bit_write_BL` followed by putting the cursor back and
`bit_read_BL` returns `v` and ends where the write ended; the two leading bits
the writer emitted are never the reserved code 3. -/
theorem bit_BL_round_trip (d : Bit_Chain) (v : Nat) (hbyte : d.byte < d.size) (hbit : d.bit < 8)
    (hv : v < 2 ^ 32) :
    bit_read_BL (rewind (bit_write_BL d v) d) = (v, bit_write_BL d v)
      ∧ (bit_read_BB (rewind (bit_write_BL d v) d)).1 ≠ 3 := by
  have hd : WF d := ⟨hbyte, hbit⟩
  unfold bit_read_BL bit_write_BL
  by_cases h1 : v > 255
  · simp only [h1, if_true]
    have W := write_BB_wrote d 0 hd (by norm_num)
    obtain ⟨w2, e2⟩ := write_RL_ext _ v W.wf
    rw [read_back_BB hd W e2]
    refine ⟨?_, by norm_num⟩
    simp only [Nat.zero_mod, if_true]
    rw [read_back_RL W.wf (Ext.refl _), rewind_self, Nat.mod_eq_of_lt hv]
  · simp only [h1, if_false]
    by_cases h2 : v = 0
    · simp only [h2, if_true]
      have W := write_BB_wrote d 2 hd (by norm_num)
      rw [read_back_BB hd W (Ext.refl _), rewind_self]
      simp
    · simp only [h2, if_false]
      have W := write_BB_wrote d 1 hd (by norm_num)
      have W2 := write_RC_wrote _ v W.wf
      rw [read_back_BB hd W W2.ext]
      refine ⟨?_, by norm_num⟩
      simp only [Nat.one_mod, one_ne_zero, if_true, if_false]
      rw [read_back_RC W.wf W2 (Ext.refl _), rewind_self, and_255]
      congr 1
      omega

/-- C2 (witness): the bit-long `0xDEADBEEF` written at byte 1, bit 3 is read
back. -/
theorem bit_BL_round_trip_witness :
    dat_small.byte < dat_small.size ∧ dat_small.bit < 8 ∧ 0xDEADBEEF < 2 ^ 32
      ∧ bit_read_BL (rewind (bit_write_BL dat_small 0xDEADBEEF) dat_small)
          = (0xDEADBEEF, bit_write_BL dat_small 0xDEADBEEF)
      ∧ (bit_read_BB (rewind (bit_write_BL dat_small 0xDEADBEEF) dat_small)).1 ≠ 3 :=
  ⟨by decide, by decide, by decide,
    bit_BL_round_trip dat_small 0xDEADBEEF (by decide) (by decide) (by decide)⟩

/-- C3: modular-char round trip.  For every signed `v` with `|v| < 2^27` and
every cursor inside a non-empty buffer, `bit_write_MC` followed by putting the
cursor back and `bit_read_MC` returns `v` without logging an error, and ends
where the write ended. -/
theorem bit_MC_round_trip (d : Bit_Chain) (v : Int) (hbyte : d.byte < d.size) (hbit : d.bit < 8)
    (hv : |v| < 2 ^ 27) :
    bit_read_MC (rewind (bit_write_MC d v) d) = (v, false, bit_write_MC d v) := by
  have hd : WF d := ⟨hbyte, hbit⟩
  have habs := abs_lt.mp hv
  obtain ⟨value, hvalue⟩ : ∃ value : Nat, value = (if v < 0 then (-v).toNat else v.toNat) := ⟨_, rfl⟩
  have hlt : value < 2 ^ 27 := by
    rw [hvalue]; split <;> omega
  have l (x : Nat) : x % 128 < 128 := Nat.mod_lt _ (by norm_num)
  obtain ⟨cs, f, hcs, hf, hlen, hacc, hw⟩ := write_MC_shape d (decide (v < 0))
    (bit_write_MC_fill value 4 0 0x7f (fun _ => 0))
    (value % 128) (value / 2 ^ 7 % 128) (value / 2 ^ 14 % 128) (value / 2 ^ 21 % 128)
    (l _) (l _) (l _) (by omega)
    (by rw [MC_fill_eq]; simp [Function.update_apply])
    (by rw [MC_fill_eq]; simp [Function.update_apply])
    (by rw [MC_fill_eq]; simp [Function.update_apply])
    (by rw [MC_fill_eq]; simp [Function.update_apply])
  have e : bit_write_MC d v = bit_write_RC (MC_send d cs) (f + if decide (v < 0) then 64 else 0) := by
    rw [← hw, hvalue]; rfl
  unfold bit_read_MC
  rw [e, read_back_MC_loop f (decide (v < 0)) hf cs 4 0 0 d _ hd hcs hlen (Ext.refl _), rewind_self,
    hacc]
  have hsum : value % 128 + value / 2 ^ 7 % 128 * 2 ^ 7 + value / 2 ^ 14 % 128 * 2 ^ 14
      + value / 2 ^ 21 % 128 * 2 ^ 21 = value := by omega
  rw [hsum]
  congr 1
  by_cases hneg : v < 0
  · simp only [hneg, decide_True, if_true] at hvalue ⊢
    omega
  · simp only [hneg, decide_False, if_false] at hvalue ⊢
    simp; omega

/-- C3 (witness): the modular char `-8191` written at byte 2, bit 5 is read
back. -/
theorem bit_MC_round_trip_witness :
    dat_wide.byte < dat_wide.size ∧ dat_wide.bit < 8 ∧ |(-8191 : Int)| < 2 ^ 27
      ∧ bit_read_MC (rewind (bit_write_MC dat_wide (-8191)) dat_wide)
          = (-8191, false, bit_write_MC dat_wide (-8191)) :=
  ⟨by decide, by decide, by decide,
    bit_MC_round_trip dat_wide (-8191) (by decide) (by decide) (by decide)⟩

/-- C4: on the value 32768, which needs two 15-bit groups, `bit_write_MS`
emits the single word 0 (16 bits) and `bit_read_MS` returns 0. -/
theorem bit_MS_drops_high_group :
    pos (bit_write_MS dat_zero 32768) = pos dat_zero + 16
      ∧ (bit_read_MS (rewind (bit_write_MS dat_zero 32768) dat_zero)).1 = 0
      ∧ (bit_read_MS (rewind (bit_write_MS dat_zero 32768) dat_zero)).1 ≠ 32768 := by
  decide

/-- C5: handle round trip (little-endian host).  For every handle with code in
0..15 and value below 2^32, `bit_write_H` followed by putting the cursor back
and `bit_read_H` returns 0 and yields the same code and value; the size field
read is the number of bytes sent after the code/length byte, and the read ends
where the write ended. -/
theorem bit_H_round_trip (d : Bit_Chain) (handle : Dwg_Handle) (hbyte : d.byte < d.size)
    (hbit : d.bit < 8) (hcode : handle.code ≤ 15) (hvalue : handle.value < 2 ^ 32) :
    (bit_read_H (rewind (bit_write_H d handle) d)).1 = 0
      ∧ (bit_read_H (rewind (bit_write_H d handle) d)).2.1.code = handle.code
      ∧ (bit_read_H (rewind (bit_write_H d handle) d)).2.1.value = handle.value
      ∧ pos (bit_write_H d handle)
          = pos d + 8 + 8 * (bit_read_H (rewind (bit_write_H d handle) d)).2.1.size
      ∧ (bit_read_H (rewind (bit_write_H d handle) d)).2.2 = bit_write_H d handle := by
  have hd : WF d := ⟨hbyte, hbit⟩
  by_cases h0 : handle.value = 0
  · have W := write_RC_wrote d (handle.code <<< 4) hd
    have e : bit_write_H d handle = bit_write_RC d (handle.code <<< 4) := by
      simp [bit_write_H, h0]
    obtain ⟨c1, c2⟩ := H_code_byte0 handle.code hcode
    have r : bit_read_H (rewind (bit_write_H d handle) d)
        = (0, { code := handle.code, size := 0, value := 0 }, bit_write_H d handle) := by
      rw [e]
      unfold bit_read_H
      rw [read_back_RC hd W (Ext.refl _), rewind_self]
      simp only [c1, c2]
      simp [bit_read_H_loop]
    rw [r]
    refine ⟨rfl, rfl, h0.symm, ?_, rfl⟩
    rw [e, W.pos_eq]
    rfl
  · obtain ⟨s1, s2, s3⟩ := H_scan_spec handle.value h0 hvalue
    have W := write_RC_wrote d (UCHAR (UCHAR (handle.code <<< 4) ||| bit_write_H_scan handle.value 4)) hd
    obtain ⟨w, ex, p⟩ := write_H_emit_ext handle.value (bit_write_H_scan handle.value 4) _ W.wf
    have e : bit_write_H d handle = bit_write_H_emit handle.value (bit_write_H_scan handle.value 4)
        (bit_write_RC d (UCHAR (UCHAR (handle.code <<< 4) ||| bit_write_H_scan handle.value 4))) := by
      simp [bit_write_H, h0]
    obtain ⟨c1, c2⟩ := H_code_byte handle.code _ hcode s2
    have r : bit_read_H (rewind (bit_write_H d handle) d)
        = (0, { code := handle.code, size := bit_write_H_scan handle.value 4,
                value := handle.value }, bit_write_H d handle) := by
      rw [e]
      unfold bit_read_H
      rw [read_back_RC hd W ex]
      simp only [c1, c2]
      have : ¬ bit_write_H_scan handle.value 4 > 4 := by omega
      simp only [this, if_false]
      rw [read_back_H_loop handle.value _ 0 _ _ W.wf (Ext.refl _) (by simp), rewind_self]
      simp only [Nat.zero_add, Nat.mod_eq_of_lt s3]
    rw [r]
    refine ⟨rfl, rfl, rfl, ?_, rfl⟩
    rw [e, p, W.pos_eq]

/-- C5 (witness): the handle with code 5 and value `0x1234` written at byte 2,
bit 5 is read back. -/
theorem bit_H_round_trip_witness :
    dat_wide.byte < dat_wide.size ∧ dat_wide.bit < 8 ∧ (5 : Nat) ≤ 15 ∧ 0x1234 < 2 ^ 32
      ∧ (bit_read_H (rewind (bit_write_H dat_wide ⟨5, 0, 0x1234⟩) dat_wide)).1 = 0
      ∧ (bit_read_H (rewind (bit_write_H dat_wide ⟨5, 0, 0x1234⟩) dat_wide)).2.1.code = 5
      ∧ (bit_read_H (rewind (bit_write_H dat_wide ⟨5, 0, 0x1234⟩) dat_wide)).2.1.value = 0x1234
      ∧ pos (bit_write_H dat_wide ⟨5, 0, 0x1234⟩)
          = pos dat_wide + 8
            + 8 * (bit_read_H (rewind (bit_write_H dat_wide ⟨5, 0, 0x1234⟩) dat_wide)).2.1.size
      ∧ (bit_read_H (rewind (bit_write_H dat_wide ⟨5, 0, 0x1234⟩) dat_wide)).2.2
          = bit_write_H dat_wide ⟨5, 0, 0x1234⟩ :=
  ⟨by decide, by decide, by decide, by decide,
    bit_H_round_trip dat_wide ⟨5, 0, 0x1234⟩ (by decide) (by decide) (by decide) (by decide)⟩

/-- C6: raw-long round trip at any alignment.  For every `v < 2^32` and every
cursor inside a non-empty buffer, `bit_write_RL` followed by putting the
cursor back and `bit_read_RL` returns `v`; the stream holds the four bytes of
`v` least significant first; the write and the read both move the cursor by
exactly 32 bits. -/
theorem bit_RL_round_trip (d : Bit_Chain) (v : Nat) (hbyte : d.byte < d.size) (hbit : d.bit < 8)
    (hv : v < 2 ^ 32) :
    bit_read_RL (rewind (bit_write_RL d v) d) = (v, bit_write_RL d v)
      ∧ (∀ i, i < 4 → peek (bit_write_RL d v).chain (pos d + 8 * i) 8 = get_byte v i)
      ∧ (bit_write_RL d v).byte = d.byte + 4 ∧ (bit_write_RL d v).bit = d.bit
      ∧ (bit_read_RL (rewind (bit_write_RL d v) d)).2.byte = d.byte + 4
      ∧ (bit_read_RL (rewind (bit_write_RL d v) d)).2.bit = d.bit := by
  have hd : WF d := ⟨hbyte, hbit⟩
  have hrt : bit_read_RL (rewind (bit_write_RL d v) d) = (v, bit_write_RL d v) := by
    rw [read_back_RL hd (Ext.refl _), rewind_self, Nat.mod_eq_of_lt hv]
  have W := write_RL_wrote d v hd
  have hby : (bit_write_RL d v).byte = d.byte + 4 := by rw [W.byte_eq]; omega
  have hbi : (bit_write_RL d v).bit = d.bit := by rw [W.bit_eq]; omega
  refine ⟨hrt, ?_, hby, hbi, by rw [hrt]; exact hby, by rw [hrt]; exact hbi⟩
  have W1 := write_RC_wrote d ((v &&& 0xFFFF) &&& 0xFF) hd
  have W2 := write_RC_wrote _ ((v &&& 0xFFFF) >>> 8) W1.wf
  have W3 := write_RC_wrote _ ((v >>> 16) &&& 0xFF) W2.wf
  have W4 := write_RC_wrote _ ((v >>> 16) >>> 8) W3.wf
  have p1 := W1.pos_eq
  have p2 := W2.pos_eq
  have p3 := W3.pos_eq
  have e0 := W1.peek_eq (W2.ext.trans (W3.ext.trans W4.ext))
  have e1 := W2.peek_eq (W3.ext.trans W4.ext)
  have e2 := W3.peek_eq W4.ext
  have e3 := W4.peek_eq (Ext.refl _)
  rw [p3, p2, p1] at e3
  rw [p2, p1] at e2
  rw [p1] at e1
  simp only [and_255, and_65535, Nat.shiftRight_eq_div_pow] at e0 e1 e2 e3
  intro i hi
  unfold bit_write_RL bit_write_RS
  simp only [and_255, and_65535, Nat.shiftRight_eq_div_pow]
  unfold get_byte
  interval_cases i
  · rw [show pos d + 8 * 0 = pos d from rfl, e0]; norm_num
  · rw [show pos d + 8 * 1 = pos d + 8 from rfl, e1]; norm_num; omega
  · rw [show pos d + 8 * 2 = pos d + 8 + 8 from rfl, e2]; norm_num
  · rw [show pos d + 8 * 3 = pos d + 8 + 8 + 8 from rfl, e3]; norm_num; omega

/-- C6 (witness): the raw long `0x12345678` written at byte 1, bit 3 is read
back. -/
theorem bit_RL_round_trip_witness :
    dat_small.byte < dat_small.size ∧ dat_small.bit < 8 ∧ 0x12345678 < 2 ^ 32
      ∧ bit_read_RL (rewind (bit_write_RL dat_small 0x12345678) dat_small)
          = (0x12345678, bit_write_RL dat_small 0x12345678)
      ∧ (∀ i, i < 4 →
          peek (bit_write_RL dat_small 0x12345678).chain (pos dat_small + 8 * i) 8
            = get_byte 0x12345678 i)
      ∧ (bit_write_RL dat_small 0x12345678).byte = dat_small.byte + 4
      ∧ (bit_write_RL dat_small 0x12345678).bit = dat_small.bit
      ∧ (bit_read_RL (rewind (bit_write_RL dat_small 0x12345678) dat_small)).2.byte
          = dat_small.byte + 4
      ∧ (bit_read_RL (rewind (bit_write_RL dat_small 0x12345678) dat_small)).2.bit
          = dat_small.bit :=
  ⟨by decide, by decide, by decide,
    bit_RL_round_trip dat_small 0x12345678 (by decide) (by decide) (by decide)⟩

/-- C7: with default 1.0 and a value one unit in the last place above it,
`bit_write_DD` emits code 0 and eight raw bytes; `bit_read_DD` reads code 0,
returns the default and stops after two bits. -/
theorem bit_DD_round_trip_fails :
    (bit_read_DD (rewind (bit_write_DD dat_zero 0x3FF0000000000001 DBL_ONE) dat_zero) DBL_ONE).1
        = DBL_ONE
      ∧ (bit_read_DD (rewind (bit_write_DD dat_zero 0x3FF0000000000001 DBL_ONE) dat_zero)
          DBL_ONE).1 ≠ 0x3FF0000000000001
      ∧ pos (bit_read_DD (rewind (bit_write_DD dat_zero 0x3FF0000000000001 DBL_ONE) dat_zero)
          DBL_ONE).2 = pos dat_zero + 2
      ∧ pos (bit_write_DD dat_zero 0x3FF0000000000001 DBL_ONE) = pos dat_zero + 66 := by
  decide

/-- C8: control-code selection of `bit_write_BS`.  Value 0 emits the two bits
`10` and nothing else; value 256 emits `11` and nothing else; a value in
1..255 emits `01` and the value as one byte; a value in 257..65535 emits `00`
and the value as two bytes, low byte first.  The cursor advances by 2, 2, 10
and 18 bits and no bit outside the emitted field changes. -/
theorem bit_write_BS_code_selection (d : Bit_Chain) (v : Nat) (hbyte : d.byte < d.size)
    (hbit : d.bit < 8) :
    (v = 0 → bit_write_BS d v = bit_write_BB d 2 ∧ pos (bit_write_BS d v) = pos d + 2
        ∧ peek (bit_write_BS d v).chain (pos d) 2 = 2
        ∧ ∀ q, (q < pos d ∨ pos d + 2 ≤ q) → bitAt (bit_write_BS d v).chain q = bitAt d.chain q)
    ∧ (v = 256 → bit_write_BS d v = bit_write_BB d 3 ∧ pos (bit_write_BS d v) = pos d + 2
        ∧ peek (bit_write_BS d v).chain (pos d) 2 = 3
        ∧ ∀ q, (q < pos d ∨ pos d + 2 ≤ q) → bitAt (bit_write_BS d v).chain q = bitAt d.chain q)
    ∧ (1 ≤ v ∧ v ≤ 255 → pos (bit_write_BS d v) = pos d + 10
        ∧ peek (bit_write_BS d v).chain (pos d) 2 = 1
        ∧ peek (bit_write_BS d v).chain (pos d + 2) 8 = v
        ∧ ∀ q, (q < pos d ∨ pos d + 10 ≤ q) → bitAt (bit_write_BS d v).chain q = bitAt d.chain q)
    ∧ (257 ≤ v ∧ v ≤ 65535 → pos (bit_write_BS d v) = pos d + 18
        ∧ peek (bit_write_BS d v).chain (pos d) 2 = 0
        ∧ peek (bit_write_BS d v).chain (pos d + 2) 8 = v % 256
        ∧ peek (bit_write_BS d v).chain (pos d + 10) 8 = v / 256
        ∧ ∀ q, (q < pos d ∨ pos d + 18 ≤ q) → bitAt (bit_write_BS d v).chain q = bitAt d.chain q) := by
  have hd : WF d := ⟨hbyte, hbit⟩
  refine ⟨?_, ?_, ?_, ?_⟩
  · intro h
    have W := write_BB_wrote d 2 hd (by norm_num)
    have e : bit_write_BS d v = bit_write_BB d 2 := by simp [bit_write_BS, h]
    rw [e]
    exact ⟨rfl, W.pos_eq, by rw [W.peek_eq (Ext.refl _)]; norm_num, W.frame⟩
  · intro h
    have W := write_BB_wrote d 3 hd (by norm_num)
    have e : bit_write_BS d v = bit_write_BB d 3 := by simp [bit_write_BS, h]
    rw [e]
    exact ⟨rfl, W.pos_eq, by rw [W.peek_eq (Ext.refl _)]; norm_num, W.frame⟩
  · intro h
    have W := write_BB_wrote d 1 hd (by norm_num)
    have W2 := write_RC_wrote _ v W.wf
    have e : bit_write_BS d v = bit_write_RC (bit_write_BB d 1) v := by
      have h1 : ¬ v > 256 := by omega
      have h2 : ¬ v = 0 := by omega
      have h3 : ¬ v = 256 := by omega
      simp [bit_write_BS, h1, h2, h3]
    rw [e]
    refine ⟨(W.comp W2).pos_eq, by rw [W.peek_eq W2.ext]; norm_num, ?_, (W.comp W2).frame⟩
    rw [← W.pos_eq, W2.peek_eq (Ext.refl _)]
    omega
  · intro h
    have W := write_BB_wrote d 0 hd (by norm_num)
    have W2 := write_RC_wrote _ (v &&& 0xFF) W.wf
    have W3 := write_RC_wrote _ (v >>> 8) W2.wf
    have e : bit_write_BS d v
        = bit_write_RC (bit_write_RC (bit_write_BB d 0) (v &&& 0xFF)) (v >>> 8) := by
      have h1 : v > 256 := by omega
      simp [bit_write_BS, h1, bit_write_RS]
    rw [e]
    have p1 := W.pos_eq
    have p2 := W2.pos_eq
    refine ⟨((W.comp W2).comp W3).pos_eq, by rw [W.peek_eq (W2.ext.trans W3.ext)]; norm_num, ?_, ?_,
      ((W.comp W2).comp W3).frame⟩
    · rw [← p1, W2.peek_eq W3.ext, and_255]; omega
    · rw [show pos d + 10 = pos d + 2 + 8 from rfl, ← p1, ← p2, W3.peek_eq (Ext.refl _),
        Nat.shiftRight_eq_div_pow]
      omega

/-- C8 (witness): the value 257 written at byte 2, bit 5 takes the raw 16-bit
form. -/
theorem bit_write_BS_code_selection_witness :
    dat_wide.byte < dat_wide.size ∧ dat_wide.bit < 8 ∧ (257 ≤ 257 ∧ 257 ≤ 65535)
      ∧ pos (bit_write_BS dat_wide 257) = pos dat_wide + 18
      ∧ peek (bit_write_BS dat_wide 257).chain (pos dat_wide) 2 = 0
      ∧ peek (bit_write_BS dat_wide 257).chain (pos dat_wide + 2) 8 = 257 % 256
      ∧ peek (bit_write_BS dat_wide 257).chain (pos dat_wide + 10) 8 = 257 / 256
      ∧ ∀ q, (q < pos dat_wide ∨ pos dat_wide + 18 ≤ q) →
          bitAt (bit_write_BS dat_wide 257).chain q = bitAt dat_wide.chain q :=
  ⟨by decide, by decide, by decide,
    (bit_write_BS_code_selection dat_wide 257 (by decide) (by decide)).2.2.2 (by decide)⟩

/-- C9: for a value that shares the high 32 bits of the default and differs
in the low 32 bits, `bit_write_DD` emits the code 0 followed by all eight
bytes (66 bits), not the code 1 followed by four bytes. -/
theorem bit_write_DD_low_half_code :
    0x3FF0000000000001 / 2 ^ 32 = DBL_ONE / 2 ^ 32
      ∧ 0x3FF0000000000001 % 2 ^ 32 ≠ DBL_ONE % 2 ^ 32
      ∧ peek (bit_write_DD dat_zero 0x3FF0000000000001 DBL_ONE).chain (pos dat_zero) 2 = 0
      ∧ pos (bit_write_DD dat_zero 0x3FF0000000000001 DBL_ONE) = pos dat_zero + 66
      ∧ bit_write_DD dat_zero 0x3FF0000000000001 DBL_ONE
          = bit_write_RD (bit_write_BB dat_zero 0) 0x3FF0000000000001 := by
  refine ⟨by decide, by decide, by decide, by decide, rfl⟩

/-- C10: for a version older than R_2000, `bit_write_BT` of 0.0 emits three
bits (a leading 0 and the code 2) where `bit_write_BD` emits two, and
`bit_read_BT` then reads the bits `01` as the code of 1.0. -/
theorem bit_write_BT_old_version_mode_bit :
    dat_zero.version < R_2000
      ∧ pos (bit_write_BT dat_zero DBL_ZERO) = pos dat_zero + 3
      ∧ pos (bit_write_BD dat_zero DBL_ZERO) = pos dat_zero + 2
      ∧ peek (bit_write_BT dat_zero DBL_ZERO).chain (pos dat_zero) 3 = 2
      ∧ peek (bit_write_BD dat_zero DBL_ZERO).chain (pos dat_zero) 2 = 2
      ∧ (bit_read_BT (rewind (bit_write_BT dat_zero DBL_ZERO) dat_zero)).1 = DBL_ONE := by
  decide

/-- C11: on the value 2^27 the scan of `bit_write_MC` stops at `byte[0]`,
whose bit `0x40` is set, so the index is lowered to -1 (outside the array) and
five bytes are emitted: the cursor advances by 40 bits. -/
theorem bit_write_MC_overruns :
    bit_write_MC_index (bit_write_MC_fill 134217728 4 0 0x7f (fun _ => 0)) = -1
      ∧ pos (bit_write_MC dat_zero 134217728) = pos dat_zero + 40 := by
  decide

/-- C12 (counterexample): three streams at the end of a buffer.  In a buffer of
exactly four bytes that all carry the continuation flag, `bit_read_MC` takes
the error exit but the cursor stops at byte 3, bit 7: it has advanced by 31
bits, not 32.  When the first byte without the flag is the last byte of the
buffer, the cursor stops at bit 7 of it: 7 bits are consumed, not one byte.
When only three of the four flagged bytes lie inside the buffer, the function
returns without an error although the byte behind the buffer is flagged too. -/
theorem bit_read_MC_error_at_end :
    (dat_flags_end.byte < dat_flags_end.size ∧ dat_flags_end.bit < 8
      ∧ (∀ i, i < 4 → 128 ≤ peek dat_flags_end.chain (pos dat_flags_end + 8 * i) 8)
      ∧ (bit_read_MC dat_flags_end).1 = 0
      ∧ (bit_read_MC dat_flags_end).2.1 = true
      ∧ pos (bit_read_MC dat_flags_end).2.2 = pos dat_flags_end + 31
      ∧ pos (bit_read_MC dat_flags_end).2.2 ≠ pos dat_flags_end + 32)
    ∧ (dat_handle5_end.byte < dat_handle5_end.size ∧ dat_handle5_end.bit < 8
      ∧ peek dat_handle5_end.chain (pos dat_handle5_end) 8 < 128
      ∧ (bit_read_MC dat_handle5_end).2.1 = false
      ∧ pos (bit_read_MC dat_handle5_end).2.2 = pos dat_handle5_end + 7
      ∧ pos (bit_read_MC dat_handle5_end).2.2 ≠ pos dat_handle5_end + 8)
    ∧ (dat_flags_short.byte < dat_flags_short.size ∧ dat_flags_short.bit < 8
      ∧ (∀ i, i < 4 → 128 ≤ peek dat_flags_short.chain (pos dat_flags_short + 8 * i) 8)
      ∧ (bit_read_MC dat_flags_short).2.1 = false) := by
  decide

/-- C12 (amended): bytes consumed by `bit_read_MC`.  With the bit offset below
8: when the next four bytes start inside the buffer and all carry the
continuation flag, the function takes the error exit and returns 0; the cursor
has then advanced by exactly 32 bits if a further byte follows the four, and
stops at bit 7 of the last byte if the four bytes end the buffer.  When byte
`k` (counted from 0, `k < 4`) starts inside the buffer and is the first without
the flag, the function returns without an error; it has then consumed exactly
`k + 1` bytes if a further byte follows byte `k`, and stops at bit 7 of byte
`k` if that is the last byte of the buffer. -/
theorem bit_read_MC_consumption (d : Bit_Chain) (hbit : d.bit < 8) :
    (d.byte + 3 < d.size → (∀ i, i < 4 → 128 ≤ peek d.chain (pos d + 8 * i) 8) →
        (bit_read_MC d).1 = 0 ∧ (bit_read_MC d).2.1 = true
          ∧ (d.byte + 4 < d.size → (bit_read_MC d).2.2 = { d with byte := d.byte + 4 })
          ∧ (d.byte + 4 = d.size →
              (bit_read_MC d).2.2 = { d with byte := d.byte + 3, bit := 7 }))
      ∧ (∀ k, k < 4 → d.byte + k < d.size →
          (∀ i, i < k → 128 ≤ peek d.chain (pos d + 8 * i) 8) →
          peek d.chain (pos d + 8 * k) 8 < 128 →
          (bit_read_MC d).2.1 = false
            ∧ (d.byte + k + 1 < d.size →
                (bit_read_MC d).2.2 = { d with byte := d.byte + (k + 1) })
            ∧ (d.byte + k + 1 = d.size →
                (bit_read_MC d).2.2 = { d with byte := d.byte + k, bit := 7 })) := by
  constructor
  · intro hs hf
    by_cases hr : d.byte + 4 < d.size
    · have h := read_MC_loop_error 4 0 0 d hbit hr hf
      unfold bit_read_MC
      rw [h]
      exact ⟨rfl, rfl, fun _ => rfl, fun c => absurd c (by omega)⟩
    · have h := read_MC_loop_error_end 3 0 0 d hbit (by omega) hf
      unfold bit_read_MC
      rw [h]
      exact ⟨rfl, rfl, fun c => absurd c hr, fun _ => rfl⟩
  · intro k hk hs hf hl
    have e : 4 = k + 1 + (3 - k) := by omega
    by_cases hr : d.byte + k + 1 < d.size
    · have h := read_MC_loop_stop k (3 - k) 0 0 d hbit hr hf hl
      rw [← e] at h
      exact ⟨h.1, fun _ => h.2, fun c => absurd c (by omega)⟩
    · have h := read_MC_loop_stop_end k (3 - k) 0 0 d hbit (by omega) hf hl
      rw [← e] at h
      exact ⟨h.1, fun c => absurd c hr, fun _ => h.2⟩

/-- C12 (witness): four flagged bytes followed by more bytes. -/
theorem bit_read_MC_consumption_witness :
    dat_flags.bit < 8 ∧ dat_flags.byte + 3 < dat_flags.size
      ∧ (∀ i, i < 4 → 128 ≤ peek dat_flags.chain (pos dat_flags + 8 * i) 8)
      ∧ dat_flags.byte + 4 < dat_flags.size
      ∧ (bit_read_MC dat_flags).1 = 0 ∧ (bit_read_MC dat_flags).2.1 = true
      ∧ (bit_read_MC dat_flags).2.2 = { dat_flags with byte := dat_flags.byte + 4 } :=
  ⟨by decide, by decide, by decide, by decide,
    ((bit_read_MC_consumption dat_flags (by decide)).1 (by decide) (by decide)).1,
    ((bit_read_MC_consumption dat_flags (by decide)).1 (by decide) (by decide)).2.1,
    ((bit_read_MC_consumption dat_flags (by decide)).1 (by decide) (by decide)).2.2.1 (by decide)⟩

/-- C13 (counterexample): two streams at the end of a buffer.  When the byte
`0x35` is the last byte of the buffer, `bit_read_H` rejects it but the cursor
stops at bit 7 of that byte: it has advanced by 7 bits, not 8.  When the cursor
stands at bit 4 of the last byte, the eight bits of memory under it form `0x35`
again, but the function reads `0x30` (the bits behind the buffer are not
fetched) and returns 0. -/
theorem bit_read_H_oversized_at_end :
    (dat_handle5_end.byte < dat_handle5_end.size ∧ dat_handle5_end.bit < 8
      ∧ 4 < peek dat_handle5_end.chain (pos dat_handle5_end) 8 % 16
      ∧ (bit_read_H dat_handle5_end).1 = -1
      ∧ (bit_read_H dat_handle5_end).2.1.size = 0
      ∧ (bit_read_H dat_handle5_end).2.1.value = 0
      ∧ pos (bit_read_H dat_handle5_end).2.2 = pos dat_handle5_end + 7
      ∧ pos (bit_read_H dat_handle5_end).2.2 ≠ pos dat_handle5_end + 8)
    ∧ (dat_handle5_split.byte < dat_handle5_split.size ∧ dat_handle5_split.bit < 8
      ∧ 4 < peek dat_handle5_split.chain (pos dat_handle5_split) 8 % 16
      ∧ (bit_read_H dat_handle5_split).1 = 0) := by
  decide

/-- C13 (amended): rejection of an oversized handle.  With the cursor inside
the buffer: when the next byte lies inside the buffer and its low nibble exceeds 4,
`bit_read_H` returns -1 and leaves the handle with size 0 and value 0 (the code
is the high nibble); the cursor has then advanced by exactly 8 bits if the byte
is not the last one of the buffer, and stands at bit 7 of it otherwise (no
value byte is consumed).  When the low nibble of the eight bits under the
cursor is in 0..4 the function returns 0, wherever the cursor stands. -/
theorem bit_read_H_oversized (d : Bit_Chain) (hbyte : d.byte < d.size) (hbit : d.bit < 8) :
    (pos d + 8 ≤ 8 * d.size → 4 < peek d.chain (pos d) 8 % 16 →
        (bit_read_H d).1 = -1
          ∧ (bit_read_H d).2.1 = { code := peek d.chain (pos d) 8 / 16, size := 0, value := 0 }
          ∧ (d.byte + 1 < d.size → (bit_read_H d).2.2 = { d with byte := d.byte + 1 })
          ∧ (d.byte + 1 = d.size → (bit_read_H d).2.2 = { d with bit := 7 }))
      ∧ (peek d.chain (pos d) 8 % 16 ≤ 4 → (bit_read_H d).1 = 0) := by
  constructor
  · intro hin h
    have hlt := peek_lt d.chain (pos d) 8
    obtain ⟨n1, n2⟩ := nibbles _ hlt
    obtain ⟨r1, r2, r3⟩ := read_RC_in d hbit hin
    obtain ⟨v, dn, hv⟩ : ∃ v dn, bit_read_RC d = (v, dn) := ⟨_, _, rfl⟩
    rw [hv] at r1 r2 r3
    dsimp only at r1 r2 r3
    subst r1
    unfold bit_read_H
    rw [hv]
    dsimp only
    rw [n1, n2, if_pos h]
    exact ⟨rfl, rfl, r2, r3⟩
  · intro h
    have hle : (bit_read_RC d).1 % 16 ≤ 4 ∧ (bit_read_RC d).1 < 256 := by
      by_cases hr : d.byte + 1 < d.size
      · rw [read_RC_eq d hbit hr]
        exact ⟨h, peek_lt d.chain (pos d) 8⟩
      · have hl : d.byte + 1 = d.size := by omega
        rw [read_RC_edge d (by omega)]
        rw [peek_8_split d hbit] at h
        have hy : d.chain (d.byte + 1) % 256 < 256 := Nat.mod_lt _ (by norm_num)
        exact ⟨nibble_le d.bit _ _ hbit hy h, Nat.mod_lt _ (by norm_num)⟩
    obtain ⟨v, dn, hv⟩ : ∃ v dn, bit_read_RC d = (v, dn) := ⟨_, _, rfl⟩
    rw [hv] at hle
    dsimp only at hle
    obtain ⟨n1, _⟩ := nibbles v hle.2
    unfold bit_read_H
    rw [hv]
    dsimp only
    rw [n1, if_neg (by omega)]

/-- C13 (witness): the byte `0x35` followed by more bytes. -/
theorem bit_read_H_oversized_witness :
    dat_handle5.byte < dat_handle5.size ∧ dat_handle5.bit < 8
      ∧ pos dat_handle5 + 8 ≤ 8 * dat_handle5.size
      ∧ 4 < peek dat_handle5.chain (pos dat_handle5) 8 % 16
      ∧ (bit_read_H dat_handle5).1 = -1
      ∧ (bit_read_H dat_handle5).2.1
          = { code := peek dat_handle5.chain (pos dat_handle5) 8 / 16, size := 0, value := 0 } :=
  ⟨by decide, by decide, by decide, by decide,
    ((bit_read_H_oversized dat_handle5 (by decide) (by decide)).1 (by decide) (by decide)).1,
    ((bit_read_H_oversized dat_handle5 (by decide) (by decide)).1 (by decide) (by decide)).2.1⟩

/-- C14: layout of `bit_write_H`.  For a handle with code in 0..15 and value
`v < 2^32` the writer emits the byte `(code << 4) | k` followed by exactly `k`
bytes, where `k = 0` for `v = 0` and otherwise `k` is the least number in 1..4
with `v < 256^k`; the `k` bytes are the base-256 digits of `v`, most
significant first; no bit outside these `8 + 8k` bits changes. -/
theorem bit_write_H_layout (d : Bit_Chain) (handle : Dwg_Handle) (hbyte : d.byte < d.size)
    (hbit : d.bit < 8) (hcode : handle.code ≤ 15) (hvalue : handle.value < 2 ^ 32) :
    ∃ k, (handle.value = 0 → k = 0)
      ∧ (handle.value ≠ 0 →
          1 ≤ k ∧ k ≤ 4 ∧ 256 ^ (k - 1) ≤ handle.value ∧ handle.value < 256 ^ k)
      ∧ pos (bit_write_H d handle) = pos d + 8 + 8 * k
      ∧ peek (bit_write_H d handle).chain (pos d) 8 = (handle.code <<< 4) ||| k
      ∧ (∀ i, i < k → peek (bit_write_H d handle).chain (pos d + 8 + 8 * i) 8
            = handle.value / 256 ^ (k - 1 - i) % 256)
      ∧ (∀ q, (q < pos d ∨ pos d + 8 + 8 * k ≤ q) →
            bitAt (bit_write_H d handle).chain q = bitAt d.chain q) := by
  have hd : WF d := ⟨hbyte, hbit⟩
  by_cases h0 : handle.value = 0
  · have W := write_RC_wrote d (handle.code <<< 4) hd
    have e : bit_write_H d handle = bit_write_RC d (handle.code <<< 4) := by
      simp [bit_write_H, h0]
    rw [e]
    refine ⟨0, fun _ => rfl, fun h => absurd h0 h, W.pos_eq, ?_, fun i hi => absurd hi (by omega),
      W.frame⟩
    rw [W.peek_eq (Ext.refl _)]
    have := H_code_counter handle.code 0 hcode (by norm_num)
    have hc' : handle.code < 16 := by omega
    have e2 : (handle.code <<< 4) % 2 ^ 8 = (handle.code <<< 4) ||| 0 := by
      clear this e W hvalue h0 hcode
      generalize handle.code = c at hc'
      revert c; decide
    exact e2
  · obtain ⟨s1, s2, s3⟩ := H_scan_spec handle.value h0 hvalue
    have s4 := H_scan_min handle.value h0
    have W := write_RC_wrote d
      (UCHAR (UCHAR (handle.code <<< 4) ||| bit_write_H_scan handle.value 4)) hd
    have WW := write_H_emit_wrote handle.value (bit_write_H_scan handle.value 4) 8 _ d _ W
    have e : bit_write_H d handle = bit_write_H_emit handle.value (bit_write_H_scan handle.value 4)
        (bit_write_RC d (UCHAR (UCHAR (handle.code <<< 4) ||| bit_write_H_scan handle.value 4))) := by
      simp [bit_write_H, h0]
    rw [e]
    generalize bit_write_H_scan handle.value 4 = k at *
    refine ⟨k, fun h => absurd h h0, fun _ => ⟨s1, s2, s4, s3⟩, by rw [WW.pos_eq]; omega, ?_, ?_,
      fun q hq => WW.frame q (by omega)⟩
    · have := WW.peek_sub (Ext.refl _) 0 8 (by omega)
      rw [Nat.add_zero] at this
      rw [this]
      have e1 : 8 + 8 * k - 0 - 8 = 8 * k := by omega
      rw [e1, Nat.add_comm, Nat.add_mul_div_right _ _ (by positivity),
        Nat.div_eq_of_lt (Nat.mod_lt _ (by positivity)), Nat.zero_add]
      exact H_code_counter handle.code k hcode s2
    · intro i hi
      have := WW.peek_sub (Ext.refl _) (8 + 8 * i) 8 (by omega)
      rw [← Nat.add_assoc] at this
      rw [this]
      generalize UCHAR (UCHAR (handle.code <<< 4) ||| k) = cc
      generalize handle.value = value
      interval_cases k <;> interval_cases i <;> norm_num <;> omega

/-- C14 (witness): the handle with code 5 and value `0x1234`. -/
theorem bit_write_H_layout_witness :
    dat_wide.byte < dat_wide.size ∧ dat_wide.bit < 8 ∧ (5 : Nat) ≤ 15 ∧ 0x1234 < 2 ^ 32
      ∧ ∃ k, ((0x1234 : Nat) = 0 → k = 0)
        ∧ ((0x1234 : Nat) ≠ 0 → 1 ≤ k ∧ k ≤ 4 ∧ 256 ^ (k - 1) ≤ 0x1234 ∧ 0x1234 < 256 ^ k)
        ∧ pos (bit_write_H dat_wide ⟨5, 0, 0x1234⟩) = pos dat_wide + 8 + 8 * k
        ∧ peek (bit_write_H dat_wide ⟨5, 0, 0x1234⟩).chain (pos dat_wide) 8 = (5 <<< 4) ||| k
        ∧ (∀ i, i < k → peek (bit_write_H dat_wide ⟨5, 0, 0x1234⟩).chain
              (pos dat_wide + 8 + 8 * i) 8 = 0x1234 / 256 ^ (k - 1 - i) % 256)
        ∧ (∀ q, (q < pos dat_wide ∨ pos dat_wide + 8 + 8 * k ≤ q) →
              bitAt (bit_write_H dat_wide ⟨5, 0, 0x1234⟩).chain q = bitAt dat_wide.chain q) :=
  ⟨by decide, by decide, by decide, by decide,
    bit_write_H_layout dat_wide ⟨5, 0, 0x1234⟩ (by decide) (by decide) (by decide) (by decide)⟩

/-- C15: `bit_ckr32` is the standard reflected CRC-32.  For every 32-bit seed
and every sequence of bytes it equals the bit-by-bit reference (inverted seed,
per byte an XOR into the low 8 bits and 8 steps of shift right with
conditional XOR of `0xEDB88320`, final inversion of the 32-bit register); with
seed 0 the ASCII bytes of `123456789` give `0xCBF43926`. -/
theorem bit_ckr32_is_crc32 (seed : Nat) (bytes : List Nat) (hseed : seed < 2 ^ 32)
    (hbytes : ∀ b ∈ bytes, b < 256) :
    bit_ckr32 seed bytes = crc32_reference seed bytes
      ∧ bit_ckr32 0 check_string = 0xCBF43926 := by
  refine ⟨?_, by decide⟩
  unfold bit_ckr32 crc32_reference
  have h0 : UINT_NOT seed = 0xFFFFFFFF ^^^ seed := by
    unfold UINT_NOT; rw [Nat.mod_eq_of_lt hseed]
  obtain ⟨e, p⟩ := foldl_congr_mem
    (fun invertedckr byte =>
      (invertedckr >>> 8) ^^^ ckr32table.getD ((invertedckr ^^^ UCHAR byte) &&& 0xff) 0)
    (crc_reference_byte 0xEDB88320) bytes (UINT_NOT seed) (fun r => r < 2 ^ 32)
    (UINT_NOT_lt seed)
    (fun r a hr ha => ⟨ckr32_step r a (hbytes a ha), ckr32_step_lt r a hr⟩)
  simp only []
  rw [e] at p ⊢
  rw [h0] at p ⊢
  unfold UINT_NOT
  rw [Nat.mod_eq_of_lt p]

/-- C15 (witness): seed 0 and the bytes of `123456789`. -/
theorem bit_ckr32_is_crc32_witness :
    (0 : Nat) < 2 ^ 32 ∧ (∀ b ∈ check_string, b < 256)
      ∧ bit_ckr32 0 check_string = crc32_reference 0 check_string
      ∧ bit_ckr32 0 check_string = 0xCBF43926 :=
  ⟨by decide, by decide, bit_ckr32_is_crc32 0 check_string (by decide) (by decide)⟩

/-- C16: `bit_ckr8` is the classic reflected CRC-16.  For every seed below 2^16
and every sequence of bytes it equals the bit-by-bit reference (per byte an
XOR into the low 8 bits and 8 steps of shift right with conditional XOR of
`0xA001`); the result is below 2^16; for an empty range the result is the
seed. -/
theorem bit_ckr8_is_crc16 (seed : Nat) (bytes : List Nat) (hseed : seed < 2 ^ 16)
    (hbytes : ∀ b ∈ bytes, b < 256) :
    bit_ckr8 seed bytes = crc16_reference seed bytes
      ∧ bit_ckr8 seed bytes < 2 ^ 16
      ∧ bit_ckr8 seed [] = seed := by
  have h0 : seed % 2 ^ 32 = seed := Nat.mod_eq_of_lt (by omega)
  unfold bit_ckr8 crc16_reference
  rw [h0]
  obtain ⟨e, p⟩ := foldl_congr_mem
    (fun dx byte =>
      ((dx >>> 8) &&& 0xFF)
        ^^^ ckrtable.getD (UCHAR (UCHAR byte ^^^ UCHAR (dx &&& 0xFF)) &&& 0xFF) 0)
    (crc_reference_byte 0xA001) bytes seed (fun r => r < 2 ^ 16) hseed
    (fun r a hr ha => ⟨ckr8_step r a hr (hbytes a ha), ckr8_step_lt r a⟩)
  exact ⟨e, p, rfl⟩

/-- C16 (witness): seed `0xC0C1` and the bytes of `123456789`. -/
theorem bit_ckr8_is_crc16_witness :
    (0xC0C1 : Nat) < 2 ^ 16 ∧ (∀ b ∈ check_string, b < 256)
      ∧ bit_ckr8 0xC0C1 check_string = crc16_reference 0xC0C1 check_string
      ∧ bit_ckr8 0xC0C1 check_string < 2 ^ 16
      ∧ bit_ckr8 0xC0C1 [] = 0xC0C1 :=
  ⟨by decide, by decide, bit_ckr8_is_crc16 0xC0C1 check_string (by decide) (by decide)⟩

/-- C17: seed chaining of `bit_ckr32`.  Feeding the digest of a first section
back as the seed continues the digest over the concatenation. -/
theorem bit_ckr32_chain (seed : Nat) (a b : List Nat) :
    bit_ckr32 (bit_ckr32 seed a) b = bit_ckr32 seed (a ++ b) := by
  unfold bit_ckr32
  simp only [List.foldl_append]
  rw [UINT_NOT_NOT _ (ckr32_reg_lt a _ (UINT_NOT_lt seed))]

/-- C19: in a buffer of version R_2004 that holds `123456789`, sealing the
nine bytes with seed 0 returns the digest `0xCBF43926` and stores the bytes
`0x39 0x26`; validating from the position of the stored checksum computes
`0xCBF43926` again, reads `0x3926` and reports a mismatch (0). -/
theorem bit_CRC_seal_then_validate_fails :
    dat_digits.version ≥ R_2004
      ∧ (bit_write_CRC 8 dat_digits 0 0).map
          (fun r => (r.1, peek r.2.chain (pos dat_digits) 16,
            (bit_check_CRC (rewind r.2 dat_digits) 0 0).1))
        = some (0xCBF43926, 0x3926, 0) := by
  decide

/-- C20: sentinel found at its first occurrence.  When the 16-byte pattern
occurs in the buffer and its first occurrence starts at offset `k` (with
`k + 16 <= size`), `bit_search_sentinel` returns -1 (found) and puts the
cursor at byte `k + 16`, bit 0, wherever the cursor was before. -/
theorem bit_search_sentinel_found (dat : Bit_Chain) (sentinel : Nat → Nat) (k : Nat)
    (hk : k + 16 ≤ dat.size)
    (hocc : ∀ j, j < 16 → UCHAR (dat.chain (k + j)) = UCHAR (sentinel j))
    (hfirst : ∀ i, i < k → ∃ j, j < 16 ∧ UCHAR (dat.chain (i + j)) ≠ UCHAR (sentinel j)) :
    bit_search_sentinel dat sentinel = (-1, { dat with byte := k + 16, bit := 0 }) := by
  unfold bit_search_sentinel
  exact sentinel_loop_found dat sentinel k hocc hfirst k 0 dat.size (by omega) (by omega)

/-- C20 (witness): the pattern 5..20 placed at offset 5 of a 64-byte buffer. -/
theorem bit_search_sentinel_found_witness :
    5 + 16 ≤ dat_marker.size
      ∧ (∀ j, j < 16 → UCHAR (dat_marker.chain (5 + j)) = UCHAR (marker j))
      ∧ (∀ i, i < 5 → ∃ j, j < 16 ∧ UCHAR (dat_marker.chain (i + j)) ≠ UCHAR (marker j))
      ∧ bit_search_sentinel dat_marker marker
          = (-1, { dat_marker with byte := 5 + 16, bit := 0 }) :=
  ⟨by decide, by decide, by decide,
    bit_search_sentinel_found dat_marker marker 5 (by decide) (by decide) (by decide)⟩

/-- C21: in a 24-byte buffer no window of 16 bytes inside the buffer equals the
pattern 10..25, yet `bit_search_sentinel` returns -1 (found) and moves the
cursor from byte 3, bit 2 to byte 26, bit 0, two bytes past the end of the
buffer: bytes 10..23 start the pattern and the two bytes stored after the
buffer complete it. -/
theorem bit_search_sentinel_false_match :
    (∀ i, i + 16 ≤ dat_edge.size →
        ∃ j, j < 16 ∧ UCHAR (dat_edge.chain (i + j)) ≠ UCHAR (edge_marker j))
      ∧ (bit_search_sentinel dat_edge edge_marker).1 = -1
      ∧ (bit_search_sentinel dat_edge edge_marker).2.byte = 26
      ∧ (bit_search_sentinel dat_edge edge_marker).2.bit = 0
      ∧ dat_edge.byte = 3 ∧ dat_edge.bit = 2 ∧ dat_edge.size = 24 := by
  refine ⟨fun i hi => ⟨0, by decide, ?_⟩, by decide, by decide, by decide, rfl, rfl, rfl⟩
  have hi' : i + 16 ≤ 24 := hi
  simp only [dat_edge, edge_marker, UCHAR]
  omega

/-- C22: searching the pattern 10..25 in the 24-byte buffer whose byte `i`
holds `i`, `bit_search_sentinel` reads `dat->chain[24]` and `dat->chain[25]`,
two indices that are not below `size`. -/
theorem bit_search_sentinel_reads_past_end :
    dat_edge.size = 24
      ∧ 24 ∈ bit_search_sentinel_reads dat_edge edge_marker
      ∧ 25 ∈ bit_search_sentinel_reads dat_edge edge_marker
      ∧ ¬ (∀ i ∈ bit_search_sentinel_reads dat_edge edge_marker, i < dat_edge.size) := by
  decide

/-- C23: in a 64-byte buffer, from byte 2, bit 5, advancing by 8 bits reaches
byte 3, bit 5; advancing by -8 from there leaves the byte index at 3 and sets
the bit offset to 253 instead of returning to byte 2, bit 5.  Advancing by -6
from the start leaves the bit offset 255, and advancing by 6 from there ends
at byte 34. -/
theorem bit_advance_position_not_inverse :
    dat_wide.byte = 2 ∧ dat_wide.bit = 5 ∧ dat_wide.size = 64
      ∧ (bit_advance_position dat_wide 8).byte = 3
      ∧ (bit_advance_position dat_wide 8).bit = 5
      ∧ (bit_advance_position (bit_advance_position dat_wide 8) (-8)).byte = 3
      ∧ (bit_advance_position (bit_advance_position dat_wide 8) (-8)).bit = 253
      ∧ (bit_advance_position dat_wide (-6)).byte = 2
      ∧ (bit_advance_position dat_wide (-6)).bit = 255
      ∧ (bit_advance_position (bit_advance_position dat_wide (-6)) 6).byte = 34
      ∧ (bit_advance_position (bit_advance_position dat_wide (-6)) 6).bit = 5 := by
  decide

/-- C24 (counterexample): from byte 1, bit 3 of a four-byte buffer, advancing
by 30 bits (the target lies past the last byte) moves the byte index to 5,
beyond `size`, and sets the bit offset to 1. -/
theorem bit_advance_position_overshoots :
    dat_small.byte < dat_small.size ∧ dat_small.bit < 8
      ∧ 8 * dat_small.size ≤ pos dat_small + 30
      ∧ (bit_advance_position dat_small 30).byte = 5
      ∧ (bit_advance_position dat_small 30).bit = 1
      ∧ ¬ ((bit_advance_position dat_small 30).byte < dat_small.size) := by
  decide

/-- C24 (amended): clamping at the end of the buffer.  With the cursor in the
last byte (`byte = size - 1`) and `n >= 0` such that the
target position lies past the last byte, `bit_advance_position` leaves the
byte index where it is, below `size`, and sets the bit offset to 7.  With the
cursor before the last byte nothing is clamped: the byte index becomes
`byte + (bit + n) / 8`, whatever the size. -/
theorem bit_advance_position_clamps (d : Bit_Chain) (n : Nat) :
    (d.byte + 1 = d.size → 8 * d.size ≤ pos d + n →
        bit_advance_position d (n : Int) = { d with bit := 7 }
          ∧ (bit_advance_position d (n : Int)).byte < d.size)
      ∧ (d.byte + 1 < d.size →
        bit_advance_position d (n : Int)
          = { d with bit := (d.bit + n) % 8, byte := d.byte + (d.bit + n) / 8 }) := by
  constructor
  · intro h1 h2
    have e := advance_clamp d n (by omega) (by unfold pos at h2; omega)
    rw [e]
    exact ⟨rfl, by show d.byte < d.size; omega⟩
  · intro h1
    exact advance_fwd d n (Or.inl h1)

/-- C24 (witness): the last byte of a four-byte buffer, bit 5, advanced by 9
bits. -/
theorem bit_advance_position_clamps_witness :
    dat_last.byte + 1 = dat_last.size ∧ 8 * dat_last.size ≤ pos dat_last + 9
      ∧ bit_advance_position dat_last ((9 : Nat) : Int) = { dat_last with bit := 7 }
      ∧ (bit_advance_position dat_last ((9 : Nat) : Int)).byte < dat_last.size :=
  ⟨by decide, by decide, (bit_advance_position_clamps dat_last 9).1 (by decide) (by decide)⟩

/-- C25: at byte 0, bit 0 of a buffer of `0x80` bytes `bit_read_4BITS` returns
8, the four bits under the cursor, but leaves the cursor at byte 1 with the bit
offset 252 instead of byte 0, bit 4. -/
theorem bit_read_4BITS_cursor :
    dat_flags.byte = 0 ∧ dat_flags.bit = 0 ∧ dat_flags.byte + 2 ≤ dat_flags.size
      ∧ (bit_read_4BITS dat_flags).1 = 8
      ∧ peek dat_flags.chain (pos dat_flags) 4 = 8
      ∧ (bit_read_4BITS dat_flags).2.byte = 1
      ∧ (bit_read_4BITS dat_flags).2.bit = 252
      ∧ pos (bit_read_4BITS dat_flags).2 ≠ pos dat_flags + 4 := by
  decide

/-- C27 (counterexample): in a buffer of version R_2004, a colour whose flag
byte selects the name, the name being 65536 letters `A`, is written by
`bit_write_CMC`; `bit_read_CMC` started at the same position returns the empty
name (the terminator alone).  When the flag byte selects the book name `B` as
well, the book name read after that name has five characters: it is not the
book name written. -/
theorem bit_CMC_long_name :
    (dat_wide.version ≥ R_2004 ∧ color_long.index < 65536 ∧ color_long.rgb < 2 ^ 32
      ∧ color_long.byte &&& 1 ≠ 0
      ∧ (∀ c ∈ color_long.name, 0x20 ≤ c ∧ c ≤ 0x7E)
      ∧ (bit_read_CMC (rewind (bit_write_CMC dat_wide color_long) dat_wide) color_blank).1.name
          = [0]
      ∧ (bit_read_CMC (rewind (bit_write_CMC dat_wide color_long) dat_wide) color_blank).1.name
          ≠ color_long.name ++ [0])
    ∧ (color_long_both.index < 65536 ∧ color_long_both.rgb < 2 ^ 32
      ∧ color_long_both.byte &&& 2 ≠ 0
      ∧ (∀ c ∈ color_long_both.book_name, 0x20 ≤ c ∧ c ≤ 0x7E)
      ∧ color_long_both.book_name.length ≤ 65535
      ∧ (bit_read_CMC (rewind (bit_write_CMC dat_wide color_long_both) dat_wide)
            color_blank).1.book_name.length = 6
      ∧ (bit_read_CMC (rewind (bit_write_CMC dat_wide color_long_both) dat_wide)
            color_blank).1.book_name ≠ color_long_both.book_name ++ [0]) := by
  obtain ⟨hp, hl⟩ := text_long_spec
  have r := CMC_long_name dat_wide color_long color_blank ⟨by decide, by decide⟩ (by decide)
    (by decide) rfl hp hl (by decide)
  have g0 : text_long.getD 0 0 = 0x41 := by
    unfold text_long
    rw [List.getD_eq_getElem?_getD, List.getElem?_replicate, if_pos (by norm_num)]
    rfl
  have g1 : text_long.getD 1 0 = 0x41 := by
    unfold text_long
    rw [List.getD_eq_getElem?_getD, List.getElem?_replicate, if_pos (by norm_num)]
    rfl
  have r2 := CMC_long_book dat_wide color_long_both color_blank ⟨by decide, by decide⟩
    (by decide) rfl hp hl g0 g1 (by decide)
  refine ⟨⟨by decide, by decide, by decide, by decide, hp, r, ?_⟩,
    by decide, by decide, by decide, by decide, by decide, r2, ?_⟩
  · rw [r]
    intro h
    have := congrArg List.length h
    rw [List.length_append] at this
    have e : color_long.name.length = 65536 := hl
    rw [e] at this
    simp at this
  · intro h
    have := congrArg List.length h
    rw [r2] at this
    revert this
    decide

/-- C27 (amended): colour round trip with the version gate.  For every colour
with index below 65536 written from a cursor inside the buffer, `bit_read_CMC`
started where the write started reproduces the index, in every version.  For a
version before R_2004 the write is exactly `bit_write_BS` of the index, the
read leaves `rgb`, the flag byte and both names as they were and ends where the
write ended.  From R_2004 on the read reproduces an rgb value below 2^32 and a
flag byte below 256; a name selected by flag bit 0 and made of at most 65535
printable bytes comes back as the same bytes followed by the terminator; so
does a book name selected by flag bit 1 and made of at most 65535 printable
bytes, provided that the name, if selected, has at most 65535 bytes; a name
that is not selected is left as it was; and when each selected name has at most
65535 bytes the read ends where the write ended. -/
theorem bit_CMC_round_trip (d : Bit_Chain) (color old : Dwg_Color)
    (hbyte : d.byte < d.size) (hbit : d.bit < 8) (hindex : color.index < 65536) :
    (bit_read_CMC (rewind (bit_write_CMC d color) d) old).1.index = color.index
      ∧ (d.version < R_2004 →
          bit_write_CMC d color = bit_write_BS d color.index
            ∧ bit_read_CMC (rewind (bit_write_CMC d color) d) old
                = ({ old with index := color.index }, bit_write_CMC d color))
      ∧ (d.version ≥ R_2004 →
          (color.rgb < 2 ^ 32 →
              (bit_read_CMC (rewind (bit_write_CMC d color) d) old).1.rgb = color.rgb)
            ∧ (color.byte < 256 →
              (bit_read_CMC (rewind (bit_write_CMC d color) d) old).1.byte = color.byte)
            ∧ (color.byte &&& 1 ≠ 0 → (∀ c ∈ color.name, 0x20 ≤ c ∧ c ≤ 0x7E) →
              color.name.length ≤ 65535 →
              (bit_read_CMC (rewind (bit_write_CMC d color) d) old).1.name = color.name ++ [0])
            ∧ (color.byte &&& 1 = 0 →
              (bit_read_CMC (rewind (bit_write_CMC d color) d) old).1.name = old.name)
            ∧ (color.byte &&& 2 ≠ 0 → (∀ c ∈ color.book_name, 0x20 ≤ c ∧ c ≤ 0x7E) →
              color.book_name.length ≤ 65535 →
              (color.byte &&& 1 ≠ 0 → color.name.length ≤ 65535) →
              (bit_read_CMC (rewind (bit_write_CMC d color) d) old).1.book_name
                = color.book_name ++ [0])
            ∧ (color.byte &&& 2 = 0 →
              (bit_read_CMC (rewind (bit_write_CMC d color) d) old).1.book_name
                = old.book_name)
            ∧ ((color.byte &&& 1 ≠ 0 → color.name.length ≤ 65535) →
              (color.byte &&& 2 ≠ 0 → color.book_name.length ≤ 65535) →
              (bit_read_CMC (rewind (bit_write_CMC d color) d) old).2
                = bit_write_CMC d color)) := by
  have hd : WF d := ⟨hbyte, hbit⟩
  by_cases hv : d.version ≥ R_2004
  · have hw := CMC_write_eq d color hd hv
    have pre := fun dF hE hV => CMC_read_parts d dF color old hd hindex hv hE hV
    obtain ⟨d3, h3⟩ : ∃ d3, d3 = bit_write_RC (bit_write_BL (bit_write_BS d color.index)
        color.rgb) color.byte := ⟨_, rfl⟩
    rw [← h3] at pre hw
    obtain ⟨w3, -⟩ : WF d3 ∧ True := by
      obtain ⟨_, _, _, e, w, -⟩ := pre d3 (Ext.refl _) rfl
      rw [e] at w
      exact ⟨w, trivial⟩
    obtain ⟨d4, h4⟩ : ∃ d4, d4 = if color.byte &&& 1 ≠ 0 then bit_write_TV d3 color.name
        else d3 := ⟨_, rfl⟩
    have hw2 : bit_write_CMC d color
        = if color.byte &&& 2 ≠ 0 then bit_write_TV d4 color.book_name else d4 := by
      rw [hw, h4]
    obtain ⟨w4, e4, v4⟩ : WF d4 ∧ Ext d3 d4 ∧ d4.version = d3.version := by
      rw [h4]
      by_cases f1 : color.byte &&& 1 ≠ 0
      · rw [if_pos f1]
        exact write_TV_ext d3 color.name w3
      · rw [if_neg f1]
        exact ⟨w3, Ext.refl _, rfl⟩
    obtain ⟨dF, hF⟩ : ∃ dF, dF = if color.byte &&& 2 ≠ 0 then bit_write_TV d4 color.book_name
        else d4 := ⟨_, rfl⟩
    rw [← hF] at hw2
    obtain ⟨e5, v5⟩ : Ext d4 dF ∧ dF.version = d4.version := by
      rw [hF]
      by_cases f2 : color.byte &&& 2 ≠ 0
      · rw [if_pos f2]
        exact (write_TV_ext d4 color.book_name w4).2
      · rw [if_neg f2]
        exact ⟨Ext.refl _, rfl⟩
    rw [hw2]
    obtain ⟨d3x, S1, S2, a1, _, a3, a4, a5, a6, a7, a8, a9, a10⟩ :=
      pre dF (e4.trans e5) (by rw [v5, v4])
    subst a1
    have hS1 : (color.byte &&& 1 ≠ 0 → color.name.length ≤ 65535) → S1 = rewind dF d4 := by
      intro hl
      rw [a3, h4]
      by_cases f1 : color.byte &&& 1 ≠ 0
      · rw [if_pos f1, if_pos f1]
        rw [h4, if_pos f1] at e5
        exact read_back_TV_state w3 (hl f1) e5
      · rw [if_neg f1, if_neg f1]
    refine ⟨a5, fun hlt => absurd hv (not_le.mpr hlt), fun _ => ⟨?_, ?_, ?_, ?_, ?_, ?_, ?_⟩⟩
    · intro hrgb
      rw [a6, Nat.mod_eq_of_lt hrgb]
    · intro hflag
      rw [a7, Nat.mod_eq_of_lt hflag]
    · intro f1 p1 l1
      rw [a8, if_pos f1]
      rw [h4, if_pos f1] at e5
      rw [read_back_TV w3 p1 l1 e5]
    · intro f1
      rw [a8, if_neg (not_not.mpr f1)]
    · intro f2 p2 l2 hl
      rw [a9, if_pos f2, hS1 hl]
      have e6 : Ext (bit_write_TV d4 color.book_name) dF := by
        rw [hF, if_pos f2]
        exact Ext.refl _
      rw [read_back_TV w4 p2 l2 e6]
    · intro f2
      rw [a9, if_neg (not_not.mpr f2)]
    · intro hl1 hl2
      rw [a10, a4, hS1 hl1]
      by_cases f2 : color.byte &&& 2 ≠ 0
      · rw [if_pos f2]
        have e6 : Ext (bit_write_TV d4 color.book_name) dF := by
          rw [hF, if_pos f2]
          exact Ext.refl _
        rw [read_back_TV_state w4 (hl2 f2) e6]
        rw [hF, if_pos f2]
        rfl
      · rw [if_neg f2]
        rw [hF, if_neg f2]
        rfl
  · obtain ⟨h1, h2⟩ := CMC_old_version d color old hd hindex hv
    rw [h1, h2]
    exact ⟨rfl, fun _ => ⟨rfl, rfl⟩, fun hge => absurd hge hv⟩

/-- C27 (witness): a colour with both names written at byte 2, bit 5 of a
buffer of version R_2004 and read back. -/
theorem bit_CMC_round_trip_witness :
    dat_wide.byte < dat_wide.size ∧ dat_wide.bit < 8 ∧ color_named.index < 65536
      ∧ dat_wide.version ≥ R_2004 ∧ color_named.rgb < 2 ^ 32 ∧ color_named.byte &&& 1 ≠ 0
      ∧ (∀ c ∈ color_named.name, 0x20 ≤ c ∧ c ≤ 0x7E) ∧ color_named.name.length ≤ 65535
      ∧ (bit_read_CMC (rewind (bit_write_CMC dat_wide color_named) dat_wide) color_blank).1.index
          = color_named.index
      ∧ (bit_read_CMC (rewind (bit_write_CMC dat_wide color_named) dat_wide) color_blank).1.rgb
          = color_named.rgb
      ∧ (bit_read_CMC (rewind (bit_write_CMC dat_wide color_named) dat_wide) color_blank).1.name
          = color_named.name ++ [0] :=
  ⟨by decide, by decide, by decide, by decide, by decide, by decide, by decide, by decide,
    (bit_CMC_round_trip dat_wide color_named color_blank (by decide) (by decide) (by decide)).1,
    ((bit_CMC_round_trip dat_wide color_named color_blank (by decide) (by decide)
      (by decide)).2.2 (by decide)).1 (by decide),
    ((bit_CMC_round_trip dat_wide color_named color_blank (by decide) (by decide)
      (by decide)).2.2 (by decide)).2.2.1 (by decide) (by decide) (by decide)⟩

/-- C28: growth is additive and preserving.  `bit_chain_alloc` increases
`size` by exactly 40960; on a non-empty buffer it keeps every stored byte and
the cursor; on an empty buffer the 40960 new bytes are zero and the cursor is
reset to byte 0, bit 0.  A sequence of `bit_write_RC` calls started inside the
buffer, growing it whenever the cursor reaches the last byte, ends `8` bits
per call further, changes no bit before the starting position, and each byte
written is still in place at the end. -/
theorem bit_chain_alloc_preserves (e d : Bit_Chain) (vs : List Nat) (hbyte : d.byte < d.size)
    (hbit : d.bit < 8) :
    (bit_chain_alloc e).size = e.size + 40960
      ∧ (e.size ≠ 0 → (∀ i, i < e.size → (bit_chain_alloc e).chain i = e.chain i)
          ∧ (bit_chain_alloc e).byte = e.byte ∧ (bit_chain_alloc e).bit = e.bit)
      ∧ (e.size = 0 → (∀ i, i < 40960 → (bit_chain_alloc e).chain i = 0)
          ∧ (bit_chain_alloc e).byte = 0 ∧ (bit_chain_alloc e).bit = 0)
      ∧ d.size ≤ (vs.foldl bit_write_RC d).size
      ∧ pos (vs.foldl bit_write_RC d) = pos d + 8 * vs.length
      ∧ (∀ q, q < pos d → bitAt (vs.foldl bit_write_RC d).chain q = bitAt d.chain q)
      ∧ (∀ i, i < vs.length →
          peek (vs.foldl bit_write_RC d).chain (pos d + 8 * i) 8 = vs.getD i 0 % 256) := by
  obtain ⟨_, x, p, k⟩ := write_RC_seq vs d ⟨hbyte, hbit⟩
  refine ⟨?_, ?_, ?_, x.size_le, p, x.keep, k⟩
  · unfold bit_chain_alloc CHAIN_BLOCK
    split_ifs with h
    · show 40960 = e.size + 40960
      omega
    · rfl
  · intro h
    unfold bit_chain_alloc
    rw [if_neg h]
    exact ⟨fun _ _ => rfl, rfl, rfl⟩
  · intro h
    unfold bit_chain_alloc
    rw [if_pos h]
    exact ⟨fun _ _ => rfl, rfl, rfl⟩

/-- C28 (witness): an empty buffer is allocated, and four bytes written from
byte 1, bit 3 of a four-byte buffer grow it to 40964 bytes. -/
theorem bit_chain_alloc_preserves_witness :
    dat_small.byte < dat_small.size ∧ dat_small.bit < 8
      ∧ ([1, 2, 3, 4].foldl bit_write_RC dat_small).size = 40964
      ∧ (bit_chain_alloc dat_empty).size = dat_empty.size + 40960
      ∧ (∀ i, i < 4 →
          peek ([1, 2, 3, 4].foldl bit_write_RC dat_small).chain (pos dat_small + 8 * i) 8
            = [1, 2, 3, 4].getD i 0 % 256) :=
  ⟨by decide, by decide, by decide,
    (bit_chain_alloc_preserves dat_empty dat_small [1, 2, 3, 4] (by decide) (by decide)).1,
    (bit_chain_alloc_preserves dat_empty dat_small [1, 2, 3, 4] (by decide) (by decide)).2.2.2.2.2.2⟩

/-- C29: `calculate_mirror_crc` returns an 8-bit value.  For every data byte
and accumulator the result is below 256; with accumulator 0 and byte 1 it is
`0x79`, the low byte of the table entry `0x7ad870c830358979`. -/
theorem calculate_mirror_crc_is_8_bit :
    (∀ data crc, calculate_mirror_crc data crc < 256)
      ∧ calculate_mirror_crc 1 0 = 0x79
      ∧ ckr64table_mirror.getD ((0 ^^^ 1) &&& 0xff) 0 ^^^ (0 >>> 8) = 0x7ad870c830358979
      ∧ calculate_mirror_crc 1 0 ≠ 0x7ad870c830358979 := by
  refine ⟨fun data crc => ?_, by decide, by decide, by decide⟩
  unfold calculate_mirror_crc UCHAR
  exact Nat.mod_lt _ (by norm_num)

/-- C30: cursor invariant under forward reads.  With the cursor inside the
buffer (`byte < size`, bit offset 0..7), each of `bit_read_B`, `bit_read_BB`,
`bit_read_RC`, `bit_read_RS` and `bit_read_RL` reads only indices below `size`
and leaves the cursor inside the buffer (`byte < size`, bit offset 0..7, size
unchanged); in the last byte the byte index stays and the bit offset becomes
the smaller of `bit + n` and 7. -/
theorem bit_read_cursor_invariant (d : Bit_Chain) (hbyte : d.byte < d.size) (hbit : d.bit < 8) :
    ((∀ i ∈ bit_read_B_reads d, i < d.size) ∧ WF (bit_read_B d).2
        ∧ (bit_read_B d).2.size = d.size)
      ∧ ((∀ i ∈ bit_read_BB_reads d, i < d.size) ∧ WF (bit_read_BB d).2
        ∧ (bit_read_BB d).2.size = d.size)
      ∧ ((∀ i ∈ bit_read_RC_reads d, i < d.size) ∧ WF (bit_read_RC d).2
        ∧ (bit_read_RC d).2.size = d.size)
      ∧ ((∀ i ∈ bit_read_RS_reads d, i < d.size) ∧ WF (bit_read_RS d).2
        ∧ (bit_read_RS d).2.size = d.size)
      ∧ ((∀ i ∈ bit_read_RL_reads d, i < d.size) ∧ WF (bit_read_RL d).2
        ∧ (bit_read_RL d).2.size = d.size)
      ∧ (d.byte + 1 = d.size →
          (bit_read_B d).2 = { d with bit := min (d.bit + 1) 7 }
            ∧ (bit_read_BB d).2 = { d with bit := min (d.bit + 2) 7 }
            ∧ (bit_read_RC d).2 = { d with bit := 7 }) := by
  have h : WF d := ⟨hbyte, hbit⟩
  refine ⟨read_B_inv d h, read_BB_inv d h, read_RC_inv d h, read_RS_inv d h, read_RL_inv d h, ?_⟩
  intro hl
  refine ⟨advance_last d 1 hl hbit, advance_last d 2 hl hbit, ?_⟩
  have e := advance_last d 8 hl hbit
  have e1 : min (d.bit + 8) 7 = 7 := by omega
  rw [e1] at e
  exact e

/-- C30 (witness): the reads started in the last byte of a four-byte buffer,
at bit 5. -/
theorem bit_read_cursor_invariant_witness :
    dat_last.byte < dat_last.size ∧ dat_last.bit < 8
      ∧ (∀ i ∈ bit_read_RL_reads dat_last, i < dat_last.size)
      ∧ WF (bit_read_RL dat_last).2 :=
  ⟨by decide, by decide,
    (bit_read_cursor_invariant dat_last (by decide) (by decide)).2.2.2.2.1.1,
    (bit_read_cursor_invariant dat_last (by decide) (by decide)).2.2.2.2.1.2.1⟩

/-- C31: the byte read agrees with bit reads.  For every cursor with
`byte < size - 1` and bit offset 0..7, `bit_read_RC` returns the value and the
state of eight successive `bit_read_B` calls from the same position, the bits
assembled most significant first, and `bit_read_BB` those of two successive
`bit_read_B` calls; the cursor ends exactly 8, respectively 2, bits further,
also when the field straddles a byte boundary. -/
theorem bit_read_agrees_with_bit_reads (d : Bit_Chain) (hbyte : d.byte < d.size - 1)
    (hbit : d.bit < 8) :
    bit_read_RC d = read_bits_reference 8 d
      ∧ bit_read_BB d = read_bits_reference 2 d
      ∧ pos (bit_read_RC d).2 = pos d + 8
      ∧ pos (bit_read_BB d).2 = pos d + 2 := by
  have hr : d.byte + 1 < d.size := by omega
  rw [read_RC_eq d hbit hr, read_BB_eq d hbit hr,
    read_bits_reference_eq 8 d (by omega) hbit hr, read_bits_reference_eq 2 d (by omega) hbit hr]
  have e1 : (d.bit + 8) % 8 = d.bit := by omega
  have e2 : (d.bit + 8) / 8 = 1 := by omega
  refine ⟨by rw [e1, e2], rfl, ?_, ?_⟩
  · unfold pos
    show 8 * (d.byte + 1) + d.bit = 8 * d.byte + d.bit + 8
    omega
  · unfold pos
    show 8 * (d.byte + (d.bit + 2) / 8) + (d.bit + 2) % 8 = 8 * d.byte + d.bit + 2
    omega

/-- C31 (witness): at byte 2, bit 7 of an 8-byte buffer both fields straddle
bytes 2 and 3; the byte read is `0xAD`, the two-bit read is 2. -/
theorem bit_read_agrees_with_bit_reads_witness :
    dat_straddle.byte < dat_straddle.size - 1 ∧ dat_straddle.bit < 8
      ∧ bit_read_RC dat_straddle = read_bits_reference 8 dat_straddle
      ∧ bit_read_BB dat_straddle = read_bits_reference 2 dat_straddle
      ∧ (bit_read_RC dat_straddle).1 = 0xAD
      ∧ (bit_read_BB dat_straddle).1 = 2 :=
  ⟨by decide, by decide,
    (bit_read_agrees_with_bit_reads dat_straddle (by decide) (by decide)).1,
    (bit_read_agrees_with_bit_reads dat_straddle (by decide) (by decide)).2.1,
    by decide, by decide⟩

/-- C32: unaligned writes touch only their own bits.  For every cursor with
`byte < size - 1` and bit offset 0..7, `bit_write_RC` sets the 8 bits from the
cursor to those of `v`, most significant first, and `bit_write_BB` with
`c` in 0..3 sets the 2 bits from the cursor to those of `c`; every other bit
of the memory and the size of the buffer are unchanged. -/
theorem bit_write_touches_own_bits (d : Bit_Chain) (v c : Nat) (hbyte : d.byte < d.size - 1)
    (hbit : d.bit < 8) (hc : c < 4) :
    ((∀ i, i < 8 → bitAt (bit_write_RC d v).chain (pos d + i) = v / 2 ^ (7 - i) % 2)
        ∧ peek (bit_write_RC d v).chain (pos d) 8 = v % 256
        ∧ (∀ q, q < pos d ∨ pos d + 8 ≤ q →
            bitAt (bit_write_RC d v).chain q = bitAt d.chain q)
        ∧ (bit_write_RC d v).size = d.size)
      ∧ ((∀ i, i < 2 → bitAt (bit_write_BB d c).chain (pos d + i) = c / 2 ^ (1 - i) % 2)
        ∧ peek (bit_write_BB d c).chain (pos d) 2 = c
        ∧ (∀ q, q < pos d ∨ pos d + 2 ≤ q →
            bitAt (bit_write_BB d c).chain q = bitAt d.chain q)
        ∧ (bit_write_BB d c).size = d.size) := by
  have hr : d.byte + 1 < d.size := by omega
  have hd : WF d := ⟨by omega, hbit⟩
  have W := write_RC_wrote d v hd
  have B := write_BB_wrote d c hd hc
  refine ⟨⟨fun i hi => ?_, ?_, fun q hq => W.frame q hq, write_RC_size d v hr⟩,
    ⟨fun i hi => ?_, ?_, fun q hq => B.frame q hq, write_BB_size d c hr⟩⟩
  · rw [W.bits]
    have h1 : pos d ≤ pos d + i ∧ pos d + i < pos d + 8 := by omega
    have h2 : pos d + 8 - 1 - (pos d + i) = 7 - i := by omega
    rw [if_pos h1, h2]
  · have := W.peek_eq (Ext.refl _)
    rw [this]
    norm_num
  · rw [B.bits]
    have h1 : pos d ≤ pos d + i ∧ pos d + i < pos d + 2 := by omega
    have h2 : pos d + 2 - 1 - (pos d + i) = 1 - i := by omega
    rw [if_pos h1, h2]
  · have := B.peek_eq (Ext.refl _)
    rw [this]
    exact Nat.mod_eq_of_lt (by omega)

/-- C32 (witness): the byte `0xC3` and the two bits `10` written at byte 2,
bit 7 of an 8-byte buffer, across bytes 2 and 3. -/
theorem bit_write_touches_own_bits_witness :
    dat_straddle.byte < dat_straddle.size - 1 ∧ dat_straddle.bit < 8 ∧ 2 < 4
      ∧ peek (bit_write_RC dat_straddle 0xC3).chain (pos dat_straddle) 8 = 0xC3 % 256
      ∧ (bit_write_RC dat_straddle 0xC3).size = dat_straddle.size
      ∧ peek (bit_write_BB dat_straddle 2).chain (pos dat_straddle) 2 = 2
      ∧ (bit_write_BB dat_straddle 2).size = dat_straddle.size
      ∧ (bit_write_RC dat_straddle 0xC3).chain 2 = 0xA5
      ∧ (bit_write_RC dat_straddle 0xC3).chain 3 = 0x86 :=
  ⟨by decide, by decide, by decide,
    (bit_write_touches_own_bits dat_straddle 0xC3 2 (by decide) (by decide) (by decide)).1.2.1,
    (bit_write_touches_own_bits dat_straddle 0xC3 2 (by decide) (by decide) (by decide)).1.2.2.2,
    (bit_write_touches_own_bits dat_straddle 0xC3 2 (by decide) (by decide) (by decide)).2.2.1,
    (bit_write_touches_own_bits dat_straddle 0xC3 2 (by decide) (by decide) (by decide)).2.2.2.2,
    by decide, by decide⟩

end LibreDWG
